import Mathlib

/-!
# Fossil Logic "magic" scoring engine (`code/logic/magic.c`)

A shallow embedding of the similarity utilities, the command suggester, the
path suggester, the token recoverer and the danger analysis, followed by
theorems about them.

Conventions of the embedding.

* A C string is the list of its characters (`CStr`); an absent (null) string is
  `none`.
* C `int` values are integers; every quantity that occurs stays far below
  `INT_MAX` for strings whose length fits in an `int`.
* A C `float` is an IEEE-754 binary32 number.  Every finite binary32 number is
  an integer multiple of `2^-149`, so a float is represented exactly by that
  integer multiple.  Each arithmetic operation computes the exact
  result and rounds it to the nearest binary32 number, ties to even
  (`FLT_EVAL_METHOD == 0`).  Overflow to infinity cannot occur for the values
  the program computes (they stay below 4) and is not modelled.
* The file system is seen through `stat`, `opendir`/`readdir` and `time`; they
  are the fields of a `file_system` record.  The recursive directory walk
  carries a depth bound `fuel`; the source descends only into names shorter than
  `PATH_MAX`, and every level lengthens the name, so a bound above `PATH_MAX`
  always lets the walk return.
* A store outside the bounds of an array has no defined result; a function that
  performs one yields `none`.
-/

namespace Magic

set_option maxRecDepth 1000000

/-! ## C library character functions ("C" locale) -/

/-- A C string: the characters before the terminating NUL. -/
abbrev CStr := List Char

/-- The libc `isalnum` in the "C" locale: ASCII digits and letters. -/
def c_isalnum (c : Char) : Bool :=
  (48 ≤ c.toNat && c.toNat ≤ 57) || (65 ≤ c.toNat && c.toNat ≤ 90) ||
    (97 ≤ c.toNat && c.toNat ≤ 122)

/-- The libc `tolower` in the "C" locale: maps `A`..`Z` to `a`..`z`. -/
def c_tolower (c : Char) : Char :=
  if 65 ≤ c.toNat ∧ c.toNat ≤ 90 then Char.ofNat (c.toNat + 32) else c

/-- The character `s[k]` of a C string (NUL at and beyond the end). -/
def c_at (s : CStr) (k : Nat) : Char := s.getD k (Char.ofNat 0)

/-- The C constant `INT_MAX` for a 32-bit `int`. -/
def INT_MAX : Nat := 2147483647

/-- The C conversion of a truth value to `int`. -/
def b2i (b : Bool) : Int := if b then 1 else 0

/-! ## String primitives of the Fossil IO library -/

/-- Modelled from the spec: `fossil_io_cstring_compare` is not part of this
source tree; the spec lists it as the string comparison collaborator, and the
program only tests its result against zero, which means "the two strings are
equal". -/
def fossil_io_cstring_compare (a b : CStr) : Int := if a = b then 0 else 1

/-- Modelled from the spec: `fossil_io_cstring_equals` is not part of this
source tree; it is the "exact-equality test" collaborator. -/
def fossil_io_cstring_equals (a b : CStr) : Bool := decide (a = b)

/-- Modelled from the spec: `fossil_io_cstring_iequals` is not part of this
source tree; it is "case-insensitive equality". -/
def fossil_io_cstring_iequals (a b : CStr) : Bool :=
  decide (a.map c_tolower = b.map c_tolower)

/-- Modelled from the spec: `fossil_io_cstring_starts_with` is not part of this
source tree; `starts_with(input, cmd)` is the "prefix" flag, documented in the
header as "1 if input is prefix of suggested". -/
def fossil_io_cstring_starts_with (a b : CStr) : Bool := a.isPrefixOf b

/-- Modelled from the spec: `fossil_io_cstring_case_starts_with` is not part of
this source tree; `case_starts_with(a, b)` is the test "`a` is a
case-insensitive prefix of `b`". -/
def fossil_io_cstring_case_starts_with (a b : CStr) : Bool :=
  (a.map c_tolower).isPrefixOf (b.map c_tolower)

/-- Modelled from the spec: `fossil_io_cstring_case_ends_with` is not part of
this source tree; `case_ends_with(b, a)` is the test "`a` is a case-insensitive
suffix of `b`". -/
def fossil_io_cstring_case_ends_with (b a : CStr) : Bool :=
  (a.map c_tolower).isSuffixOf (b.map c_tolower)

/-! ## IEEE-754 binary32 arithmetic -/

/-! A finite binary32 value `x` is represented by the integer `x * 2^149`; the
type of floats is therefore `Int`, and comparisons of floats are comparisons of
these integers. -/

/-- The number of units (`2^-149`) in `1.0`. -/
def f32_unit : Nat := 2 ^ 149

/-- Round the rational `n / d` to the nearest integer, ties to even. -/
def rne (n d : Nat) : Nat :=
  let q := n / d
  let r := n % d
  if 2 * r < d then q else if d < 2 * r then q + 1 else if q % 2 = 0 then q else q + 1

/-- The number of low bits a value with integer part `f` loses when it is kept
to 24 significant bits: the least `k` with `f / 2^k < 2^24`. -/
def f32_shift : Nat → Nat → Nat
  | 0, _ => 0
  | fuel + 1, f => if f < 2 ^ 24 then 0 else 1 + f32_shift fuel (f / 2)

/-- The binary32 number nearest to `n / d` units (ties to even), in units. -/
def f32_round_nat (n d : Nat) : Nat :=
  let k := f32_shift (n / d) (n / d)
  rne n (d * 2 ^ k) * 2 ^ k

/-- Signed rounding of `n / d` units to binary32. -/
def f32_round (n : Int) (d : Nat) : Int :=
  if n < 0 then - (f32_round_nat n.natAbs d : Int) else (f32_round_nat n.natAbs d : Int)

/-- The conversion `(float)n` of an integer. -/
def f32_of_int (n : Int) : Int := f32_round (n * f32_unit) 1

/-- The decimal literal `n/d` written with an `f` suffix (`0.10f` is
`f32_lit 1 10`). -/
def f32_lit (n d : Nat) : Int := f32_round (n * f32_unit) d

/-- Single-precision `x + y`. -/
def f32_add (x y : Int) : Int := f32_round (x + y) 1

/-- Single-precision `x - y`. -/
def f32_sub (x y : Int) : Int := f32_round (x - y) 1

/-- Single-precision `x / y` (for `y ≠ 0`). -/
def f32_div (x y : Int) : Int := f32_round (x * Int.sign y * f32_unit) y.natAbs

/-- The value `1.0f`. -/
def f32_one : Int := f32_lit 1 1

/-! ## Edit distance -/

/-- The macro `DP(i, j)`: the index `(i) * (len2 + 1) + (j)` into `dp`. -/
def DP (len2 i j : Nat) : Nat := i * (len2 + 1) + j

/-- The assignment `dp[k] = v`. -/
def mem_set (dp : Nat → Nat) (k v : Nat) : Nat → Nat :=
  fun x => if x = k then v else dp x

/-- The smaller of two `int`s as the source writes it: `a < b ? a : b`. -/
def c_min (a b : Nat) : Nat := if a < b then a else b

/-- The substitution cost of `s1[i-1]` against `s2[j-1]`. -/
def lev_cost (s1 s2 : CStr) (i j : Nat) : Nat :=
  if c_tolower (c_at s1 (i - 1)) = c_tolower (c_at s2 (j - 1)) then 0 else 1

/-- The guard of the transposition rule at cell `(i, j)`. -/
def lev_transposed (s1 s2 : CStr) (i j : Nat) : Bool :=
  decide (1 < i) && decide (1 < j) &&
    decide (c_tolower (c_at s1 (i - 1)) = c_tolower (c_at s2 (j - 2))) &&
    decide (c_tolower (c_at s1 (i - 2)) = c_tolower (c_at s2 (j - 1)))

/-- The loop `for (j = 0; j <= len2; j++) dp[(0)*(len2+2)+(j)] = j;`,
run for `j = 0 .. n-1`. -/
def lev_init (len2 : Nat) : Nat → (Nat → Nat) → (Nat → Nat)
  | 0, dp => dp
  | n + 1, dp => mem_set (lev_init len2 n dp) (0 * (len2 + 2) + n) n

/-- The body of the inner loop: fill cell `(i, j)`. -/
def lev_cell (s1 s2 : CStr) (i j : Nat) (dp : Nat → Nat) : Nat → Nat :=
  let len2 := s2.length
  let cost := lev_cost s1 s2 i j
  let del := dp (DP len2 (i - 1) j) + 1
  let ins := dp (DP len2 i (j - 1)) + 1
  let sub := dp (DP len2 (i - 1) (j - 1)) + cost
  let min := c_min del ins
  let min := c_min min sub
  let dp := mem_set dp (DP len2 i j) min
  if lev_transposed s1 s2 i j then
    mem_set dp (DP len2 i j) (c_min (dp (DP len2 i j)) (dp (DP len2 (i - 2) (j - 2)) + cost))
  else dp

/-- The inner loop `for (j = 1; j <= n; j++)` of row `i`. -/
def lev_row (s1 s2 : CStr) (i : Nat) : Nat → (Nat → Nat) → (Nat → Nat)
  | 0, dp => dp
  | n + 1, dp => lev_cell s1 s2 i (n + 1) (lev_row s1 s2 i n dp)

/-- The outer loop `for (i = 1; i <= m; i++)`. -/
def lev_rows (s1 s2 : CStr) : Nat → (Nat → Nat) → (Nat → Nat)
  | 0, dp => dp
  | m + 1, dp => lev_row s1 s2 (m + 1) s2.length (lev_rows s1 s2 m dp)

/-- The table `dp` when the loops have finished, starting from the zeroed
block that `calloc` returns. -/
def lev_table (s1 s2 : CStr) : Nat → Nat :=
  lev_rows s1 s2 s1.length (lev_init s2.length (s2.length + 1) (fun _ => 0))

/-- The function `fossil_it_magic_levenshtein_distance` (allocation assumed to
succeed). -/
def fossil_it_magic_levenshtein_distance (s1 s2 : Option CStr) : Nat :=
  match s1, s2 with
  | some s1, some s2 => lev_table s1 s2 (DP s2.length s1.length s2.length)
  | _, _ => INT_MAX

/-- The value the loops store in cell `(i, j)`, as a recurrence: row 0 holds
`j`, column 0 of the later rows keeps the zero of `calloc`. -/
def levD (s1 s2 : CStr) : Nat → Nat → Nat
  | 0, j => j
  | _ + 1, 0 => 0
  | i + 1, j + 1 =>
    let cost := lev_cost s1 s2 (i + 1) (j + 1)
    let m := c_min (c_min (levD s1 s2 i (j + 1) + 1) (levD s1 s2 (i + 1) j + 1))
      (levD s1 s2 i j + cost)
    if lev_transposed s1 s2 (i + 1) (j + 1) then c_min m (levD s1 s2 (i - 1) (j - 1) + cost)
    else m
termination_by i j => (i, j)
decreasing_by
  all_goals simp_wf
  · exact Prod.Lex.left _ _ (Nat.lt_succ_self i)
  · exact Prod.Lex.right _ (Nat.lt_succ_self j)
  · exact Prod.Lex.left _ _ (Nat.lt_succ_self i)
  · exact Prod.Lex.left _ _ (by omega)

/-! ## Token overlap (Jaccard index) -/

/-- The loop `while (*p && !isalnum(*p)) p++;`. -/
def tok_skip : CStr → CStr
  | [] => []
  | c :: p => if c_isalnum c then c :: p else tok_skip p

/-- The loop `while (*p && isalnum(*p) && i < 31) tokens[count][i++] =
tolower(*p++);` with `room = 31 - i`; returns the token so far and the rest of
the input. -/
def tok_read : Nat → CStr → CStr → CStr × CStr
  | 0, p, tok => (tok, p)
  | _ + 1, [], tok => (tok, [])
  | room + 1, c :: p, tok =>
    if c_isalnum c then tok_read room p (tok ++ [c_tolower c]) else (tok, c :: p)

/-- The loop `while (*p && count < 32) { ... }`; every iteration that starts
at a non-empty `p` consumes a character, so `fuel = strlen` iterations
suffice. -/
def tok_loop : Nat → CStr → List CStr → List CStr
  | 0, _, tokens => tokens
  | fuel + 1, p, tokens =>
    if p ≠ [] ∧ tokens.length < 32 then
      let r := tok_read 31 (tok_skip p) []
      tok_loop fuel r.2 (if r.1 ≠ [] then tokens ++ [r.1] else tokens)
    else tokens

/-- The tokens (`tokens1[0 .. count1-1]`) extracted from a string. -/
def tokenize (s : CStr) : List CStr := tok_loop s.length s []

/-- The inner matching loop from index `j` on, `n` candidates left: the first
`j` with `!used[j]` and an equal token, if any (the `break`). -/
def jac_scan (tok : CStr) (tokens2 : List CStr) (used : Nat → Bool) : Nat → Nat → Option Nat
  | 0, _ => none
  | n + 1, j =>
    if !used j && decide (fossil_io_cstring_compare tok (tokens2.getD j []) = 0) then some j
    else jac_scan tok tokens2 used n (j + 1)

/-- One iteration of the outer matching loop on the state `(match, used)`. -/
def jac_step (tokens2 : List CStr) (st : Nat × (Nat → Bool)) (tok : CStr) : Nat × (Nat → Bool) :=
  match jac_scan tok tokens2 st.2 tokens2.length 0 with
  | some j => (st.1 + 1, fun x => if x = j then true else st.2 x)
  | none => st

/-- The number `match` of greedy matches. -/
def jac_match (tokens1 tokens2 : List CStr) : Nat :=
  (tokens1.foldl (jac_step tokens2) (0, fun _ => false)).1

/-- The function `fossil_it_magic_jaccard_index`. -/
def fossil_it_magic_jaccard_index (s1 s2 : Option CStr) : Nat :=
  match s1, s2 with
  | some s1, some s2 =>
    let tokens1 := tokenize s1
    let tokens2 := tokenize s2
    let m := jac_match tokens1 tokens2
    let total := tokens1.length + tokens2.length - m
    if total ≠ 0 then 100 * m / total else 0
  | _, _ => 0

/-! ## Similarity -/

/-- The two clamping statements `if (x > 1.0f) x = 1.0f; if (x < 0.0f) x = 0.0f;`. -/
def f32_clamp01 (x : Int) : Int :=
  let x := if x > f32_one then f32_one else x
  if x < 0 then 0 else x

/-- The function `fossil_it_magic_similarity`. -/
def fossil_it_magic_similarity (a b : Option CStr) : Int :=
  match a, b with
  | some a, some b =>
    if a.length = 0 ∧ b.length = 0 then f32_one
    else
      let dist := fossil_it_magic_levenshtein_distance (some a) (some b)
      let max_len := if a.length > b.length then a.length else b.length
      let sim := f32_sub f32_one (f32_div (f32_of_int dist) (f32_of_int max_len))
      let jaccard := fossil_it_magic_jaccard_index (some a) (some b)
      let sim := f32_add sim (f32_div (f32_of_int jaccard) (f32_lit 200 1))
      let sim := if fossil_io_cstring_case_starts_with a b then f32_add sim (f32_lit 10 100) else sim
      let sim :=
        if a.length ≤ b.length ∧ fossil_io_cstring_case_ends_with b a then
          f32_add sim (f32_lit 7 100)
        else sim
      f32_clamp01 sim
  | _, _ => 0


/-! ## Reference definitions taken from the specification -/

/-- The classic restricted Damerau-Levenshtein (optimal string alignment)
table of the specification, case-insensitive: row 0 holds `j`, column 0 holds
`i`, and a cell is the cheapest of deletion, insertion, substitution and, for an
adjacent transposition, the diagonal-minus-one cell plus the substitution cost. -/
def osa_ref (s1 s2 : CStr) : Nat → Nat → Nat
  | 0, j => j
  | i + 1, 0 => i + 1
  | i + 1, j + 1 =>
    let cost := lev_cost s1 s2 (i + 1) (j + 1)
    let m := min (min (osa_ref s1 s2 i (j + 1) + 1) (osa_ref s1 s2 (i + 1) j + 1))
      (osa_ref s1 s2 i j + cost)
    if lev_transposed s1 s2 (i + 1) (j + 1) then min m (osa_ref s1 s2 (i - 1) (j - 1) + cost)
    else m
termination_by i j => (i, j)
decreasing_by
  all_goals simp_wf
  · exact Prod.Lex.left _ _ (Nat.lt_succ_self i)
  · exact Prod.Lex.right _ (Nat.lt_succ_self j)
  · exact Prod.Lex.left _ _ (Nat.lt_succ_self i)
  · exact Prod.Lex.left _ _ (by omega)

/-- The reference formula of the specification for `similarity`, evaluated in
single precision from left to right: `0.0` if a string is absent, `1.0` if both
are empty, otherwise the clamp to `[0, 1]` of
`1 - d / max(len a, len b) + J / 200 + (0.10 if a is a case-insensitive prefix
of b) + (0.07 if len a ≤ len b and a is a case-insensitive suffix of b)`, with
`d` and `J` the program's distance and Jaccard index. -/
def similarity_ref (a b : Option CStr) : Int :=
  match a, b with
  | none, _ => 0
  | _, none => 0
  | some a, some b =>
    if a = [] ∧ b = [] then f32_one
    else
      let d : Int := fossil_it_magic_levenshtein_distance (some a) (some b)
      let J : Int := fossil_it_magic_jaccard_index (some a) (some b)
      let base := f32_sub f32_one (f32_div (f32_of_int d) (f32_of_int ((max a.length b.length : Nat) : Int)))
      let t1 := f32_div (f32_of_int J) (f32_of_int 200)
      let t2 := if a.map c_tolower <+: b.map c_tolower then f32_lit 10 100 else 0
      let t3 :=
        if a.length ≤ b.length ∧ a.map c_tolower <:+ b.map c_tolower then f32_lit 7 100 else 0
      max 0 (min f32_one (f32_add (f32_add (f32_add base t1) t2) t3))

/-! ## Command suggestion -/

/-- The contents of a `fossil_ti_reason_t` trace. -/
structure fossil_ti_reason_t where
  input : CStr
  suggested : CStr
  edit_distance : Int
  confidence_score : Int
  jaccard_index : Int
  prefix_match : Int
  suffix_match : Int
  case_insensitive : Int
  reason : String
deriving DecidableEq

/-- The locals `best_match`, `best_score`, `best_distance`, `best_jaccard`,
`best_prefix`, `best_suffix` and `best_case_insensitive` of
`fossil_it_magic_suggest_command`. -/
structure suggest_state where
  best_match : Option CStr
  best_score : Int
  best_distance : Int
  best_jaccard : Int
  best_prefix_match : Int
  best_suffix_match : Int
  best_case_insensitive : Int
deriving DecidableEq

/-- The initial values of the `best_*` locals. -/
def suggest_start : suggest_state := suggest_state.mk none 0 INT_MAX 0 0 0 0

/-- The candidate's local `prefix`. -/
def cand_prefix_match (input c : CStr) : Int := b2i (fossil_io_cstring_starts_with input c)

/-- The candidate's local `suffix`. -/
def cand_suffix_match (input c : CStr) : Int :=
  if input.length ≤ c.length ∧ fossil_io_cstring_case_ends_with c input then 1 else 0

/-- The candidate's local `distance`. -/
def cand_distance (input c : CStr) : Int :=
  fossil_it_magic_levenshtein_distance (some input) (some c)

/-- The candidate's local `score` after all bonuses and the clamp. -/
def cand_score (input c : CStr) : Int :=
  let jaccard : Int := fossil_it_magic_jaccard_index (some input) (some c)
  let case_insensitive := b2i (fossil_io_cstring_iequals input c)
  let exact := b2i (fossil_io_cstring_equals input c)
  let sim := fossil_it_magic_similarity (some input) (some c)
  let score := sim
  let score := if cand_prefix_match input c ≠ 0 then f32_add score (f32_lit 15 100) else score
  let score := if cand_suffix_match input c ≠ 0 then f32_add score (f32_lit 10 100) else score
  let score := if case_insensitive ≠ 0 then f32_add score (f32_lit 5 100) else score
  let score := if exact ≠ 0 then f32_add score (f32_lit 20 100) else score
  let score := f32_add score (f32_div (f32_of_int jaccard) (f32_lit 200 1))
  f32_clamp01 score

/-- One iteration of the candidate loop. -/
def suggest_step (input : CStr) (st : suggest_state) (cmd : Option CStr) : suggest_state :=
  match cmd with
  | none => st
  | some c =>
    let distance := cand_distance input c
    let jaccard : Int := fossil_it_magic_jaccard_index (some input) (some c)
    let pre := cand_prefix_match input c
    let suf := cand_suffix_match input c
    let case_insensitive := b2i (fossil_io_cstring_iequals input c)
    let exact := b2i (fossil_io_cstring_equals input c)
    let score := cand_score input c
    if exact ≠ 0 ∨ score > st.best_score ∨
        (score = st.best_score ∧ distance < st.best_distance) ∨
        (score = st.best_score ∧ distance = st.best_distance ∧ pre > st.best_prefix_match) then
      suggest_state.mk (some c) score distance jaccard pre suf case_insensitive
    else st

/-- The candidate loop `for (i = 0; i < num_commands; i++)`. -/
def suggest_loop (input : CStr) (commands : List (Option CStr)) : suggest_state :=
  commands.foldl (suggest_step input) suggest_start

/-- The explanation text chosen for the trace. -/
def suggest_reason (st : suggest_state) : String :=
  if st.best_score ≥ f32_lit 95 100 then "Exact or strong semantic match"
  else if st.best_score ≥ f32_lit 85 100 then "Strong semantic and token match"
  else if st.best_score ≥ f32_lit 7 10 then "Close semantic match"
  else if st.best_prefix_match ≠ 0 then "Prefix match"
  else if st.best_case_insensitive ≠ 0 then "Case-insensitive match"
  else "Low confidence match"

/-- The function `fossil_it_magic_suggest_command` with a trace supplied: the
returned pointer and what is written to `*out_reason` (`none` when nothing is
written).  The array `commands` is given by its `num_commands` entries; an
absent array is `none`. -/
def suggest_command_full (input : Option CStr) (commands : Option (List (Option CStr))) :
    Option CStr × Option fossil_ti_reason_t :=
  match input, commands with
  | some input, some commands =>
    if commands.length ≤ 0 then (none, none)
    else
      let st := suggest_loop input commands
      match st.best_match with
      | none => (none, none)
      | some best =>
        (if st.best_score ≥ f32_lit 7 10 then some best else none,
          some (fossil_ti_reason_t.mk input best st.best_distance st.best_score st.best_jaccard
            st.best_prefix_match st.best_suffix_match st.best_case_insensitive
            (suggest_reason st)))
  | _, _ => (none, none)

/-- The return value of `fossil_it_magic_suggest_command`. -/
def fossil_it_magic_suggest_command (input : Option CStr)
    (commands : Option (List (Option CStr))) : Option CStr :=
  (suggest_command_full input commands).1

/-! ## Token auto-recovery -/

/-- The contents of a `fossil_ti_autorecovery_t` result. -/
structure fossil_ti_autorecovery_t where
  original_token : CStr
  recovered_token : CStr
  confidence : Int
  applied : Int
  first_best_token : CStr
  first_best_confidence : Int
  second_best_token : CStr
  second_best_confidence : Int
deriving DecidableEq

/-- The adjusted score of one candidate in `fossil_it_magic_autorecovery_token`
(and of one directory entry in `fossil_it_magic_path_suggest`): the similarity
plus the two affix bonuses, not clamped again. -/
def adjusted_score (token c : CStr) : Int :=
  let score := fossil_it_magic_similarity (some token) (some c)
  let score :=
    if fossil_io_cstring_case_starts_with token c then f32_add score (f32_lit 10 100) else score
  let score :=
    if token.length ≤ c.length ∧ fossil_io_cstring_case_ends_with c token then
      f32_add score (f32_lit 7 100)
    else score
  score

/-- The locals `best_score`, `best_idx`, `second_best_score`, `second_best_idx`. -/
structure recover_state where
  best_score : Int
  best_idx : Int
  second_best_score : Int
  second_best_idx : Int
deriving DecidableEq

/-- One iteration of the candidate loop, at index `i`. -/
def recover_step (token : CStr) (st : recover_state) (i : Nat) (c : CStr) : recover_state :=
  let score := adjusted_score token c
  if score > st.best_score then recover_state.mk score i st.best_score st.best_idx
  else if score > st.second_best_score then recover_state.mk st.best_score st.best_idx score i
  else st

/-- The candidate loop over `candidates[i ..]`. -/
def recover_loop (token : CStr) : List CStr → Nat → recover_state → recover_state
  | [], _, st => st
  | c :: cs, i, st => recover_loop token cs (i + 1) (recover_step token st i c)

/-- The call `strncpy(dst, src, sizeof(dst) - 1); dst[sizeof(dst) - 1] = 0` for
a 256-byte field. -/
def copy256 (s : CStr) : CStr := s.take 255

/-- The function `fossil_it_magic_autorecovery_token`: the result written to
`*out`. -/
def fossil_it_magic_autorecovery_token (token : CStr) (candidates : List CStr) :
    fossil_ti_autorecovery_t :=
  let st := recover_loop token candidates 0 (recover_state.mk 0 (-1) 0 (-1))
  if st.best_idx ≥ 0 then
    let best := copy256 (candidates.getD st.best_idx.toNat [])
    let second :=
      if st.second_best_idx ≥ 0 then
        (copy256 (candidates.getD st.second_best_idx.toNat []), st.second_best_score)
      else ([], 0)
    fossil_ti_autorecovery_t.mk (copy256 token) best st.best_score
      (b2i (decide (st.best_score > f32_lit 80 100))) best st.best_score second.1 second.2
  else
    fossil_ti_autorecovery_t.mk (copy256 token) [] 0 0 [] 0 [] 0

/-! ## Auxiliary notions used in the proofs -/

/-- The cells that hold their final value just before cell `(i, j)` is filled. -/
def lev_done (i j : Nat) (i' j' : Nat) : Prop :=
  i' = 0 ∨ j' = 0 ∨ i' < i ∨ (i' = i ∧ j' < j)

/-- Every finished cell of `dp` holds the value of the recurrence. -/
def lev_known (s1 s2 : CStr) (i j : Nat) (dp : Nat → Nat) : Prop :=
  ∀ i' j', j' ≤ s2.length → lev_done i j i' j' → dp (DP s2.length i' j') = levD s1 s2 i' j'

/-- The number of indices `j < n` with `used[j]` set. -/
def used_count (used : Nat → Bool) : Nat → Nat
  | 0 => 0
  | n + 1 => used_count used n + (if used n then 1 else 0)

/-- The candidate list `["build", "test", "run"]` of the examples in the
specification. -/
def example_commands : List (Option CStr) :=
  [some "build".toList, some "test".toList, some "run".toList]

/-- The state holds the values of an exact match: score `1.0`, distance `0` and
the flag `prefix` set. -/
def suggest_exact (input : CStr) (st : suggest_state) : Prop :=
  st.best_match = some input ∧ st.best_score = f32_one ∧ st.best_distance = 0 ∧
    st.best_prefix_match = 1

/-- Candidate `c` does not beat candidate `w`: its score is not higher; at equal
score its distance is not lower; at equal score and distance its flag `prefix`
is not higher. -/
def cand_le (input c w : CStr) : Prop :=
  cand_score input c ≤ cand_score input w ∧
    (cand_score input c = cand_score input w → cand_distance input w ≤ cand_distance input c) ∧
    (cand_score input c = cand_score input w → cand_distance input c = cand_distance input w →
      cand_prefix_match input c ≤ cand_prefix_match input w)

/-- The loop invariant of the candidate loop after the candidates `seen`: with
no winner yet the state is the initial one and no candidate was present; a
winner is one of the candidates seen, the state records its own values, and
unless an exact match was seen no candidate seen beats it. -/
def suggest_inv (input : CStr) (seen : List (Option CStr)) (st : suggest_state) : Prop :=
  (st.best_match = none → st = suggest_start ∧ ∀ c, some c ∉ seen) ∧
    (∀ w, st.best_match = some w →
      some w ∈ seen ∧ st.best_score = cand_score input w ∧
        st.best_distance = cand_distance input w ∧
        st.best_jaccard = (fossil_it_magic_jaccard_index (some input) (some w) : Int) ∧
        st.best_prefix_match = cand_prefix_match input w ∧
        st.best_suffix_match = cand_suffix_match input w ∧
        st.best_case_insensitive = b2i (fossil_io_cstring_iequals input w) ∧
        (some input ∉ seen → ∀ c, some c ∈ seen → cand_le input c w))

/-! ## The platform as the program observes it -/

/-- The parts of a `struct stat` that the program reads: the mode tests
`S_ISDIR`, `S_ISLNK`, `st_mode & S_IWUSR`, `st_mode & S_IWOTH`, and the fields
`st_size` and `st_mtime`. -/
structure c_stat where
  is_dir : Bool
  is_lnk : Bool
  mode_wusr : Bool
  mode_woth : Bool
  st_size : Int
  st_mtime : Int
deriving DecidableEq

/-- The file system and the platform constants behind the libc calls (POSIX
branch of the source).  `PATH_MAX` is the constant of `<limits.h>`, which is
not part of the source tree and is therefore a parameter; `stat p` is the
result of `stat(p, &st)` (`none` when it fails); `readdir p` is the sequence of
entry names that `opendir(p)` and repeated `readdir` deliver, `"."` and `".."`
included (`none` when `opendir` fails); `time_now` is `time(NULL)`. -/
structure file_system where
  PATH_MAX : Nat
  stat : CStr → Option c_stat
  readdir : CStr → Option (List CStr)
  time_now : Int

/-- The test `!strcmp(name, ".") || !strcmp(name, "..")`. -/
def is_dot_entry (name : CStr) : Bool :=
  decide (name = ".".toList) || decide (name = "..".toList)

/-- The text that `snprintf(buf, size, "%s/%s", dir, name)` formats; its length
is the return value `needed`. -/
def join_path (dir name : CStr) : CStr := dir ++ '/' :: name

/-- The content of a `PATH_MAX`-byte buffer after `snprintf` of the text `s`:
at most `PATH_MAX - 1` characters are kept. -/
def snprintf_buf (fs : file_system) (s : CStr) : CStr := s.take (fs.PATH_MAX - 1)

/-! ## Path auto-correction -/

/-- One element of the local array `candidates[32]`. -/
structure path_candidate where
  name : CStr
  score : Int
  path_exists : Int
deriving DecidableEq

/-- A `fossil_ti_path_suggestion_t` (the field `exists` is called
`path_exists`). -/
structure fossil_ti_path_suggestion_t where
  candidate_path : CStr
  similarity_score : Int
  path_exists : Int
deriving DecidableEq

/-- A `fossil_ti_path_suggestion_set_t`: the array `list[16]` followed by
`count`.  The field `list` is the sequence `list[0 .. count-1]` of the elements
stored so far, in index order; it never holds more than the 16 elements of the
array, because `path_emit` refuses a store at an index outside of it. -/
structure fossil_ti_path_suggestion_set_t where
  list : List fossil_ti_path_suggestion_t
  count : Int
deriving DecidableEq

/-- The loop `while ((ent = readdir(d)) && idx < 32)` over the entries still to
be delivered; `cands` is `candidates[0 .. idx-1]`. -/
def path_scan (fs : file_system) (bad_path base_dir : CStr) :
    List CStr → List path_candidate → List path_candidate
  | [], cands => cands
  | ent :: rest, cands =>
    if ¬ cands.length < 32 then cands
    else if is_dot_entry ent then path_scan fs bad_path base_dir rest cands
    else
      let score := adjusted_score bad_path ent
      if score < f32_lit 18 100 then path_scan fs bad_path base_dir rest cands
      else
        let needed := (join_path base_dir ent).length
        if needed ≥ fs.PATH_MAX then path_scan fs bad_path base_dir rest cands
        else
          path_scan fs bad_path base_dir rest
            (cands ++ [path_candidate.mk (join_path base_dir ent) score
              (b2i (fs.stat (join_path base_dir ent)).isSome)])

/-- The array element `candidates[k]`. -/
def cand_at (l : List path_candidate) (k : Nat) : path_candidate :=
  l.getD k (path_candidate.mk [] 0 0)

/-- The three `memcpy` calls that exchange `candidates[i]` and `candidates[j]`. -/
def cand_swap (l : List path_candidate) (i j : Nat) : List path_candidate :=
  (l.set i (cand_at l j)).set j (cand_at l i)

/-- The inner loop `for (j = ...; j < idx; j++)` from index `j` on, with `n`
iterations left. -/
def path_sort_inner (i : Nat) : Nat → Nat → List path_candidate → List path_candidate
  | 0, _, l => l
  | n + 1, j, l =>
    path_sort_inner i n (j + 1)
      (if (cand_at l j).score > (cand_at l i).score then cand_swap l i j else l)

/-- The outer loop `for (i = ...; i < idx - 1; i++)` from index `i` on, with `n`
iterations left. -/
def path_sort_outer : Nat → Nat → List path_candidate → List path_candidate
  | 0, _, l => l
  | n + 1, i, l => path_sort_outer n (i + 1) (path_sort_inner i (l.length - (i + 1)) (i + 1) l)

/-- The two nested sorting loops on `candidates[0 .. idx-1]`. -/
def path_sort (l : List path_candidate) : List path_candidate :=
  path_sort_outer (l.length - 1) 0 l

/-- The call `strncpy(dst, src, sizeof(dst) - 1)` followed by the terminator,
for a 512-byte field. -/
def copy512 (s : CStr) : CStr := s.take 511

/-- The number of elements of the array `list` of a
`fossil_ti_path_suggestion_set_t`. -/
def path_list_capacity : Int := 16

/-- The loop `for (i = 0; i < idx; i++)` that writes `out->list[out->count]` and
increments `out->count`, over the candidates still to be copied.  The loop has
no test against the size of `list`: a pass that finds `out->count` outside
`0 .. 15` stores outside the array, and the result is `none`. -/
def path_emit : List path_candidate → fossil_ti_path_suggestion_set_t →
    Option fossil_ti_path_suggestion_set_t
  | [], out => some out
  | c :: cs, out =>
    if 0 ≤ out.count ∧ out.count < path_list_capacity then
      path_emit cs (fossil_ti_path_suggestion_set_t.mk
        (out.list ++ [fossil_ti_path_suggestion_t.mk (copy512 c.name) c.score c.path_exists])
        (out.count + 1))
    else none

/-- The function `fossil_it_magic_path_suggest`: the set written to `*out`, or
`none` when the output loop stores outside `out->list`. -/
def fossil_it_magic_path_suggest (fs : file_system) (bad_path base_dir : CStr) :
    Option fossil_ti_path_suggestion_set_t :=
  match fs.readdir base_dir with
  | none => some (fossil_ti_path_suggestion_set_t.mk [] 0)
  | some entries =>
    path_emit (path_sort (path_scan fs bad_path base_dir entries []))
      (fossil_ti_path_suggestion_set_t.mk [] 0)

/-- An entry passes the three `continue` tests of the scanning loop. -/
def path_accepts (fs : file_system) (bad_path base_dir ent : CStr) : Bool :=
  !is_dot_entry ent && !decide (adjusted_score bad_path ent < f32_lit 18 100) &&
    !decide ((join_path base_dir ent).length ≥ fs.PATH_MAX)

/-- The candidate stored for an accepted entry. -/
def path_candidate_of (fs : file_system) (bad_path base_dir ent : CStr) : path_candidate :=
  path_candidate.mk (join_path base_dir ent) (adjusted_score bad_path ent)
    (b2i (fs.stat (join_path base_dir ent)).isSome)

/-- The candidates of all accepted entries of a listing, in enumeration order. -/
def path_accepted (fs : file_system) (bad_path base_dir : CStr) (entries : List CStr) :
    List path_candidate :=
  (entries.filter (path_accepts fs bad_path base_dir)).map (path_candidate_of fs bad_path base_dir)

/-- The suggestion written for a candidate. -/
def suggestion_of (c : path_candidate) : fossil_ti_path_suggestion_t :=
  fossil_ti_path_suggestion_t.mk (copy512 c.name) c.score c.path_exists

/-! ## Danger detection -/

/-- The libc `strrchr`: the tail of the string that starts at the last
occurrence of `c`. -/
def c_strrchr : CStr → Char → Option CStr
  | [], _ => none
  | x :: xs, c =>
    match c_strrchr xs c with
    | some r => some r
    | none => if x = c then some (x :: xs) else none

/-- Modelled from the spec: `fossil_io_cstring_case_compare` is not part of this
source tree; it is the "case-insensitive string comparison" collaborator, and
the program only tests its result against zero, which means "equal up to
case". -/
def fossil_io_cstring_case_compare (a b : CStr) : Int :=
  if a.map c_tolower = b.map c_tolower then 0 else 1

/-- Modelled from the spec: `fossil_io_cstring_icontains` is not part of this
source tree; it is the "case-insensitive substring containment" collaborator. -/
def fossil_io_cstring_icontains (s sub : CStr) : Bool :=
  decide (sub.map c_tolower <:+: s.map c_tolower)

/-- The table `code_exts`. -/
def code_exts : List CStr :=
  [".c", ".h", ".cpp", ".hpp", ".cc", ".cxx", ".hxx", ".hh", ".py", ".pyw", ".ipynb", ".pyc",
   ".pyo", ".pyd", ".java", ".class", ".jar", ".jad", ".jmod", ".cs", ".vb", ".fs", ".go",
   ".mod", ".sum", ".rs", ".rlib", ".toml", ".js", ".jsx", ".mjs", ".cjs", ".ts", ".tsx",
   ".php", ".phtml", ".php3", ".php4", ".php5", ".phps", ".rb", ".erb", ".rake", ".gemspec",
   ".pl", ".pm", ".pod", ".t", ".swift", ".kt", ".kts", ".scala", ".sc", ".sh", ".bash",
   ".zsh", ".csh", ".tcsh", ".ksh", ".bat", ".cmd", ".ps1", ".psm1", ".lua", ".sql",
   ".sqlite", ".db", ".html", ".htm", ".xhtml", ".css", ".scss", ".less", ".xml", ".xsd",
   ".xslt", ".json", ".yaml", ".yml", ".dart", ".groovy", ".gradle", ".r", ".R", ".Rmd", ".m",
   ".mm", ".asm", ".s", ".S", ".v", ".vh", ".sv", ".vhd", ".vhdl", ".coffee", ".clj", ".cljs",
   ".cljc", ".edn", ".hs", ".lhs", ".ghc", ".ml", ".mli", ".ocaml", ".ada", ".adb", ".ads",
   ".for", ".f90", ".f95", ".f03", ".f08", ".f", ".f77", ".pro", ".pl", ".tcl", ".tex",
   ".sty", ".cls", ".nim", ".cr", ".ex", ".exs", ".elm", ".erl", ".hrl", ".lisp", ".el",
   ".scm", ".cl", ".lsp", ".pas", ".pp", ".p", ".d", ".vala", ".vbs", ".awk", ".ps", ".raku",
   ".pl6", ".pm6", ".sol", ".cmake", ".build", ".options", ".dockerfile", ".ini", ".conf",
   ".cfg", ".toml", ".tsx", ".sln", ".vcxproj", ".csproj", ".xcodeproj", ".xcworkspace",
   ".bazel", ".bzl", "BUILD", "WORKSPACE", ".ninja", ".gitignore", ".gitattributes",
   ".editorconfig", ".env"].map String.toList

/-- The table `special_names`. -/
def special_names : List CStr :=
  ["Makefile", "CMakeLists.txt", "Dockerfile", "BUILD", "WORKSPACE", "SConstruct", "Rakefile",
   "Gemfile"].map String.toList

/-- The table `secret_files`. -/
def secret_files : List CStr :=
  [".env", "secret.key", "id_rsa", "private.pem", "credentials.json", "config.yml",
   "secrets.yml"].map String.toList

/-- The table `danger_exts`. -/
def danger_exts : List CStr :=
  [".exe", ".dll", ".bin", ".sh", ".bat", ".cmd", ".scr", ".pif", ".com", ".js", ".vbs"].map String.toList

/-- The function `fossil_it_magic_is_code_file`. -/
def fossil_it_magic_is_code_file (path : CStr) : Int :=
  match c_strrchr path '.' with
  | none => 0
  | some ext =>
    if code_exts.any (fun e => decide (fossil_io_cstring_case_compare ext e = 0)) then 1
    else
      let base :=
        match c_strrchr path '/' with
        | some b => b.drop 1
        | none => path
      if special_names.any (fun n => decide (fossil_io_cstring_compare base n = 0)) then 1
      else 0

/-- The function `fossil_it_magic_contains_git`. -/
def fossil_it_magic_contains_git (fs : file_system) (path : CStr) : Int :=
  let buf := snprintf_buf fs (path ++ "/.git".toList)
  if (match fs.stat buf with
      | some st => st.is_dir
      | none => false) then 1
  else
    let buf := snprintf_buf fs (path ++ "/.gitignore".toList)
    if (fs.stat buf).isSome then 1 else 0

/-- The function `fossil_it_magic_contains_secret`. -/
def fossil_it_magic_contains_secret (fs : file_system) (path : CStr) : Int :=
  if secret_files.any (fun f => (fs.stat (snprintf_buf fs (join_path path f))).isSome) then 1
  else
    match fs.readdir path with
    | none => 0
    | some ents =>
      if ents.any (fun n =>
          fossil_io_cstring_icontains n "password".toList ||
            fossil_io_cstring_icontains n "secret".toList) then 1
      else 0

/-- One iteration of the loop of `fossil_it_magic_directory_size`; `rec` is the
recursive call and `total` the sum so far (`none` once a recursive call has not
returned). -/
def directory_size_step (fs : file_system) (rec : CStr → Option Int) (path : CStr)
    (total : Option Int) (name : CStr) : Option Int :=
  match total with
  | none => none
  | some total =>
    if is_dot_entry name then some total
    else if (join_path path name).length ≥ fs.PATH_MAX then some total
    else
      match fs.stat (join_path path name) with
      | none => some total
      | some st =>
        if st.is_dir then
          match rec (join_path path name) with
          | none => none
          | some sub => some (total + sub)
        else some (total + st.st_size)

/-- The function `fossil_it_magic_directory_size`.  `fuel` bounds the depth of
the recursion, and the result is `none` when the walk would go deeper.  The
source descends only into names shorter than `PATH_MAX` and every level
lengthens the name, so the walk returns for every `fuel` above `PATH_MAX`
(theorem `directory_size_returns`). -/
def fossil_it_magic_directory_size (fs : file_system) : Nat → CStr → Option Int
  | 0, _ => none
  | fuel + 1, path =>
    match fs.readdir path with
    | none => some 0
    | some ents =>
      ents.foldl (directory_size_step fs (fossil_it_magic_directory_size fs fuel) path) (some 0)

/-- The enumeration `fossil_ti_danger_level_t`. -/
inductive fossil_ti_danger_level_t where
  | FOSSIL_TI_DANGER_NONE
  | FOSSIL_TI_DANGER_LOW
  | FOSSIL_TI_DANGER_MEDIUM
  | FOSSIL_TI_DANGER_HIGH
  | FOSSIL_TI_DANGER_CRITICAL
deriving DecidableEq

open fossil_ti_danger_level_t

/-- The integer value of an enumerator. -/
def danger_level_val : fossil_ti_danger_level_t → Int
  | FOSSIL_TI_DANGER_NONE => 0
  | FOSSIL_TI_DANGER_LOW => 1
  | FOSSIL_TI_DANGER_MEDIUM => 2
  | FOSSIL_TI_DANGER_HIGH => 3
  | FOSSIL_TI_DANGER_CRITICAL => 4

/-- A `fossil_ti_danger_item_t`. -/
structure fossil_ti_danger_item_t where
  target_path : CStr
  level : fossil_ti_danger_level_t
  is_directory : Int
  contains_code : Int
  contains_vcs : Int
  contains_secrets : Int
  large_size : Int
  writable : Int
  world_writable : Int
  is_symlink : Int
  suspicious_extension : Int
  recently_modified : Int
  contains_suspicious_files : Int
deriving DecidableEq

/-- The loop over `danger_exts` that compares an extension. -/
def is_danger_ext (ext : CStr) : Bool :=
  danger_exts.any (fun e => decide (fossil_io_cstring_case_compare ext e = 0))

/-- The extension test applied to a name: `strrchr(name, '.')` and, if there is
one, the loop over `danger_exts`. -/
def has_danger_ext (name : CStr) : Bool :=
  match c_strrchr name '.' with
  | some ext => is_danger_ext ext
  | none => false

/-- The weighted sum `score` of `fossil_it_magic_danger_analyze`. -/
def danger_score (contains_code contains_secrets large_size world_writable is_symlink
    suspicious_extension recently_modified contains_suspicious_files : Int) : Int :=
  let score := 0
  let score := if contains_code ≠ 0 then score + 3 else score
  let score := if contains_secrets ≠ 0 then score + 5 else score
  let score := if large_size ≠ 0 then score + 2 else score
  let score := if world_writable ≠ 0 then score + 2 else score
  let score := if is_symlink ≠ 0 then score + 1 else score
  let score := if suspicious_extension ≠ 0 then score + 2 else score
  let score := if recently_modified ≠ 0 then score + 1 else score
  let score := if contains_suspicious_files ≠ 0 then score + 2 else score
  score

/-- The cascade `if (score >= 8) ... else if (score >= 5) ...` that sets
`out->level`. -/
def danger_level_of_score (score : Int) : fossil_ti_danger_level_t :=
  if score ≥ 8 then FOSSIL_TI_DANGER_CRITICAL
  else if score ≥ 5 then FOSSIL_TI_DANGER_HIGH
  else if score ≥ 3 then FOSSIL_TI_DANGER_MEDIUM
  else if score ≥ 1 then FOSSIL_TI_DANGER_LOW
  else FOSSIL_TI_DANGER_NONE

/-- The function `fossil_it_magic_danger_analyze` (POSIX branch): the item
written to `*out`, or `none` when the directory walk does not return within
`fuel` levels. -/
def fossil_it_magic_danger_analyze (fs : file_system) (fuel : Nat) (path : CStr) :
    Option fossil_ti_danger_item_t :=
  match fs.stat path with
  | none =>
    some (fossil_ti_danger_item_t.mk (path.take 511) FOSSIL_TI_DANGER_NONE 0 0 0 0 0 0 0 0 0 0 0)
  | some st =>
    let is_directory := b2i st.is_dir
    let writable := b2i st.mode_wusr
    let contains_code :=
      if is_directory ≠ 0 then fossil_it_magic_contains_git fs path
      else fossil_it_magic_is_code_file path
    let contains_secrets :=
      if is_directory ≠ 0 then fossil_it_magic_contains_secret fs path else 0
    match (if is_directory ≠ 0 then fossil_it_magic_directory_size fs fuel path
        else some st.st_size) with
    | none => none
    | some sz =>
      let large_size := b2i (decide (sz > 10 * 1024 * 1024))
      let world_writable := b2i st.mode_woth
      let is_symlink := b2i st.is_lnk
      let suspicious_extension :=
        if ¬ is_directory ≠ 0 then b2i (has_danger_ext path) else 0
      let recently_modified :=
        if fs.time_now ≠ -1 ∧ fs.time_now - st.st_mtime < 24 * 3600 then 1 else 0
      let contains_suspicious_files :=
        if is_directory ≠ 0 then
          match fs.readdir path with
          | some ents => b2i (ents.any (fun n => !is_dot_entry n && has_danger_ext n))
          | none => 0
        else 0
      let score := danger_score contains_code contains_secrets large_size world_writable
        is_symlink suspicious_extension recently_modified contains_suspicious_files
      some (fossil_ti_danger_item_t.mk (path.take 511) (danger_level_of_score score)
        is_directory contains_code 0 contains_secrets large_size writable world_writable
        is_symlink suspicious_extension recently_modified contains_suspicious_files)

/-- The reference of the specification for the level: with
`score = 3*contains_code + 5*contains_secrets + 2*large_size + 2*world_writable +
1*is_symlink + 2*suspicious_extension + 1*recently_modified +
2*contains_suspicious_files`, the level is CRITICAL if `score >= 8`, HIGH if
`score >= 5`, MEDIUM if `score >= 3`, LOW if `score >= 1`, otherwise NONE. -/
def danger_level_ref (item : fossil_ti_danger_item_t) : fossil_ti_danger_level_t :=
  let score := 3 * item.contains_code + 5 * item.contains_secrets + 2 * item.large_size +
    2 * item.world_writable + 1 * item.is_symlink + 2 * item.suspicious_extension +
    1 * item.recently_modified + 2 * item.contains_suspicious_files
  if 8 ≤ score then FOSSIL_TI_DANGER_CRITICAL
  else if 5 ≤ score then FOSSIL_TI_DANGER_HIGH
  else if 3 ≤ score then FOSSIL_TI_DANGER_MEDIUM
  else if 1 ≤ score then FOSSIL_TI_DANGER_LOW
  else FOSSIL_TI_DANGER_NONE

/-! ## Example file systems -/

/-- A file system with `PATH_MAX = 4096` whose only directory is `"d"`, with the
given entry names after `"."` and `".."`; every entry is an existing regular
file. -/
def listing_fs (entries : List CStr) : file_system :=
  file_system.mk 4096
    (fun p =>
      if p = "d".toList then some (c_stat.mk true false true false 4096 0)
      else if entries.any (fun e => decide (p = join_path "d".toList e)) then
        some (c_stat.mk false false true false 10 0)
      else none)
    (fun p => if p = "d".toList then some (".".toList :: "..".toList :: entries) else none)
    1000000

/-- Seventeen entry names `"fa"`, ..., `"fq"`. -/
def seventeen_names : List CStr :=
  ["fa", "fb", "fc", "fd", "fe", "ff", "fg", "fh", "fi", "fj", "fk", "fl", "fm", "fn", "fo", "fp",
    "fq"].map String.toList

/-- Thirty-two one-letter entry names without the letter `q`, followed by the
entry `"q"`. -/
def thirty_three_names : List CStr :=
  ["a", "b", "c", "d", "e", "f", "g", "h", "i", "j", "k", "l", "m", "n", "o", "p", "r", "s", "t",
    "u", "v", "w", "x", "y", "z", "0", "1", "2", "3", "4", "5", "6", "q"].map String.toList

/-! ## Auxiliary notions for the sorting loops -/

/-- The array `r` is a rearrangement of `l` from index `i` on: same length, the
same elements before `i`, and every element of `r` is an element of `l`, taken
from index `i` or later if it stands at index `i` or later. -/
def sort_rel (i : Nat) (l r : List path_candidate) : Prop :=
  r.length = l.length ∧ (∀ k, k < i → cand_at r k = cand_at l k) ∧
    ∀ k, k < l.length → ∃ m, m < l.length ∧ cand_at r k = cand_at l m ∧ (i ≤ k → i ≤ m)

/-- The first `i` positions of the array hold scores that are at least as high
as every score after them. -/
def sorted_upto (i : Nat) (l : List path_candidate) : Prop :=
  ∀ p q, p < i → p < q → q < l.length → (cand_at l q).score ≤ (cand_at l p).score

/-! ## Danger report -/

/-- A `fossil_ti_danger_report_t`; `items` is `items[0 .. item_count-1]`, the
elements the function writes (the others keep the zero of `memset`). -/
structure fossil_ti_danger_report_t where
  items : List fossil_ti_danger_item_t
  item_count : Int
  overall_level : fossil_ti_danger_level_t
  block_recommended : Int
  warning_required : Int
deriving DecidableEq

/-- The items written so far, `report->item_count`, and the locals `maxLevel`
and `total_score` of `fossil_it_magic_danger_report`. -/
structure report_state where
  items : List fossil_ti_danger_item_t
  item_count : Int
  maxLevel : fossil_ti_danger_level_t
  total_score : Int
deriving DecidableEq

/-- The `switch` on the level of an item: the amount added to `total_score`. -/
def level_weight : fossil_ti_danger_level_t → Int
  | FOSSIL_TI_DANGER_CRITICAL => 8
  | FOSSIL_TI_DANGER_HIGH => 5
  | FOSSIL_TI_DANGER_MEDIUM => 3
  | FOSSIL_TI_DANGER_LOW => 1
  | _ => 0

/-- The rest of the loop body once `items[i]` has been analysed. -/
def report_step (st : report_state) (item : fossil_ti_danger_item_t) : report_state :=
  report_state.mk (st.items ++ [item]) (st.item_count + 1)
    (if danger_level_val item.level > danger_level_val st.maxLevel then item.level
      else st.maxLevel)
    (st.total_score + level_weight item.level)

/-- The loop `for (i = ...; i < path_count && i < 8; i++)` over the paths still
to come; `none` when an analysis does not return. -/
def report_loop (fs : file_system) (fuel : Nat) :
    List CStr → Nat → report_state → Option report_state
  | [], _, st => some st
  | p :: ps, i, st =>
    if ¬ i < 8 then some st
    else
      match fossil_it_magic_danger_analyze fs fuel p with
      | none => none
      | some item => report_loop fs fuel ps (i + 1) (report_step st item)

/-- The function `fossil_it_magic_danger_report`: the report written to
`*report`, or `none` when an analysis does not return. -/
def fossil_it_magic_danger_report (fs : file_system) (fuel : Nat) (paths : List CStr) :
    Option fossil_ti_danger_report_t :=
  match report_loop fs fuel paths 0 (report_state.mk [] 0 FOSSIL_TI_DANGER_NONE 0) with
  | none => none
  | some st =>
    some (fossil_ti_danger_report_t.mk st.items st.item_count st.maxLevel
      (b2i (decide (danger_level_val st.maxLevel ≥ danger_level_val FOSSIL_TI_DANGER_CRITICAL ∨
        st.total_score ≥ 16)))
      (b2i (decide (danger_level_val st.maxLevel ≥ danger_level_val FOSSIL_TI_DANGER_MEDIUM ∨
        st.total_score ≥ 10))))

/-- The reference of the specification for the weight of a level:
`CRITICAL=8, HIGH=5, MEDIUM=3, LOW=1, NONE=0`. -/
def level_weight_ref (l : fossil_ti_danger_level_t) : Int :=
  if l = FOSSIL_TI_DANGER_CRITICAL then 8
  else if l = FOSSIL_TI_DANGER_HIGH then 5
  else if l = FOSSIL_TI_DANGER_MEDIUM then 3
  else if l = FOSSIL_TI_DANGER_LOW then 1
  else 0

/-- The reference of the specification for `total_score`: the sum of the
weights of the levels of the items. -/
def total_score_ref (items : List fossil_ti_danger_item_t) : Int :=
  (items.map (fun it => level_weight_ref it.level)).sum

/-- The reference of the specification for `overall_level`, as an integer: the
maximum of the levels of the items, `NONE` (zero) when there are none. -/
def overall_level_ref (items : List fossil_ti_danger_item_t) : Int :=
  (items.map (fun it => danger_level_val it.level)).foldr max 0

/-- Four script files, each analysed at level HIGH. -/
def four_scripts : List CStr := ["a.sh", "b.sh", "c.sh", "e.sh"].map String.toList

/-- The paths of the four script files in the directory `"d"`. -/
def four_script_paths : List CStr := four_scripts.map (join_path "d".toList)

/-- Nine script files. -/
def nine_scripts : List CStr :=
  ["a.sh", "b.sh", "c.sh", "e.sh", "f.sh", "g.sh", "h.sh", "i.sh", "j.sh"].map String.toList

/-- The paths of the nine script files in the directory `"d"`. -/
def nine_script_paths : List CStr := nine_scripts.map (join_path "d".toList)

/-- The item that the analysis of the file `"d/run.sh"` yields in the example
file system. -/
def run_sh_item : fossil_ti_danger_item_t :=
  fossil_ti_danger_item_t.mk "d/run.sh".toList FOSSIL_TI_DANGER_HIGH 0 1 0 0 0 1 0 0 1 0 0

/-- The report on the single path `"d/run.sh"` in the example file system. -/
def run_sh_report : fossil_ti_danger_report_t :=
  fossil_ti_danger_report_t.mk [run_sh_item] 1 FOSSIL_TI_DANGER_HIGH 0 1

/-! ## Reference definitions for the token overlap -/

/-- The reference of the specification for the token list of a string: the
lower-cased maximal runs of alphanumeric characters, in order; `cur` is the run
being read. -/
def alnum_runs_from : CStr → CStr → List CStr
  | [], cur => if cur = [] then [] else [cur]
  | c :: cs, cur =>
    if c_isalnum c then alnum_runs_from cs (cur ++ [c_tolower c])
    else if cur = [] then alnum_runs_from cs []
    else cur :: alnum_runs_from cs []

/-- The lower-cased maximal runs of alphanumeric characters of a string. -/
def alnum_runs (s : CStr) : List CStr := alnum_runs_from s []

/-- The token list without its first element equal to `t`. -/
def remove_first (t : CStr) : List CStr → List CStr
  | [] => []
  | b :: bs => if b = t then bs else b :: remove_first t bs

/-- The reference of the specification for the number of matches: the greedy
pass that, for each token of `a` in order, consumes the first not yet used equal
token of `b`. -/
def greedy_matches : List CStr → List CStr → Nat
  | [], _ => 0
  | t :: ts, bs =>
    if t ∈ bs then 1 + greedy_matches ts (remove_first t bs) else greedy_matches ts bs

/-- The reference of the specification for the token overlap:
`floor(100 * m / (ca + cb - m))`, or `0` when `ca + cb - m = 0`. -/
def jaccard_ref (a b : CStr) : Nat :=
  let ca := (alnum_runs a).length
  let cb := (alnum_runs b).length
  let m := greedy_matches (alnum_runs a) (alnum_runs b)
  if ca + cb - m = 0 then 0 else 100 * m / (ca + cb - m)

/-- The tokens of `tokens2[j ..]` whose flag `used` is not set, in order. -/
def unused_tokens (used : Nat → Bool) : List CStr → Nat → List CStr
  | [], _ => []
  | t :: ts, j => if used j then unused_tokens used ts (j + 1) else t :: unused_tokens used ts (j + 1)
/-! ## The table computed by the loops -/

theorem DP_inj (w i j i' j' : Nat) (hj : j ≤ w) (hj' : j' ≤ w)
    (h : DP w i j = DP w i' j') : i = i' ∧ j = j' := by
  unfold DP at h
  have h1 : (i * (w + 1) + j) / (w + 1) = i := by
    rw [Nat.add_comm, Nat.add_mul_div_right _ _ (Nat.succ_pos w), Nat.div_eq_of_lt (by omega)]
    simp
  have h2 : (i' * (w + 1) + j') / (w + 1) = i' := by
    rw [Nat.add_comm, Nat.add_mul_div_right _ _ (Nat.succ_pos w), Nat.div_eq_of_lt (by omega)]
    simp
  have hi : i = i' := by rw [← h1, ← h2, h]
  subst hi
  exact ⟨rfl, by omega⟩

theorem mem_set_apply (dp : Nat → Nat) (k v x : Nat) :
    mem_set dp k v x = if x = k then v else dp x := rfl

theorem lev_init_apply (len2 n : Nat) (dp : Nat → Nat) (k : Nat) :
    lev_init len2 n dp k = if k < n then k else dp k := by
  induction n with
  | zero => simp [lev_init]
  | succ n ih =>
    simp only [lev_init, mem_set, Nat.zero_mul, Nat.zero_add]
    by_cases hk : k = n
    · subst hk; simp
    · rw [if_neg hk, ih]
      by_cases h1 : k < n
      · rw [if_pos h1, if_pos (by omega)]
      · rw [if_neg h1, if_neg (by omega)]

theorem levD_succ (s1 s2 : CStr) (i j : Nat) :
    levD s1 s2 (i + 1) (j + 1) =
      (if lev_transposed s1 s2 (i + 1) (j + 1) then
        c_min (c_min (c_min (levD s1 s2 i (j + 1) + 1) (levD s1 s2 (i + 1) j + 1))
          (levD s1 s2 i j + lev_cost s1 s2 (i + 1) (j + 1)))
          (levD s1 s2 (i - 1) (j - 1) + lev_cost s1 s2 (i + 1) (j + 1))
      else
        c_min (c_min (levD s1 s2 i (j + 1) + 1) (levD s1 s2 (i + 1) j + 1))
          (levD s1 s2 i j + lev_cost s1 s2 (i + 1) (j + 1))) := by
  rw [levD]

theorem levD_zero_left (s1 s2 : CStr) (j : Nat) : levD s1 s2 0 j = j := by
  rw [levD]

theorem levD_zero_right (s1 s2 : CStr) (i : Nat) : levD s1 s2 (i + 1) 0 = 0 := by
  rw [levD]

theorem lev_cell_known (s1 s2 : CStr) (i j : Nat) (dp : Nat → Nat)
    (hi : 1 ≤ i) (hj : 1 ≤ j) (hj2 : j ≤ s2.length)
    (h : lev_known s1 s2 i j dp) : lev_known s1 s2 i (j + 1) (lev_cell s1 s2 i j dp) := by
  obtain ⟨i0, rfl⟩ : ∃ i0, i = i0 + 1 := ⟨i - 1, by omega⟩
  obtain ⟨j0, rfl⟩ : ∃ j0, j = j0 + 1 := ⟨j - 1, by omega⟩
  have e1 : dp (DP s2.length i0 (j0 + 1)) = levD s1 s2 i0 (j0 + 1) :=
    h _ _ hj2 (by unfold lev_done; omega)
  have e2 : dp (DP s2.length (i0 + 1) j0) = levD s1 s2 (i0 + 1) j0 :=
    h _ _ (by omega) (by unfold lev_done; omega)
  have e3 : dp (DP s2.length i0 j0) = levD s1 s2 i0 j0 :=
    h _ _ (by omega) (by unfold lev_done; omega)
  have e4 : dp (DP s2.length (i0 - 1) (j0 - 1)) = levD s1 s2 (i0 - 1) (j0 - 1) :=
    h _ _ (by omega) (by unfold lev_done; omega)
  have hne : DP s2.length (i0 - 1) (j0 - 1) ≠ DP s2.length (i0 + 1) (j0 + 1) := by
    intro hc
    have := DP_inj _ _ _ _ _ (by omega) hj2 hc
    omega
  intro i' j' hj' hd
  by_cases hc : i' = i0 + 1 ∧ j' = j0 + 1
  · obtain ⟨rfl, rfl⟩ := hc
    rw [levD_succ]
    simp only [lev_cell, Nat.add_sub_cancel]
    split <;> simp [mem_set_apply, hne, e1, e2, e3, e4]
  · have hidx : DP s2.length i' j' ≠ DP s2.length (i0 + 1) (j0 + 1) := by
      intro hc2
      exact hc (DP_inj _ _ _ _ _ hj' hj2 hc2)
    have hd' : lev_done (i0 + 1) (j0 + 1) i' j' := by
      unfold lev_done at hd ⊢; omega
    rw [← h _ _ hj' hd']
    simp only [lev_cell]
    split <;> simp [mem_set_apply, hidx]

theorem lev_row_known (s1 s2 : CStr) (i n : Nat) (dp : Nat → Nat)
    (hi : 1 ≤ i) (hn : n ≤ s2.length)
    (h : lev_known s1 s2 i 1 dp) : lev_known s1 s2 i (n + 1) (lev_row s1 s2 i n dp) := by
  induction n with
  | zero => simpa [lev_row] using h
  | succ n ih =>
    simp only [lev_row]
    exact lev_cell_known s1 s2 i (n + 1) _ hi (by omega) hn (ih (by omega))

theorem lev_rows_known (s1 s2 : CStr) (m : Nat) (dp : Nat → Nat)
    (h : lev_known s1 s2 1 1 dp) : lev_known s1 s2 (m + 1) 1 (lev_rows s1 s2 m dp) := by
  induction m with
  | zero => simpa [lev_rows] using h
  | succ m ih =>
    simp only [lev_rows]
    have := lev_row_known s1 s2 (m + 1) s2.length _ (by omega) (Nat.le_refl _) ih
    intro i' j' hj' hd
    apply this _ _ hj'
    unfold lev_done at hd ⊢
    omega

theorem lev_init_known (s1 s2 : CStr) :
    lev_known s1 s2 1 1 (lev_init s2.length (s2.length + 1) (fun _ => 0)) := by
  intro i' j' hj' hd
  rw [lev_init_apply]
  unfold lev_done at hd
  rcases Nat.eq_zero_or_pos i' with h0 | hpos
  · subst h0
    simp only [DP, Nat.zero_mul, Nat.zero_add]
    rw [if_pos (by omega), levD_zero_left]
  · have hj0 : j' = 0 := by omega
    subst hj0
    obtain ⟨i0, rfl⟩ : ∃ i0, i' = i0 + 1 := ⟨i' - 1, by omega⟩
    rw [levD_zero_right]
    have : ¬ DP s2.length (i0 + 1) 0 < s2.length + 1 := by
      unfold DP
      have : (i0 + 1) * (s2.length + 1) = i0 * (s2.length + 1) + (s2.length + 1) := by ring
      omega
    rw [if_neg this]

/-- The distance returned for two present strings is the bottom-right value of
the recurrence. -/
theorem lev_eq_levD (s1 s2 : CStr) :
    fossil_it_magic_levenshtein_distance (some s1) (some s2) =
      levD s1 s2 s1.length s2.length := by
  simp only [fossil_it_magic_levenshtein_distance, lev_table]
  apply lev_rows_known s1 s2 s1.length _ (lev_init_known s1 s2) _ _ (Nat.le_refl _)
  unfold lev_done
  omega

/-! ## Properties of the recurrence -/

theorem c_min_le_left (a b : Nat) : c_min a b ≤ a := by
  unfold c_min; split <;> omega

theorem c_min_le_right (a b : Nat) : c_min a b ≤ b := by
  unfold c_min; split <;> omega

theorem lev_cost_self (s : CStr) (i : Nat) : lev_cost s s i i = 0 := by
  simp [lev_cost]

theorem levD_self (s : CStr) (i : Nat) : levD s s i i = 0 := by
  induction i with
  | zero => rw [levD_zero_left]
  | succ i ih =>
    rw [levD_succ, lev_cost_self, ih]
    have h1 := c_min_le_right (c_min (levD s s i (i + 1) + 1) (levD s s (i + 1) i + 1)) (0 + 0)
    have h2 := c_min_le_left (c_min (c_min (levD s s i (i + 1) + 1) (levD s s (i + 1) i + 1)) (0 + 0))
      (levD s s (i - 1) (i - 1) + 0)
    split <;> omega

theorem levD_le (s1 s2 : CStr) (j : Nat) : ∀ i, levD s1 s2 i j ≤ j := by
  induction j with
  | zero =>
    intro i
    cases i with
    | zero => rw [levD_zero_left]
    | succ i => rw [levD_zero_right]
  | succ j ih =>
    intro i
    cases i with
    | zero => rw [levD_zero_left]
    | succ i =>
      rw [levD_succ]
      have h0 := ih (i + 1)
      have h1 := c_min_le_right (levD s1 s2 i (j + 1) + 1) (levD s1 s2 (i + 1) j + 1)
      have h2 := c_min_le_left (c_min (levD s1 s2 i (j + 1) + 1) (levD s1 s2 (i + 1) j + 1))
        (levD s1 s2 i j + lev_cost s1 s2 (i + 1) (j + 1))
      have h3 := c_min_le_left
        (c_min (c_min (levD s1 s2 i (j + 1) + 1) (levD s1 s2 (i + 1) j + 1))
          (levD s1 s2 i j + lev_cost s1 s2 (i + 1) (j + 1)))
        (levD s1 s2 (i - 1) (j - 1) + lev_cost s1 s2 (i + 1) (j + 1))
      split <;> omega

theorem lev_self (s : CStr) : fossil_it_magic_levenshtein_distance (some s) (some s) = 0 := by
  rw [lev_eq_levD, levD_self]

theorem lev_le_length (s1 s2 : CStr) :
    fossil_it_magic_levenshtein_distance (some s1) (some s2) ≤ s2.length := by
  rw [lev_eq_levD]
  exact levD_le s1 s2 _ _

/-! ## Properties of single-precision rounding -/

theorem rne_ge (n d : Nat) : n / d ≤ rne n d := by
  unfold rne
  simp only
  split
  · exact Nat.le_refl _
  · split
    · omega
    · split <;> omega

theorem f32_shift_spec (fuel f : Nat) :
    f32_shift fuel f = 0 ∨ 2 ^ 23 ≤ f / 2 ^ f32_shift fuel f := by
  induction fuel generalizing f with
  | zero => left; rfl
  | succ fuel ih =>
    unfold f32_shift
    split
    · left; rfl
    · right
      have e : f / 2 ^ (1 + f32_shift fuel (f / 2)) = f / 2 / 2 ^ f32_shift fuel (f / 2) := by
        rw [Nat.add_comm 1, Nat.pow_succ, Nat.mul_comm, Nat.div_div_eq_div_mul]
      rw [e]
      rcases ih (f / 2) with h | h
      · rw [h]; simp only [Nat.pow_zero, Nat.div_one]; omega
      · exact h

theorem f32_round_nat_ge_unit (n : Nat) (h : f32_unit ≤ n) : f32_unit ≤ f32_round_nat n 1 := by
  unfold f32_round_nat
  simp only [Nat.div_one, Nat.one_mul]
  have hr := rne_ge n (2 ^ f32_shift n n)
  have hmul : n / 2 ^ f32_shift n n * 2 ^ f32_shift n n ≤
      rne n (2 ^ f32_shift n n) * 2 ^ f32_shift n n := Nat.mul_le_mul_right _ hr
  refine Nat.le_trans ?_ hmul
  rcases f32_shift_spec n n with h0 | h23
  · rw [h0]; simpa using h
  · by_cases hk : f32_shift n n ≤ 149
    · have hsplit : f32_unit = 2 ^ (149 - f32_shift n n) * 2 ^ f32_shift n n := by
        rw [← Nat.pow_add, Nat.sub_add_cancel hk]; rfl
      rw [hsplit]
      apply Nat.mul_le_mul_right
      rw [Nat.le_div_iff_mul_le (Nat.pow_pos (by decide))]
      rw [← hsplit]; exact h
    · have h150 : 2 ^ 150 ≤ 2 ^ f32_shift n n := Nat.pow_le_pow_right (by decide) (by omega)
      calc f32_unit ≤ 2 ^ 23 * 2 ^ 150 := by unfold f32_unit; norm_num
        _ ≤ n / 2 ^ f32_shift n n * 2 ^ f32_shift n n := Nat.mul_le_mul h23 h150

theorem f32_round_nonneg (n : Int) (d : Nat) (h : 0 ≤ n) : 0 ≤ f32_round n d := by
  unfold f32_round
  rw [if_neg (by omega)]
  exact Int.ofNat_nonneg _

theorem f32_one_eq : f32_one = (f32_unit : Int) := by decide

theorem f32_round_ge_one (n : Int) (h : f32_one ≤ n) : f32_one ≤ f32_round n 1 := by
  rw [f32_one_eq] at h ⊢
  unfold f32_round
  rw [if_neg (by omega)]
  have : f32_unit ≤ n.natAbs := by omega
  exact_mod_cast f32_round_nat_ge_unit _ this

theorem f32_round_zero (d : Nat) : f32_round 0 d = 0 := by
  unfold f32_round f32_round_nat rne f32_shift
  simp

theorem f32_add_ge_one (x y : Int) (hx : f32_one ≤ x) (hy : 0 ≤ y) : f32_one ≤ f32_add x y :=
  f32_round_ge_one _ (by omega)

theorem f32_lit_nonneg (n d : Nat) : 0 ≤ f32_lit n d :=
  f32_round_nonneg _ _ (by positivity)

theorem f32_of_int_nonneg (n : Int) (h : 0 ≤ n) : 0 ≤ f32_of_int n :=
  f32_round_nonneg _ _ (by positivity)

theorem f32_div_nonneg (x y : Int) (hx : 0 ≤ x) (hy : 0 ≤ y) : 0 ≤ f32_div x y :=
  f32_round_nonneg _ _ (by
    have h1 : 0 ≤ Int.sign y := Int.sign_nonneg.mpr hy
    positivity)

theorem f32_clamp01_le (x : Int) : f32_clamp01 x ≤ f32_one := by
  have h1 : (0 : Int) ≤ f32_one := by rw [f32_one_eq]; positivity
  unfold f32_clamp01
  simp only
  split <;> split <;> omega

theorem f32_clamp01_nonneg (x : Int) : 0 ≤ f32_clamp01 x := by
  unfold f32_clamp01
  simp only
  split <;> split <;> omega

theorem f32_clamp01_of_ge (x : Int) (h : f32_one ≤ x) : f32_clamp01 x = f32_one := by
  have h1 : (0 : Int) ≤ f32_one := by rw [f32_one_eq]; positivity
  unfold f32_clamp01
  simp only
  split <;> split <;> omega

/-! ## Similarity of a string with itself -/

theorem similarity_self (a : CStr) :
    fossil_it_magic_similarity (some a) (some a) = f32_one := by
  unfold fossil_it_magic_similarity
  simp only
  split
  · rfl
  · apply f32_clamp01_of_ge
    rw [lev_self]
    have hbase : f32_sub f32_one (f32_div (f32_of_int ((0 : Nat) : Int))
        (f32_of_int ((if a.length > a.length then a.length else a.length : Nat) : Int))) = f32_one := by
      have h0 : f32_of_int ((0 : Nat) : Int) = 0 := by
        unfold f32_of_int; simp [f32_round_zero]
      rw [h0]
      have h1 : ∀ y, f32_div 0 y = 0 := by
        intro y; unfold f32_div; simp [f32_round_zero]
      rw [h1]
      decide
    rw [hbase]
    have hJ : 0 ≤ f32_div (f32_of_int ((fossil_it_magic_jaccard_index (some a) (some a) : Nat) : Int))
        (f32_lit 200 1) :=
      f32_div_nonneg _ _ (f32_of_int_nonneg _ (Int.ofNat_nonneg _)) (f32_lit_nonneg _ _)
    have hs1 := f32_add_ge_one _ _ (Int.le_refl f32_one) hJ
    have hs2 : f32_one ≤ (if fossil_io_cstring_case_starts_with a a = true then
        f32_add (f32_add f32_one (f32_div (f32_of_int
          ((fossil_it_magic_jaccard_index (some a) (some a) : Nat) : Int)) (f32_lit 200 1)))
          (f32_lit 10 100)
        else f32_add f32_one (f32_div (f32_of_int
          ((fossil_it_magic_jaccard_index (some a) (some a) : Nat) : Int)) (f32_lit 200 1))) := by
      split
      · exact f32_add_ge_one _ _ hs1 (f32_lit_nonneg _ _)
      · exact hs1
    split
    · exact f32_add_ge_one _ _ hs2 (f32_lit_nonneg _ _)
    · exact hs2

/-! ## The tokenizer stops within its fuel -/

theorem tok_skip_length (p : CStr) : (tok_skip p).length ≤ p.length := by
  induction p with
  | nil => exact Nat.le_refl _
  | cons c p ih =>
    unfold tok_skip
    split
    · exact Nat.le_refl _
    · exact Nat.le_trans ih (Nat.le_succ _)

theorem tok_read_length (room : Nat) (p tok : CStr) :
    (tok_read room p tok).2.length ≤ p.length := by
  induction room generalizing p tok with
  | zero => unfold tok_read; exact Nat.le_refl _
  | succ room ih =>
    cases p with
    | nil => unfold tok_read; exact Nat.le_refl _
    | cons c p =>
      unfold tok_read
      split
      · exact Nat.le_trans (ih p _) (Nat.le_succ _)
      · exact Nat.le_refl _

theorem tok_iteration_consumes (p : CStr) (h : p ≠ []) :
    (tok_read 31 (tok_skip p) []).2.length < p.length := by
  cases p with
  | nil => exact absurd rfl h
  | cons c p =>
    unfold tok_skip
    split
    · rename_i hc
      unfold tok_read
      rw [if_pos hc]
      exact Nat.lt_succ_of_le (tok_read_length _ _ _)
    · exact Nat.lt_succ_of_le (Nat.le_trans (tok_read_length _ _ _) (tok_skip_length p))

theorem tok_loop_fuel (fuel extra : Nat) (p : CStr) (tokens : List CStr)
    (h : p.length ≤ fuel) : tok_loop (fuel + extra) p tokens = tok_loop fuel p tokens := by
  induction fuel generalizing p tokens with
  | zero =>
    have hp : p = [] := List.length_eq_zero.mp (by omega)
    subst hp
    cases extra with
    | zero => rfl
    | succ e => simp [tok_loop]
  | succ fuel ih =>
    rw [Nat.add_right_comm]
    unfold tok_loop
    split
    · rename_i hc
      have := tok_iteration_consumes p hc.1
      exact ih _ _ (by omega)
    · rfl

/-! ## Bounds on the greedy token matching -/

theorem used_count_le (used : Nat → Bool) (n : Nat) : used_count used n ≤ n := by
  induction n with
  | zero => exact Nat.le_refl _
  | succ n ih => unfold used_count; split <;> omega

theorem used_count_set (used : Nat → Bool) (j n : Nat) (hj : j < n) (hu : used j = false) :
    used_count (fun x => if x = j then true else used x) n = used_count used n + 1 := by
  induction n with
  | zero => omega
  | succ n ih =>
    unfold used_count
    by_cases hjn : j = n
    · subst hjn
      have hsame : used_count (fun x => if x = j then true else used x) j = used_count used j := by
        clear ih hj
        have : ∀ m, m ≤ j →
            used_count (fun x => if x = j then true else used x) m = used_count used m := by
          intro m hm
          induction m with
          | zero => rfl
          | succ m ihm =>
            unfold used_count
            rw [ihm (by omega)]
            have : m ≠ j := by omega
            simp [this]
        exact this j (Nat.le_refl _)
      rw [hsame]
      simp [hu]
    · rw [ih (by omega)]
      have : n ≠ j := fun h => hjn h.symm
      simp only [this, if_false]
      omega

theorem jac_scan_some (tok : CStr) (tokens2 : List CStr) (used : Nat → Bool) (n j0 j : Nat)
    (h : jac_scan tok tokens2 used n j0 = some j) : j < j0 + n ∧ used j = false := by
  induction n generalizing j0 with
  | zero => simp [jac_scan] at h
  | succ n ih =>
    unfold jac_scan at h
    split at h
    · rename_i hc
      injection h with h
      subst h
      simp only [Bool.and_eq_true, Bool.not_eq_true'] at hc
      exact ⟨by omega, hc.1⟩
    · have := ih (j0 + 1) h
      exact ⟨by omega, this.2⟩

theorem jac_step_count (tokens2 : List CStr) (st : Nat × (Nat → Bool)) (tok : CStr)
    (h : st.1 = used_count st.2 tokens2.length) :
    (jac_step tokens2 st tok).1 = used_count (jac_step tokens2 st tok).2 tokens2.length ∧
      (jac_step tokens2 st tok).1 ≤ st.1 + 1 := by
  unfold jac_step
  split
  · rename_i j hj
    have hs := jac_scan_some _ _ _ _ _ _ hj
    simp only
    rw [used_count_set _ _ _ (by omega) hs.2, h]
    exact ⟨rfl, Nat.le_refl _⟩
  · exact ⟨h, by omega⟩

theorem jac_fold_count (tokens2 : List CStr) (tokens1 : List CStr) (st : Nat × (Nat → Bool))
    (h : st.1 = used_count st.2 tokens2.length) :
    (tokens1.foldl (jac_step tokens2) st).1 =
        used_count (tokens1.foldl (jac_step tokens2) st).2 tokens2.length ∧
      (tokens1.foldl (jac_step tokens2) st).1 ≤ st.1 + tokens1.length := by
  induction tokens1 generalizing st with
  | nil => exact ⟨h, by simp⟩
  | cons t ts ih =>
    simp only [List.foldl_cons, List.length_cons]
    have hs := jac_step_count tokens2 st t h
    have := ih _ hs.1
    exact ⟨this.1, by omega⟩

theorem jac_match_le_left (tokens1 tokens2 : List CStr) :
    jac_match tokens1 tokens2 ≤ tokens1.length := by
  have := (jac_fold_count tokens2 tokens1 (0, fun _ => false) (by
    simp only
    induction tokens2.length with
    | zero => rfl
    | succ n ih => unfold used_count; simpa using ih)).2
  simpa [jac_match] using this

theorem jac_match_le_right (tokens1 tokens2 : List CStr) :
    jac_match tokens1 tokens2 ≤ tokens2.length := by
  have := (jac_fold_count tokens2 tokens1 (0, fun _ => false) (by
    simp only
    induction tokens2.length with
    | zero => rfl
    | succ n ih => unfold used_count; simpa using ih)).1
  unfold jac_match
  rw [this]
  exact used_count_le _ _

theorem jaccard_le_100 (a b : Option CStr) : fossil_it_magic_jaccard_index a b ≤ 100 := by
  unfold fossil_it_magic_jaccard_index
  split
  · rename_i s1 s2
    simp only
    have h1 := jac_match_le_left (tokenize s1) (tokenize s2)
    have h2 := jac_match_le_right (tokenize s1) (tokenize s2)
    split
    · apply Nat.div_le_of_le_mul
      have : jac_match (tokenize s1) (tokenize s2) ≤
          (tokenize s1).length + (tokenize s2).length - jac_match (tokenize s1) (tokenize s2) := by
        omega
      calc 100 * jac_match (tokenize s1) (tokenize s2)
          ≤ 100 * ((tokenize s1).length + (tokenize s2).length -
              jac_match (tokenize s1) (tokenize s2)) := Nat.mul_le_mul_left _ this
        _ = ((tokenize s1).length + (tokenize s2).length -
              jac_match (tokenize s1) (tokenize s2)) * 100 := Nat.mul_comm _ _
    · omega
  · omega

theorem similarity_range (a b : Option CStr) :
    0 ≤ fossil_it_magic_similarity a b ∧ fossil_it_magic_similarity a b ≤ f32_one := by
  have h1 : (0 : Int) ≤ f32_one := by rw [f32_one_eq]; positivity
  unfold fossil_it_magic_similarity
  split
  · simp only
    split
    · exact ⟨h1, Int.le_refl _⟩
    · exact ⟨f32_clamp01_nonneg _, f32_clamp01_le _⟩
  · exact ⟨Int.le_refl _, h1⟩

/-! ## Rounding leaves single-precision values unchanged -/

theorem f32_shift_le (fuel f k : Nat) (h : f / 2 ^ k < 2 ^ 24) : f32_shift fuel f ≤ k := by
  induction fuel generalizing f k with
  | zero => exact Nat.zero_le _
  | succ fuel ih =>
    unfold f32_shift
    split
    · exact Nat.zero_le _
    · rename_i hf
      cases k with
      | zero => simp at h; omega
      | succ k =>
        have : f / 2 / 2 ^ k < 2 ^ 24 := by
          rw [Nat.div_div_eq_div_mul, Nat.mul_comm, ← Nat.pow_succ]; exact h
        have := ih (f / 2) k this
        omega

theorem f32_shift_reach (fuel f : Nat) (h : f ≤ fuel) : f / 2 ^ f32_shift fuel f < 2 ^ 24 := by
  induction fuel generalizing f with
  | zero =>
    have : f = 0 := by omega
    subst this
    simp [f32_shift]
  | succ fuel ih =>
    unfold f32_shift
    split
    · rename_i hf; simpa using hf
    · rename_i hf
      have e : f / 2 ^ (1 + f32_shift fuel (f / 2)) = f / 2 / 2 ^ f32_shift fuel (f / 2) := by
        rw [Nat.add_comm 1, Nat.pow_succ, Nat.mul_comm, Nat.div_div_eq_div_mul]
      rw [e]
      exact ih (f / 2) (by omega)

theorem rne_le (n d : Nat) : rne n d ≤ n / d + 1 := by
  unfold rne
  simp only
  split
  · omega
  · split
    · omega
    · split <;> omega

theorem rne_of_dvd (n d : Nat) (hd : 0 < d) (h : d ∣ n) : rne n d = n / d := by
  unfold rne
  simp only
  rw [Nat.mod_eq_zero_of_dvd h, if_pos (by omega)]

theorem f32_round_nat_rep (n d : Nat) :
    ∃ m k, f32_round_nat n d = m * 2 ^ k ∧ m < 2 ^ 24 := by
  unfold f32_round_nat
  simp only
  have hreach := f32_shift_reach (n / d) (n / d) (Nat.le_refl _)
  have hle := rne_le n (d * 2 ^ f32_shift (n / d) (n / d))
  rw [← Nat.div_div_eq_div_mul] at hle
  by_cases hlt : rne n (d * 2 ^ f32_shift (n / d) (n / d)) < 2 ^ 24
  · exact ⟨_, _, rfl, hlt⟩
  · have heq : rne n (d * 2 ^ f32_shift (n / d) (n / d)) = 2 ^ 24 := by omega
    refine ⟨2 ^ 23, f32_shift (n / d) (n / d) + 1, ?_, by norm_num⟩
    rw [heq]
    ring

theorem f32_round_nat_idem (r : Nat) (h : ∃ m k, r = m * 2 ^ k ∧ m < 2 ^ 24) :
    f32_round_nat r 1 = r := by
  obtain ⟨m, k, rfl, hm⟩ := h
  unfold f32_round_nat
  simp only [Nat.div_one, Nat.one_mul]
  have hk : f32_shift (m * 2 ^ k) (m * 2 ^ k) ≤ k :=
    f32_shift_le _ _ _ (by rw [Nat.mul_div_cancel _ (Nat.pow_pos (by decide))]; exact hm)
  have hdvd : 2 ^ f32_shift (m * 2 ^ k) (m * 2 ^ k) ∣ m * 2 ^ k :=
    Dvd.dvd.mul_left (Nat.pow_dvd_pow 2 hk) m
  rw [rne_of_dvd _ _ (Nat.pow_pos (by decide)) hdvd]
  exact Nat.div_mul_cancel hdvd

theorem f32_round_idem (n : Int) (d : Nat) : f32_round (f32_round n d) 1 = f32_round n d := by
  have hrep := f32_round_nat_idem _ (f32_round_nat_rep n.natAbs d)
  unfold f32_round
  split
  · by_cases h0 : f32_round_nat n.natAbs d = 0
    · rw [h0]; simp [f32_round_nat, rne, f32_shift]
    · rw [if_pos (by omega)]
      simp only [Int.natAbs_neg, Int.natAbs_ofNat]
      rw [hrep]
  · rw [if_neg (by omega)]
    simp only [Int.natAbs_ofNat]
    rw [hrep]

theorem f32_add_zero (n : Int) (d : Nat) : f32_add (f32_round n d) 0 = f32_round n d := by
  unfold f32_add
  rw [Int.add_zero, f32_round_idem]

/-! ## The similarity and its reference formula -/

theorem f32_clamp01_eq (x : Int) : f32_clamp01 x = max 0 (min f32_one x) := by
  have h1 : (0 : Int) ≤ f32_one := by rw [f32_one_eq]; positivity
  unfold f32_clamp01
  simp only
  split <;> split <;> omega

/-- Claim C6: `fossil_it_magic_similarity` equals its reference formula, evaluated
in single precision: `0.0` if either string is absent, `1.0` if both are empty,
otherwise the clamp to `[0, 1]` of `1 - d / max(len a, len b) + J / 200`, plus
`0.10` if `a` is a case-insensitive prefix of `b`, plus `0.07` if
`len a ≤ len b` and `a` is a case-insensitive suffix of `b`, with `d` and `J`
the program's own edit distance and Jaccard index. -/
theorem similarity_equals_reference (a b : Option CStr) :
    fossil_it_magic_similarity a b = similarity_ref a b := by
  unfold fossil_it_magic_similarity similarity_ref
  cases a with
  | none => cases b <;> rfl
  | some a =>
    cases b with
    | none => rfl
    | some b =>
      simp only [List.length_eq_zero]
      split
      · rfl
      · rw [f32_clamp01_eq]
        have hmax : (if a.length > b.length then a.length else b.length) = max a.length b.length := by
          split <;> omega
        have h200 : f32_lit 200 1 = f32_of_int 200 := by decide
        rw [hmax, h200]
        simp only [fossil_io_cstring_case_starts_with, fossil_io_cstring_case_ends_with,
          List.isPrefixOf_iff_prefix, List.isSuffixOf_iff_suffix]
        congr 2
        by_cases hp : List.map c_tolower a <+: List.map c_tolower b
        · by_cases hs : a.length ≤ b.length ∧ List.map c_tolower a <:+ List.map c_tolower b
          · rw [if_pos hp, if_pos hs, if_pos hp, if_pos hs]
          · rw [if_pos hp, if_neg hs, if_pos hp, if_neg hs]
            unfold f32_add
            simp only [Int.add_zero, f32_round_idem]
        · by_cases hs : a.length ≤ b.length ∧ List.map c_tolower a <:+ List.map c_tolower b
          · rw [if_neg hp, if_pos hs, if_neg hp, if_pos hs]
            unfold f32_add
            simp only [Int.add_zero, f32_round_idem]
          · rw [if_neg hp, if_neg hs, if_neg hp, if_neg hs]
            unfold f32_add
            simp only [Int.add_zero, f32_round_idem]

/-! ## The candidate loop of the command suggester -/

theorem cand_score_le_one (input c : CStr) : cand_score input c ≤ f32_one :=
  f32_clamp01_le _

theorem cand_score_nonneg (input c : CStr) : 0 ≤ cand_score input c :=
  f32_clamp01_nonneg _

theorem cand_distance_nonneg (input c : CStr) : 0 ≤ cand_distance input c :=
  Int.ofNat_nonneg _

theorem cand_distance_le (input c : CStr) : cand_distance input c ≤ (c.length : Int) := by
  unfold cand_distance
  exact_mod_cast lev_le_length input c

theorem cand_distance_self (input : CStr) : cand_distance input input = 0 := by
  unfold cand_distance
  rw [lev_self]
  rfl

theorem cand_prefix_match_le (input c : CStr) : cand_prefix_match input c ≤ 1 := by
  unfold cand_prefix_match b2i
  split <;> omega

theorem cand_prefix_match_self (input : CStr) : cand_prefix_match input input = 1 := by
  unfold cand_prefix_match b2i fossil_io_cstring_starts_with
  rw [if_pos]
  rw [List.isPrefixOf_iff_prefix]

theorem f32_add_if_ge_one (p : Prop) [Decidable p] (x y : Int) (hx : f32_one ≤ x) (hy : 0 ≤ y) :
    f32_one ≤ (if p then f32_add x y else x) := by
  split
  · exact f32_add_ge_one _ _ hx hy
  · exact hx

theorem cand_score_self (input : CStr) : cand_score input input = f32_one := by
  unfold cand_score
  simp only
  apply f32_clamp01_of_ge
  apply f32_add_ge_one
  · apply f32_add_if_ge_one _ _ _ _ (f32_lit_nonneg _ _)
    apply f32_add_if_ge_one _ _ _ _ (f32_lit_nonneg _ _)
    apply f32_add_if_ge_one _ _ _ _ (f32_lit_nonneg _ _)
    apply f32_add_if_ge_one _ _ _ _ (f32_lit_nonneg _ _)
    rw [similarity_self]
  · exact f32_div_nonneg _ _ (f32_of_int_nonneg _ (Int.ofNat_nonneg _)) (f32_lit_nonneg _ _)

theorem suggest_step_exact (input : CStr) (st : suggest_state) :
    suggest_exact input (suggest_step input st (some input)) := by
  unfold suggest_step
  simp only [fossil_io_cstring_equals, decide_True, b2i, if_true]
  rw [if_pos (Or.inl (by decide))]
  exact ⟨rfl, cand_score_self input, cand_distance_self input, cand_prefix_match_self input⟩

theorem suggest_step_keeps_exact (input : CStr) (st : suggest_state) (cmd : Option CStr)
    (h : suggest_exact input st) : suggest_exact input (suggest_step input st cmd) := by
  cases cmd with
  | none => exact h
  | some c =>
    by_cases hc : c = input
    · subst hc; exact suggest_step_exact c st
    · obtain ⟨h1, h2, h3, h4⟩ := h
      have hne : ¬ input = c := fun e => hc e.symm
      have hs := cand_score_le_one input c
      have hd := cand_distance_nonneg input c
      have hp := cand_prefix_match_le input c
      unfold suggest_step
      simp only [fossil_io_cstring_equals, hne, decide_False, b2i, h2, h3, h4]
      rw [if_neg]
      · exact ⟨h1, h2, h3, h4⟩
      · simp only [Bool.false_eq_true, if_false, ne_eq, not_true_eq_false, false_or]
        omega

theorem suggest_fold_keeps_exact (input : CStr) (l : List (Option CStr)) (st : suggest_state)
    (h : suggest_exact input st) : suggest_exact input (l.foldl (suggest_step input) st) := by
  induction l generalizing st with
  | nil => exact h
  | cons c cs ih => exact ih _ (suggest_step_keeps_exact input st c h)

theorem suggest_fold_exact (input : CStr) (l : List (Option CStr)) (st : suggest_state)
    (h : some input ∈ l) : suggest_exact input (l.foldl (suggest_step input) st) := by
  induction l generalizing st with
  | nil => simp at h
  | cons c cs ih =>
    rw [List.foldl_cons]
    rcases List.mem_cons.mp h with h1 | h1
    · rw [← h1]
      exact suggest_fold_keeps_exact input cs _ (suggest_step_exact input st)
    · exact ih _ h1

theorem cand_le_refl (input c : CStr) : cand_le input c c :=
  ⟨Int.le_refl _, fun _ => Int.le_refl _, fun _ _ => Int.le_refl _⟩

theorem suggest_step_inv (input : CStr) (seen : List (Option CStr)) (st : suggest_state)
    (cmd : Option CStr) (hlen : ∀ c, cmd = some c → c.length < INT_MAX)
    (h : suggest_inv input seen st) :
    suggest_inv input (seen ++ [cmd]) (suggest_step input st cmd) := by
  obtain ⟨hn, hw⟩ := h
  cases cmd with
  | none =>
    refine ⟨fun h0 => ⟨(hn h0).1, fun c hc => ?_⟩, fun w h0 => ?_⟩
    · simp only [List.mem_append, List.mem_singleton] at hc
      rcases hc with hc | hc
      · exact (hn h0).2 c hc
      · cases hc
    · obtain ⟨a1, a2, a3, a4, a5, a6, a7, a8⟩ := hw w h0
      refine ⟨List.mem_append_left _ a1, a2, a3, a4, a5, a6, a7, fun hx c hc => ?_⟩
      simp only [List.mem_append, List.mem_singleton] at hc hx
      rcases hc with hc | hc
      · exact a8 (fun hs => hx (Or.inl hs)) c hc
      · cases hc
  | some c =>
    have hs0 := cand_score_nonneg input c
    have hd0 := cand_distance_nonneg input c
    have hp1 := cand_prefix_match_le input c
    have hdl := cand_distance_le input c
    have hl : (c.length : Int) < (INT_MAX : Int) := by exact_mod_cast hlen c rfl
    have hmem : some c ∈ seen ++ [some c] := by simp
    unfold suggest_step
    simp only
    split
    · rename_i hcond
      refine ⟨fun h0 => ?_, fun w h0 => ?_⟩
      · cases h0
      simp only [Option.some.injEq] at h0
      subst h0
      refine ⟨hmem, rfl, rfl, rfl, rfl, rfl, rfl, fun hx c' hc' => ?_⟩
      simp only [List.mem_append, List.mem_singleton, not_or, Option.some.injEq] at hc' hx
      rcases hc' with hc' | hc'
      · cases hbm : st.best_match with
        | none => exact absurd hc' ((hn hbm).2 c')
        | some w =>
          obtain ⟨a1, a2, a3, a4, a5, a6, a7, a8⟩ := hw w hbm
          have hle := a8 hx.1 c' hc'
          have hex : b2i (fossil_io_cstring_equals input c) = 0 := by
            unfold fossil_io_cstring_equals b2i
            rw [if_neg]
            simpa using hx.2
          rw [hex, a2, a3, a5] at hcond
          unfold cand_le at hle ⊢
          omega
      · subst hc'; exact cand_le_refl input c'
    · rename_i hcond
      refine ⟨fun h0 => ?_, fun w h0 => ?_⟩
      · exfalso
        have hst := (hn h0).1
        apply hcond
        rw [hst]
        simp only [suggest_start]
        omega
      · obtain ⟨a1, a2, a3, a4, a5, a6, a7, a8⟩ := hw w h0
        refine ⟨List.mem_append_left _ a1, a2, a3, a4, a5, a6, a7, fun hx c' hc' => ?_⟩
        simp only [List.mem_append, List.mem_singleton, not_or, Option.some.injEq] at hc' hx
        rcases hc' with hc' | hc'
        · exact a8 hx.1 c' hc'
        · subst hc'
          rw [a2, a3, a5] at hcond
          unfold cand_le
          omega

theorem suggest_fold_inv (input : CStr) (l seen : List (Option CStr)) (st : suggest_state)
    (hlen : ∀ c, some c ∈ l → c.length < INT_MAX) (h : suggest_inv input seen st) :
    suggest_inv input (seen ++ l) (l.foldl (suggest_step input) st) := by
  induction l generalizing seen st with
  | nil => simpa using h
  | cons c cs ih =>
    rw [List.foldl_cons]
    have h1 := suggest_step_inv input seen st c
      (fun c' hc' => hlen c' (by rw [hc']; exact List.mem_cons_self _ _)) h
    have h2 := ih (seen ++ [c]) _ (fun c' hc' => hlen c' (List.mem_cons_of_mem _ hc')) h1
    simpa using h2

theorem suggest_loop_inv (input : CStr) (commands : List (Option CStr))
    (hlen : ∀ c, some c ∈ commands → c.length < INT_MAX) :
    suggest_inv input commands (suggest_loop input commands) := by
  have := suggest_fold_inv input commands [] suggest_start hlen
    ⟨fun _ => ⟨rfl, fun c hc => by cases hc⟩, fun w hw => by cases hw⟩
  simpa [suggest_loop] using this

/-! ## The claims -/

/-- Claim C1 (defect in the code): the first column of the table is never set to
`i`, so leading characters of the first string are deleted at no cost.  For
`"abc"` against the empty string the code returns `0`, whereas the restricted
Damerau-Levenshtein distance of the specification is `3` (three deletions). -/
theorem levenshtein_first_column_defect :
    fossil_it_magic_levenshtein_distance (some "abc".toList) (some "".toList) = 0 ∧
      osa_ref "abc".toList "".toList 3 0 = 3 := by
  refine ⟨by decide, ?_⟩
  show osa_ref "abc".toList "".toList (2 + 1) 0 = 3
  rw [osa_ref]

/-- Claim C2 (defect in the code): the distance is not symmetric.  The code
gives `0` for `("ab", "b")` and `1` for `("b", "ab")`. -/
theorem levenshtein_asymmetric_example :
    fossil_it_magic_levenshtein_distance (some "ab".toList) (some "b".toList) = 0 ∧
      fossil_it_magic_levenshtein_distance (some "b".toList) (some "ab".toList) = 1 := by
  decide

/-- Claim C3: for every present string `a`, the empty string included,
`fossil_it_magic_similarity(a, a)` is `1.0`. -/
theorem similarity_identical (a : CStr) :
    fossil_it_magic_similarity (some a) (some a) = f32_one :=
  similarity_self a

/-- Claim C4 (defect in the code): the token recoverer adds the affix bonuses
after the similarity was clamped and does not clamp again.  For the token
`"config"` with the single candidate `"config"` the fields `confidence` and
`first_best_confidence` hold `1.0f + 0.10f + 0.07f`, which is above `1.0`. -/
theorem autorecovery_confidence_above_one :
    (fossil_it_magic_autorecovery_token "config".toList ["config".toList]).confidence =
        f32_add (f32_add f32_one (f32_lit 10 100)) (f32_lit 7 100) ∧
      f32_one < (fossil_it_magic_autorecovery_token "config".toList ["config".toList]).confidence ∧
      f32_one <
        (fossil_it_magic_autorecovery_token "config".toList ["config".toList]).first_best_confidence := by
  decide

/-- Claim C5: for all strings `a` and `b`, absent or not,
`fossil_it_magic_similarity(a, b)` lies in `[0.0, 1.0]` and
`fossil_it_magic_jaccard_index(a, b)` lies in `[0, 100]`. -/
theorem similarity_and_jaccard_ranges (a b : Option CStr) :
    (0 ≤ fossil_it_magic_similarity a b ∧ fossil_it_magic_similarity a b ≤ f32_one) ∧
      (0 ≤ fossil_it_magic_jaccard_index a b ∧ fossil_it_magic_jaccard_index a b ≤ 100) :=
  ⟨similarity_range a b, Nat.zero_le _, jaccard_le_100 a b⟩

/-- Claim C7: when the candidate list contains a candidate exactly equal to the
input, `fossil_it_magic_suggest_command` returns a candidate equal to the input,
wherever it sits in the list and whatever the other candidates are. -/
theorem suggest_exact_match_wins (input : CStr) (commands : List (Option CStr))
    (h : some input ∈ commands) :
    fossil_it_magic_suggest_command (some input) (some commands) = some input := by
  obtain ⟨h1, h2, _, _⟩ := suggest_fold_exact input commands suggest_start h
  have hpos : ¬ commands.length ≤ 0 := by
    cases commands with
    | nil => simp at h
    | cons c cs => simp
  have h7 : f32_one ≥ f32_lit 7 10 := by decide
  unfold fossil_it_magic_suggest_command suggest_command_full
  simp only [if_neg hpos, suggest_loop, h1, h2, if_pos h7]

/-- The exact match `"run"` at the end of the example list is returned. -/
theorem suggest_exact_match_wins_witness :
    some "run".toList ∈ example_commands ∧
      fossil_it_magic_suggest_command (some "run".toList) (some example_commands) =
        some "run".toList :=
  ⟨by decide, suggest_exact_match_wins "run".toList example_commands (by decide)⟩

/-- Claim C8: for an input and a candidate list with at least one present
candidate and no candidate exactly equal to the input (all strings of a length
that fits in an `int`), the candidate recorded in the trace is a candidate of
the list, the trace holds its own score, distance and flag `prefix`, and for
every present candidate `c`: the score of `c` is not higher; if the scores are
equal the distance of the winner is not higher; if scores and distances are
equal the flag `prefix` of `c` is not higher. -/
theorem suggest_winner_is_best (input : CStr) (commands : List (Option CStr))
    (hsome : ∃ c, some c ∈ commands) (hnoexact : some input ∉ commands)
    (hlen : ∀ c, some c ∈ commands → c.length < INT_MAX) :
    ∃ w r, (suggest_command_full (some input) (some commands)).2 = some r ∧
      r.suggested = w ∧ some w ∈ commands ∧
      r.confidence_score = cand_score input w ∧
      r.edit_distance = cand_distance input w ∧
      r.prefix_match = cand_prefix_match input w ∧
      ∀ c, some c ∈ commands →
        cand_score input c ≤ cand_score input w ∧
        (cand_score input c = cand_score input w →
          cand_distance input w ≤ cand_distance input c) ∧
        (cand_score input c = cand_score input w →
          cand_distance input c = cand_distance input w →
          cand_prefix_match input c ≤ cand_prefix_match input w) := by
  obtain ⟨hn, hw⟩ := suggest_loop_inv input commands hlen
  obtain ⟨c0, hc0⟩ := hsome
  have hpos : ¬ commands.length ≤ 0 := by
    cases commands with
    | nil => simp at hc0
    | cons c cs => simp
  cases hbm : (suggest_loop input commands).best_match with
  | none => exact absurd hc0 ((hn hbm).2 c0)
  | some w =>
    obtain ⟨a1, a2, a3, _, a5, _, _, a8⟩ := hw w hbm
    refine ⟨w, fossil_ti_reason_t.mk input w (suggest_loop input commands).best_distance
      (suggest_loop input commands).best_score (suggest_loop input commands).best_jaccard
      (suggest_loop input commands).best_prefix_match
      (suggest_loop input commands).best_suffix_match
      (suggest_loop input commands).best_case_insensitive
      (suggest_reason (suggest_loop input commands)), ?_, rfl, a1, a2, a3, a5,
      fun c hc => a8 hnoexact c hc⟩
    unfold suggest_command_full
    simp only [if_neg hpos, hbm]

/-- The theorem `suggest_winner_is_best` applies to the input `"buld"` and the
example list. -/
theorem suggest_winner_is_best_witness :
    ∃ w r, (suggest_command_full (some "buld".toList) (some example_commands)).2 = some r ∧
      r.suggested = w ∧ some w ∈ example_commands ∧
      r.confidence_score = cand_score "buld".toList w ∧
      r.edit_distance = cand_distance "buld".toList w ∧
      r.prefix_match = cand_prefix_match "buld".toList w ∧
      ∀ c, some c ∈ example_commands →
        cand_score "buld".toList c ≤ cand_score "buld".toList w ∧
        (cand_score "buld".toList c = cand_score "buld".toList w →
          cand_distance "buld".toList w ≤ cand_distance "buld".toList c) ∧
        (cand_score "buld".toList c = cand_score "buld".toList w →
          cand_distance "buld".toList c = cand_distance "buld".toList w →
          cand_prefix_match "buld".toList c ≤ cand_prefix_match "buld".toList w) :=
  suggest_winner_is_best "buld".toList example_commands ⟨"run".toList, by decide⟩ (by decide)
    (by
      intro c hc
      simp only [example_commands, List.mem_cons, Option.some.injEq, List.mem_singleton,
        List.not_mem_nil, or_false] at hc
      rcases hc with rfl | rfl | rfl <;> decide)

/-- Claim C9: `fossil_it_magic_suggest_command` returns none exactly when there
is no winner or the winner's final score is below the threshold `0.7f`; there
is no winner exactly when no candidate is present (in particular for an empty
list), and an absent input or an absent list gives none; a returned string is
the winner, an element of the list, with a score of at least `0.7f`.  The input
`"xyz123"` with the candidates `["build", "test", "run"]` returns none. -/
theorem suggest_none_iff_below_threshold (input : CStr) (commands : List (Option CStr))
    (hlen : ∀ c, some c ∈ commands → c.length < INT_MAX) :
    (fossil_it_magic_suggest_command (some input) (some commands) = none ↔
        (suggest_loop input commands).best_match = none ∨
          ∃ w, (suggest_loop input commands).best_match = some w ∧
            cand_score input w < f32_lit 7 10) ∧
      ((suggest_loop input commands).best_match = none ↔ ∀ c, some c ∉ commands) ∧
      (∀ w, fossil_it_magic_suggest_command (some input) (some commands) = some w →
        (suggest_loop input commands).best_match = some w ∧ some w ∈ commands ∧
          f32_lit 7 10 ≤ cand_score input w) ∧
      fossil_it_magic_suggest_command none (some commands) = none ∧
      fossil_it_magic_suggest_command (some input) none = none ∧
      fossil_it_magic_suggest_command (some input) (some []) = none ∧
      fossil_it_magic_suggest_command (some "xyz123".toList) (some example_commands) = none := by
  obtain ⟨hn, hw⟩ := suggest_loop_inv input commands hlen
  have hval : fossil_it_magic_suggest_command (some input) (some commands) =
      match (suggest_loop input commands).best_match with
      | none => none
      | some best => if (suggest_loop input commands).best_score ≥ f32_lit 7 10 then some best
          else none := by
    unfold fossil_it_magic_suggest_command suggest_command_full
    by_cases hpos : commands.length ≤ 0
    · have : commands = [] := List.length_eq_zero.mp (by omega)
      subst this
      rfl
    · simp only [if_neg hpos]
      split <;> rfl
  refine ⟨?_, ?_, ?_, rfl, rfl, rfl, by decide⟩
  · rw [hval]
    cases hbm : (suggest_loop input commands).best_match with
    | none => simp
    | some w =>
      obtain ⟨_, a2, _⟩ := hw w hbm
      simp only [a2, false_or, Option.some.injEq, exists_eq_left']
      constructor
      · intro h
        by_contra hc
        have hge : cand_score input w ≥ f32_lit 7 10 := by omega
        rw [if_pos hge] at h
        cases h
      · intro h
        rcases h with h | h
        · cases h
        · have hlt : ¬ cand_score input w ≥ f32_lit 7 10 := by omega
          rw [if_neg hlt]
  · constructor
    · intro h; exact (hn h).2
    · intro h
      cases hbm : (suggest_loop input commands).best_match with
      | none => rfl
      | some w => exact absurd (hw w hbm).1 (h w)
  · intro w hret
    rw [hval] at hret
    cases hbm : (suggest_loop input commands).best_match with
    | none => simp only [hbm] at hret; cases hret
    | some w0 =>
      simp only [hbm] at hret
      obtain ⟨a1, a2, _⟩ := hw w0 hbm
      by_cases hge : (suggest_loop input commands).best_score ≥ f32_lit 7 10
      · rw [if_pos hge] at hret
        injection hret with hret
        subst hret
        exact ⟨rfl, a1, by rw [← a2]; exact hge⟩
      · rw [if_neg hge] at hret
        cases hret

/-- The theorem `suggest_none_iff_below_threshold` applies to the input
`"xyz123"` and the example list, whose strings are short. -/
theorem suggest_none_iff_below_threshold_witness :
    (∀ c, some c ∈ example_commands → c.length < INT_MAX) ∧
      ((fossil_it_magic_suggest_command (some "xyz123".toList) (some example_commands) = none ↔
        (suggest_loop "xyz123".toList example_commands).best_match = none ∨
          ∃ w, (suggest_loop "xyz123".toList example_commands).best_match = some w ∧
            cand_score "xyz123".toList w < f32_lit 7 10) ∧
      ((suggest_loop "xyz123".toList example_commands).best_match = none ↔
        ∀ c, some c ∉ example_commands) ∧
      (∀ w, fossil_it_magic_suggest_command (some "xyz123".toList) (some example_commands) =
          some w →
        (suggest_loop "xyz123".toList example_commands).best_match = some w ∧
          some w ∈ example_commands ∧ f32_lit 7 10 ≤ cand_score "xyz123".toList w) ∧
      fossil_it_magic_suggest_command none (some example_commands) = none ∧
      fossil_it_magic_suggest_command (some "xyz123".toList) none = none ∧
      fossil_it_magic_suggest_command (some "xyz123".toList) (some []) = none ∧
      fossil_it_magic_suggest_command (some "xyz123".toList) (some example_commands) = none) :=
  have hlen : ∀ c, some c ∈ example_commands → c.length < INT_MAX := by
    intro c hc
    simp only [example_commands, List.mem_cons, Option.some.injEq, List.mem_singleton,
      List.not_mem_nil, or_false] at hc
    rcases hc with rfl | rfl | rfl <;> decide
  ⟨hlen, suggest_none_iff_below_threshold "xyz123".toList example_commands hlen⟩

/-- Claim C10: `fossil_it_magic_suggest_command("buld", ["build", "test", "run"])`
returns `"build"`. -/
theorem suggest_buld_returns_build :
    fossil_it_magic_suggest_command (some "buld".toList) (some example_commands) =
      some "build".toList := by
  decide

/-! ## The trace of the command suggester and the auto-apply threshold -/

/-- Claim C11: for a present input and a candidate list with at least one
present candidate (all strings of a length that fits in an `int`), the trace is
filled with the winning candidate and that candidate's own distance, score,
Jaccard index and flags `prefix`, `suffix` and `case_insensitive`; this also
happens when the winning score is below `0.7f`, in which case the function
returns none.  For the input `"xyz123"` and the candidates
`["build", "test", "run"]` the trace names `"run"` while none is returned. -/
theorem suggest_trace_holds_winner (input : CStr) (commands : List (Option CStr))
    (hsome : ∃ c, some c ∈ commands)
    (hlen : ∀ c, some c ∈ commands → c.length < INT_MAX) :
    (∃ w r, (suggest_command_full (some input) (some commands)).2 = some r ∧
      (suggest_loop input commands).best_match = some w ∧
      r.input = input ∧ r.suggested = w ∧ some w ∈ commands ∧
      r.edit_distance = cand_distance input w ∧
      r.confidence_score = cand_score input w ∧
      r.jaccard_index = (fossil_it_magic_jaccard_index (some input) (some w) : Int) ∧
      r.prefix_match = cand_prefix_match input w ∧
      r.suffix_match = cand_suffix_match input w ∧
      r.case_insensitive = b2i (fossil_io_cstring_iequals input w) ∧
      (cand_score input w < f32_lit 7 10 →
        fossil_it_magic_suggest_command (some input) (some commands) = none)) ∧
      ((suggest_command_full (some "xyz123".toList) (some example_commands)).2.map
          (fun r => r.suggested) = some "run".toList ∧
        fossil_it_magic_suggest_command (some "xyz123".toList) (some example_commands) = none) := by
  refine ⟨?_, by decide⟩
  obtain ⟨hn, hw⟩ := suggest_loop_inv input commands hlen
  obtain ⟨c0, hc0⟩ := hsome
  have hpos : ¬ commands.length ≤ 0 := by
    cases commands with
    | nil => simp at hc0
    | cons c cs => simp
  cases hbm : (suggest_loop input commands).best_match with
  | none => exact absurd hc0 ((hn hbm).2 c0)
  | some w =>
    obtain ⟨a1, a2, a3, a4, a5, a6, a7, _⟩ := hw w hbm
    refine ⟨w, fossil_ti_reason_t.mk input w (suggest_loop input commands).best_distance
      (suggest_loop input commands).best_score (suggest_loop input commands).best_jaccard
      (suggest_loop input commands).best_prefix_match
      (suggest_loop input commands).best_suffix_match
      (suggest_loop input commands).best_case_insensitive
      (suggest_reason (suggest_loop input commands)), ?_, rfl, rfl, rfl, a1, a3, a2, a4, a5, a6, a7,
      ?_⟩
    · unfold suggest_command_full
      simp only [if_neg hpos, hbm]
    · intro hlt
      have hnot : ¬ (suggest_loop input commands).best_score ≥ f32_lit 7 10 := by
        rw [a2]; omega
      unfold fossil_it_magic_suggest_command suggest_command_full
      simp only [if_neg hpos, hbm, if_neg hnot]

/-- The theorem `suggest_trace_holds_winner` applies to the input `"xyz123"` and
the example list. -/
theorem suggest_trace_holds_winner_witness :
    (∃ c, some c ∈ example_commands) ∧
      (∀ c, some c ∈ example_commands → c.length < INT_MAX) ∧
      ∃ w r, (suggest_command_full (some "xyz123".toList) (some example_commands)).2 = some r ∧
        (suggest_loop "xyz123".toList example_commands).best_match = some w ∧
        r.suggested = w ∧ r.confidence_score = cand_score "xyz123".toList w :=
  have hsome : ∃ c, some c ∈ example_commands := ⟨"run".toList, by decide⟩
  have hlen : ∀ c, some c ∈ example_commands → c.length < INT_MAX := by
    intro c hc
    simp only [example_commands, List.mem_cons, Option.some.injEq, List.mem_singleton,
      List.not_mem_nil, or_false] at hc
    rcases hc with rfl | rfl | rfl <;> decide
  ⟨hsome, hlen,
    match (suggest_trace_holds_winner "xyz123".toList example_commands hsome hlen).1 with
    | ⟨w, r, h1, h2, _, h4, _, _, h7, _⟩ => ⟨w, r, h1, h2, h4, h7⟩⟩

theorem autorecovery_applied_eq (token : CStr) (candidates : List CStr) :
    (fossil_it_magic_autorecovery_token token candidates).applied =
      b2i (decide ((fossil_it_magic_autorecovery_token token candidates).first_best_confidence >
        f32_lit 80 100)) := by
  have h80 := f32_lit_nonneg 80 100
  unfold fossil_it_magic_autorecovery_token
  simp only
  split
  · rfl
  · have hn : ¬ (0 : Int) > f32_lit 80 100 := by omega
    simp only [b2i, hn, decide_False, Bool.false_eq_true, if_false]

/-- Claim C12: for every token and candidate list the result of
`fossil_it_magic_autorecovery_token` has `applied` set exactly when
`first_best_confidence > 0.80f`, strictly; a best score of exactly `0.80f` gives
`applied = 0`, as for the token `"buld"` with the candidate `"build"`. -/
theorem autorecovery_applied_iff (token : CStr) (candidates : List CStr) :
    ((fossil_it_magic_autorecovery_token token candidates).applied = 1 ↔
        (fossil_it_magic_autorecovery_token token candidates).first_best_confidence >
          f32_lit 80 100) ∧
      ((fossil_it_magic_autorecovery_token token candidates).applied = 0 ∨
        (fossil_it_magic_autorecovery_token token candidates).applied = 1) ∧
      ((fossil_it_magic_autorecovery_token token candidates).first_best_confidence =
          f32_lit 80 100 →
        (fossil_it_magic_autorecovery_token token candidates).applied = 0) ∧
      ((fossil_it_magic_autorecovery_token "buld".toList ["build".toList]).first_best_confidence =
          f32_lit 80 100 ∧
        (fossil_it_magic_autorecovery_token "buld".toList ["build".toList]).applied = 0) := by
  have h := autorecovery_applied_eq token candidates
  refine ⟨?_, ?_, ?_, by decide⟩
  · rw [h]
    by_cases hc : (fossil_it_magic_autorecovery_token token candidates).first_best_confidence >
        f32_lit 80 100
    · simp [b2i, hc]
    · simp [b2i, hc]
  · rw [h]
    unfold b2i
    split
    · exact Or.inr rfl
    · exact Or.inl rfl
  · intro he
    rw [h, he]
    simp [b2i]

/-- Claim C13: `fossil_it_magic_autorecovery_token("confg", ["config", "convert",
"confirm"])` yields `first_best_token = "config"` and `recovered_token =
"config"` with `first_best_confidence > 0.80f`, hence `applied = 1`. -/
theorem autorecovery_confg_example :
    (fossil_it_magic_autorecovery_token "confg".toList
        ["config".toList, "convert".toList, "confirm".toList]).first_best_token =
        "config".toList ∧
      (fossil_it_magic_autorecovery_token "confg".toList
        ["config".toList, "convert".toList, "confirm".toList]).recovered_token =
        "config".toList ∧
      (fossil_it_magic_autorecovery_token "confg".toList
        ["config".toList, "convert".toList, "confirm".toList]).first_best_confidence >
        f32_lit 80 100 ∧
      (fossil_it_magic_autorecovery_token "confg".toList
        ["config".toList, "convert".toList, "confirm".toList]).applied = 1 := by
  decide

/-! ## The sorting loops of the path suggester -/

theorem cand_swap_length (l : List path_candidate) (i j : Nat) :
    (cand_swap l i j).length = l.length := by
  simp [cand_swap]

theorem cand_at_swap (l : List path_candidate) (i j k : Nat) (hi : i < l.length)
    (hj : j < l.length) :
    cand_at (cand_swap l i j) k =
      if k = j then cand_at l i else if k = i then cand_at l j else cand_at l k := by
  unfold cand_swap cand_at
  simp only [List.getD_eq_getElem?_getD, List.getElem?_set, List.length_set]
  by_cases h1 : k = j
  · subst h1
    simp [hj]
  · by_cases h2 : k = i
    · subst h2
      have : ¬ j = k := fun h => h1 h.symm
      simp [this, hi, h1]
    · have h3 : ¬ j = k := fun h => h1 h.symm
      have h4 : ¬ i = k := fun h => h2 h.symm
      simp [h1, h2, h3, h4]

theorem sort_rel_refl (i : Nat) (l : List path_candidate) : sort_rel i l l :=
  ⟨rfl, fun _ _ => rfl, fun k hk => ⟨k, hk, rfl, fun h => h⟩⟩

theorem sort_rel_trans (i : Nat) (l r t : List path_candidate) (h1 : sort_rel i l r)
    (h2 : sort_rel i r t) : sort_rel i l t := by
  obtain ⟨a1, b1, c1⟩ := h1
  obtain ⟨a2, b2, c2⟩ := h2
  refine ⟨a2.trans a1, fun k hk => (b2 k hk).trans (b1 k hk), fun k hk => ?_⟩
  obtain ⟨m, hm, e, hge⟩ := c2 k (by omega)
  obtain ⟨m', hm', e', hge'⟩ := c1 m (by omega)
  exact ⟨m', hm', e.trans e', fun h => hge' (hge h)⟩

theorem sort_rel_weaken (i : Nat) (l r : List path_candidate) (h : sort_rel (i + 1) l r) :
    sort_rel i l r := by
  obtain ⟨a, b, c⟩ := h
  refine ⟨a, fun k hk => b k (by omega), fun k hk => ?_⟩
  by_cases hki : k < i + 1
  · exact ⟨k, hk, b k hki, fun h => h⟩
  · obtain ⟨m, hm, e, hge⟩ := c k hk
    exact ⟨m, hm, e, fun _ => by have := hge (by omega); omega⟩

theorem sort_rel_swap (i j : Nat) (l : List path_candidate) (hij : i < j)
    (hj : j < l.length) : sort_rel i l (cand_swap l i j) := by
  have hi : i < l.length := by omega
  refine ⟨cand_swap_length l i j, fun k hk => ?_, fun k hk => ?_⟩
  · rw [cand_at_swap l i j k hi hj, if_neg (by omega), if_neg (by omega)]
  · rw [cand_at_swap l i j k hi hj]
    by_cases h1 : k = j
    · rw [if_pos h1]; exact ⟨i, hi, rfl, fun _ => Nat.le_refl _⟩
    · rw [if_neg h1]
      by_cases h2 : k = i
      · rw [if_pos h2]; exact ⟨j, hj, rfl, fun _ => by omega⟩
      · rw [if_neg h2]; exact ⟨k, hk, rfl, fun h => h⟩

theorem path_sort_inner_rel (i n : Nat) : ∀ (j : Nat) (l : List path_candidate),
    i < j → j + n = l.length → sort_rel i l (path_sort_inner i n j l) := by
  induction n with
  | zero => intro j l _ _; exact sort_rel_refl i l
  | succ n ih =>
    intro j l hij hn
    unfold path_sort_inner
    split
    · have hs := sort_rel_swap i j l hij (by omega)
      exact sort_rel_trans i _ _ _ hs (ih (j + 1) _ (by omega) (by rw [cand_swap_length]; omega))
    · exact ih (j + 1) l (by omega) (by omega)

theorem path_sort_inner_max (i n : Nat) : ∀ (j : Nat) (l : List path_candidate),
    i < j → j + n = l.length →
    (∀ q, i < q → q < j → (cand_at l q).score ≤ (cand_at l i).score) →
    ∀ q, i < q → q < l.length →
      (cand_at (path_sort_inner i n j l) q).score ≤ (cand_at (path_sort_inner i n j l) i).score := by
  induction n with
  | zero =>
    intro j l _ hn h q hq hql
    exact h q hq (by omega)
  | succ n ih =>
    intro j l hij hn h q hq hql
    have hj : j < l.length := by omega
    have hi : i < l.length := by omega
    unfold path_sort_inner
    split
    · rename_i hgt
      have hlen := cand_swap_length l i j
      refine ih (j + 1) (cand_swap l i j) (by omega) (by omega) ?_ q hq (by omega)
      intro q' h1 h2
      have hne : ¬ i = j := by omega
      have hne' : ¬ q' = i := by omega
      have e1 : cand_at (cand_swap l i j) i = cand_at l j := by
        rw [cand_at_swap l i j i hi hj, if_neg hne, if_pos rfl]
      rw [e1, cand_at_swap l i j q' hi hj]
      by_cases hqj : q' = j
      · rw [if_pos hqj]; omega
      · rw [if_neg hqj, if_neg hne']
        have := h q' h1 (by omega)
        omega
    · rename_i hgt
      refine ih (j + 1) l (by omega) (by omega) ?_ q hq hql
      intro q' h1 h2
      by_cases hqj : q' = j
      · subst hqj; omega
      · exact h q' h1 (by omega)

theorem path_sort_pass (i : Nat) (l : List path_candidate) (h : sorted_upto i l) :
    sort_rel i l (path_sort_inner i (l.length - (i + 1)) (i + 1) l) ∧
      sorted_upto (i + 1) (path_sort_inner i (l.length - (i + 1)) (i + 1) l) := by
  by_cases hlen : i + 1 ≤ l.length
  · have hrel := path_sort_inner_rel i (l.length - (i + 1)) (i + 1) l (by omega) (by omega)
    have hmax := path_sort_inner_max i (l.length - (i + 1)) (i + 1) l (by omega) (by omega)
      (fun q h1 h2 => by omega)
    refine ⟨hrel, ?_⟩
    obtain ⟨a, b, c⟩ := hrel
    intro p q hp hpq hq
    rw [a] at hq
    by_cases hpi : p = i
    · subst hpi; exact hmax q hpq hq
    · have hp' : p < i := by omega
      rw [b p hp']
      obtain ⟨m, hm, e, hge⟩ := c q hq
      rw [e]
      by_cases hqi : q < i
      · rw [← e, b q hqi]; exact h p q hp' hpq hq
      · have := hge (by omega)
        exact h p m hp' (by omega) hm
  · have h0 : l.length - (i + 1) = 0 := by omega
    rw [h0]
    refine ⟨sort_rel_refl i l, ?_⟩
    intro p q hp hpq hq
    unfold path_sort_inner at hq ⊢
    by_cases hpi : p < i
    · exact h p q hpi hpq hq
    · omega

theorem path_sort_outer_spec (n : Nat) : ∀ (i : Nat) (l : List path_candidate),
    sorted_upto i l →
    sort_rel 0 l (path_sort_outer n i l) ∧ sorted_upto (i + n) (path_sort_outer n i l) := by
  induction n with
  | zero => intro i l h; exact ⟨sort_rel_refl 0 l, h⟩
  | succ n ih =>
    intro i l h
    unfold path_sort_outer
    obtain ⟨hrel, hsorted⟩ := path_sort_pass i l h
    obtain ⟨hrel2, hsorted2⟩ := ih (i + 1) _ hsorted
    have hrel0 : sort_rel 0 l (path_sort_inner i (l.length - (i + 1)) (i + 1) l) := by
      clear hrel2 hsorted2 hsorted
      induction i with
      | zero => exact hrel
      | succ i _ =>
        obtain ⟨a, _, c⟩ := hrel
        exact ⟨a, fun k hk => by omega, fun k hk => by
          obtain ⟨m, hm, e, _⟩ := c k hk
          exact ⟨m, hm, e, fun _ => Nat.zero_le _⟩⟩
    refine ⟨sort_rel_trans 0 _ _ _ hrel0 hrel2, ?_⟩
    have : i + (n + 1) = i + 1 + n := by omega
    rw [this]
    exact hsorted2

theorem path_sort_length (l : List path_candidate) : (path_sort l).length = l.length :=
  (path_sort_outer_spec (l.length - 1) 0 l (fun p q hp _ _ => by omega)).1.1

theorem path_sort_mem (l : List path_candidate) (x : path_candidate) (hx : x ∈ path_sort l) :
    x ∈ l := by
  obtain ⟨a, _, c⟩ := (path_sort_outer_spec (l.length - 1) 0 l (fun p q hp _ _ => by omega)).1
  obtain ⟨k, hk, rfl⟩ := List.mem_iff_getElem.mp hx
  have hk' : k < l.length := by rw [← a]; exact hk
  obtain ⟨m, hm, e, _⟩ := c k hk'
  have e1 : cand_at (path_sort l) k = (path_sort l)[k] := by
    unfold cand_at; simp [List.getD_eq_getElem?_getD, hk]
  have e2 : cand_at l m = l[m] := by
    unfold cand_at; simp [List.getD_eq_getElem?_getD, hm]
  have e3 : (path_sort l)[k] = l[m] := by
    rw [← e1, ← e2]
    exact e
  rw [e3]
  exact List.getElem_mem _

theorem path_sort_inner_id (i n : Nat) : ∀ (j : Nat) (l : List path_candidate),
    i < j → n ≤ l.length - j →
    (∀ q, i < q → q < l.length → (cand_at l q).score ≤ (cand_at l i).score) →
    path_sort_inner i n j l = l := by
  induction n with
  | zero => intro j l _ _ _; rfl
  | succ n ih =>
    intro j l hij hn h
    unfold path_sort_inner
    have := h j hij (by omega)
    rw [if_neg (by omega)]
    exact ih (j + 1) l (by omega) (by omega) h

theorem path_sort_outer_id (n : Nat) : ∀ (i : Nat) (l : List path_candidate),
    (∀ p q, p < q → q < l.length → (cand_at l q).score ≤ (cand_at l p).score) →
    path_sort_outer n i l = l := by
  induction n with
  | zero => intro i l _; rfl
  | succ n ih =>
    intro i l h
    unfold path_sort_outer
    rw [path_sort_inner_id i _ (i + 1) l (by omega) (Nat.le_refl _) (fun q hq => h i q hq)]
    exact ih (i + 1) l h

theorem path_sort_of_pairwise (l : List path_candidate)
    (h : l.Pairwise (fun a b => b.score ≤ a.score)) : path_sort l = l := by
  apply path_sort_outer_id
  intro p q hpq hq
  have hp : p < l.length := by omega
  have e1 : cand_at l p = l[p] := by
    unfold cand_at; simp [List.getD_eq_getElem?_getD, hp]
  have e2 : cand_at l q = l[q] := by
    unfold cand_at; simp [List.getD_eq_getElem?_getD, hq]
  rw [e1, e2]
  exact List.pairwise_iff_getElem.mp h p q hp hq hpq

/-! ## The sorting loops rearrange the candidates -/

theorem cand_swap_perm (l : List path_candidate) (i j : Nat) (hij : i < j)
    (hj : j < l.length) : (cand_swap l i j).Perm l := by
  have hi : i < l.length := by omega
  have e1 : cand_at l i = l[i] := by
    unfold cand_at; simp [List.getD_eq_getElem?_getD, hi]
  have e2 : cand_at l j = l[j] := by
    unfold cand_at; simp [List.getD_eq_getElem?_getD, hj]
  rw [List.perm_iff_count]
  intro b
  unfold cand_swap
  rw [e1, e2, List.count_set _ _ _ _ (by rw [List.length_set]; exact hj),
    List.count_set _ _ _ _ hi]
  have hne : i ≠ j := by omega
  rw [List.getElem_set_ne hne]
  have hpos : (l[i] == b) = true → 0 < List.count b l := by
    intro h
    rw [List.count_pos_iff]
    have : l[i] = b := by simpa using h
    rw [← this]
    exact List.getElem_mem _
  by_cases ha : (l[i] == b) = true
  · have := hpos ha
    by_cases hb : (l[j] == b) = true
    · simp only [ha, hb, if_true]; omega
    · rw [Bool.not_eq_true] at hb
      simp only [ha, hb, if_true, Bool.false_eq_true, if_false]; omega
  · rw [Bool.not_eq_true] at ha
    by_cases hb : (l[j] == b) = true
    · simp only [ha, hb, if_true, Bool.false_eq_true, if_false]; omega
    · rw [Bool.not_eq_true] at hb
      simp only [ha, hb, Bool.false_eq_true, if_false]; omega

theorem path_sort_inner_perm (i n : Nat) : ∀ (j : Nat) (l : List path_candidate),
    i < j → j + n = l.length → (path_sort_inner i n j l).Perm l := by
  induction n with
  | zero => intro j l _ _; exact List.Perm.refl _
  | succ n ih =>
    intro j l hij hn
    unfold path_sort_inner
    split
    · exact (ih (j + 1) _ (by omega) (by rw [cand_swap_length]; omega)).trans
        (cand_swap_perm l i j hij (by omega))
    · exact ih (j + 1) l (by omega) (by omega)

theorem path_sort_outer_perm (n : Nat) : ∀ (i : Nat) (l : List path_candidate),
    (path_sort_outer n i l).Perm l := by
  induction n with
  | zero => intro i l; exact List.Perm.refl _
  | succ n ih =>
    intro i l
    unfold path_sort_outer
    refine (ih (i + 1) _).trans ?_
    by_cases hlen : i + 1 ≤ l.length
    · exact path_sort_inner_perm i _ (i + 1) l (by omega) (by omega)
    · have h0 : l.length - (i + 1) = 0 := by omega
      rw [h0]
      exact List.Perm.refl _

/-- The sorted array holds the same candidates as the array before the sort,
each as often as before. -/
theorem path_sort_perm (l : List path_candidate) : (path_sort l).Perm l :=
  path_sort_outer_perm _ 0 l

/-! ## The scanning and the output loop of the path suggester -/

theorem path_accepted_cons (fs : file_system) (bad_path base_dir ent : CStr)
    (rest : List CStr) :
    path_accepted fs bad_path base_dir (ent :: rest) =
      if path_accepts fs bad_path base_dir ent then
        path_candidate_of fs bad_path base_dir ent :: path_accepted fs bad_path base_dir rest
      else path_accepted fs bad_path base_dir rest := by
  unfold path_accepted
  rw [List.filter_cons]
  split <;> rfl

theorem path_scan_eq (fs : file_system) (bad_path base_dir : CStr) (entries : List CStr) :
    ∀ cands : List path_candidate, cands.length ≤ 32 →
      path_scan fs bad_path base_dir entries cands =
        cands ++ (path_accepted fs bad_path base_dir entries).take (32 - cands.length) := by
  induction entries with
  | nil => intro cands _; simp [path_scan, path_accepted]
  | cons ent rest ih =>
    intro cands hc
    rw [path_accepted_cons]
    unfold path_scan
    by_cases hfull : cands.length < 32
    · rw [if_neg (not_not.mpr hfull)]
      by_cases hdot : is_dot_entry ent = true
      · rw [if_pos hdot, ih cands hc]
        simp [path_accepts, hdot]
      · rw [if_neg hdot]
        simp only
        by_cases hlow : adjusted_score bad_path ent < f32_lit 18 100
        · rw [if_pos hlow, ih cands hc]
          simp [path_accepts, hlow]
        · rw [if_neg hlow]
          by_cases hlong : (join_path base_dir ent).length ≥ fs.PATH_MAX
          · rw [if_pos hlong, ih cands hc]
            simp [path_accepts, hlong]
          · rw [if_neg hlong, ih _ (by simp; omega)]
            have hacc : path_accepts fs bad_path base_dir ent = true := by
              simp [path_accepts, hdot, hlow]
              omega
            rw [if_pos hacc]
            have e : 32 - cands.length = (32 - (cands ++ [path_candidate.mk
                (join_path base_dir ent) (adjusted_score bad_path ent)
                (b2i (fs.stat (join_path base_dir ent)).isSome)]).length) + 1 := by
              simp; omega
            rw [e, List.take_succ_cons, List.append_assoc]
            rfl
    · rw [if_pos hfull]
      have : 32 - cands.length = 0 := by omega
      rw [this]
      simp

theorem path_emit_eq (l : List path_candidate) :
    ∀ (L : List fossil_ti_path_suggestion_t) (n : Nat),
      path_emit l (fossil_ti_path_suggestion_set_t.mk L (n : Int)) =
        if l = [] ∨ n + l.length ≤ 16 then
          some (fossil_ti_path_suggestion_set_t.mk (L ++ l.map suggestion_of)
            ((n + l.length : Nat) : Int))
        else none := by
  induction l with
  | nil => intro L n; simp [path_emit]
  | cons c cs ih =>
    intro L n
    unfold path_emit
    simp only
    by_cases hn : n < 16
    · have hc : (0 : Int) ≤ (n : Int) ∧ (n : Int) < path_list_capacity := by
        unfold path_list_capacity; omega
      rw [if_pos hc]
      have e : (n : Int) + 1 = ((n + 1 : Nat) : Int) := by omega
      rw [e, ih]
      by_cases hfit : n + (c :: cs).length ≤ 16
      · have h1 : cs = [] ∨ n + 1 + cs.length ≤ 16 := by
          right; simp only [List.length_cons] at hfit; omega
        have h2 : c :: cs = [] ∨ n + (c :: cs).length ≤ 16 := Or.inr hfit
        rw [if_pos h1, if_pos h2]
        simp only [List.map_cons, List.length_cons, List.append_assoc, List.singleton_append,
          suggestion_of]
        congr 3
        omega
      · have h1 : ¬ (cs = [] ∨ n + 1 + cs.length ≤ 16) := by
          intro h
          rcases h with h | h
          · subst h; simp only [List.length_cons, List.length_nil] at hfit; omega
          · simp only [List.length_cons] at hfit; omega
        have h2 : ¬ (c :: cs = [] ∨ n + (c :: cs).length ≤ 16) := by
          intro h
          rcases h with h | h
          · cases h
          · exact hfit h
        rw [if_neg h1, if_neg h2]
    · have hc : ¬ ((0 : Int) ≤ (n : Int) ∧ (n : Int) < path_list_capacity) := by
        unfold path_list_capacity; omega
      have h2 : ¬ (c :: cs = [] ∨ n + (c :: cs).length ≤ 16) := by
        intro h
        rcases h with h | h
        · cases h
        · simp only [List.length_cons] at h; omega
      rw [if_neg hc, if_neg h2]

/-- What `fossil_it_magic_path_suggest` does on a directory that can be opened:
with at most 16 accepted entries it writes the sorted candidates of all of
them, with more it stores outside `out->list`. -/
theorem path_suggest_eq (fs : file_system) (bad_path base_dir : CStr) (entries : List CStr)
    (h : fs.readdir base_dir = some entries) :
    fossil_it_magic_path_suggest fs bad_path base_dir =
      if (path_accepted fs bad_path base_dir entries).length ≤ 16 then
        some (fossil_ti_path_suggestion_set_t.mk
          ((path_sort (path_accepted fs bad_path base_dir entries)).map suggestion_of)
          ((path_accepted fs bad_path base_dir entries).length : Int))
      else none := by
  unfold fossil_it_magic_path_suggest
  rw [h]
  simp only
  rw [path_scan_eq fs bad_path base_dir entries [] (by simp)]
  have e0 := path_emit_eq (path_sort ((path_accepted fs bad_path base_dir entries).take 32)) [] 0
  simp only [Nat.cast_zero, List.length_nil, Nat.sub_zero, List.nil_append, Nat.zero_add,
    path_sort_length] at e0 ⊢
  rw [e0]
  by_cases hfit : (path_accepted fs bad_path base_dir entries).length ≤ 16
  · have ht : (path_accepted fs bad_path base_dir entries).take 32 =
        path_accepted fs bad_path base_dir entries := List.take_of_length_le (by omega)
    rw [ht, if_pos hfit, if_pos (Or.inr hfit)]
  · rw [if_neg hfit, if_neg]
    intro hc
    rcases hc with hc | hc
    · have hl := congrArg List.length hc
      rw [path_sort_length] at hl
      simp only [List.length_take, List.length_nil] at hl
      omega
    · simp only [List.length_take] at hc
      omega

/-- Claim C14 (defect in the code): the output loop copies all `idx` candidates
(up to 32) and increments `out->count` for each, with no test against the 16
elements of `list`.  For a directory with the seventeen entries `"fa"` ...
`"fq"` and the bad path `"f"` the scan leaves `idx = 17`; sixteen passes of the
output loop fill `list[0 .. 15]` and leave `count = 16`, and the seventeenth
pass stores to `list[16]`, past the end of the array, so that the call has no
defined result.  With the first sixteen of these entries alone the call
returns `count = 16`. -/
theorem path_suggest_count_seventeen :
    (path_scan (listing_fs seventeen_names) "f".toList "d".toList
        (".".toList :: "..".toList :: seventeen_names) []).length = 17 ∧
      (path_emit ((path_sort (path_scan (listing_fs seventeen_names) "f".toList "d".toList
          (".".toList :: "..".toList :: seventeen_names) [])).take 16)
        (fossil_ti_path_suggestion_set_t.mk [] 0)).map (fun out => out.count) = some 16 ∧
      fossil_it_magic_path_suggest (listing_fs seventeen_names) "f".toList "d".toList = none ∧
      (fossil_it_magic_path_suggest (listing_fs (seventeen_names.take 16)) "f".toList
        "d".toList).map (fun out => out.count) = some 16 := by
  decide

/-- Claim C16, counterexample: the sorting loops are not stable.  A directory
delivers `"abx"`, `"aby"`, `"ab"` in this order; for the bad path `"ab"` the
first two have the same score, yet the output lists `"d/aby"` before
`"d/abx"`. -/
theorem path_suggest_not_stable :
    adjusted_score "ab".toList "abx".toList = adjusted_score "ab".toList "aby".toList ∧
      (fossil_it_magic_path_suggest
          (listing_fs ["abx".toList, "aby".toList, "ab".toList]) "ab".toList
          "d".toList).map (fun out => out.list.map (fun s => s.candidate_path)) =
        some ["d/ab".toList, "d/aby".toList, "d/abx".toList] := by
  decide

/-- Claim C16, amended: when the listing has at most 16 accepted entries (so
that the output fits `list[16]`) and their scores are already non-increasing in
enumeration order, in particular when they are all equal, the call returns the
suggestions of the accepted entries in enumeration order. -/
theorem path_suggest_keeps_sorted_order (fs : file_system) (bad_path base_dir : CStr)
    (entries : List CStr) (hdir : fs.readdir base_dir = some entries)
    (hfit : (path_accepted fs bad_path base_dir entries).length ≤ 16)
    (hsorted : (path_accepted fs bad_path base_dir entries).Pairwise
      (fun a b => b.score ≤ a.score)) :
    fossil_it_magic_path_suggest fs bad_path base_dir =
      some (fossil_ti_path_suggestion_set_t.mk
        ((path_accepted fs bad_path base_dir entries).map suggestion_of)
        ((path_accepted fs bad_path base_dir entries).length : Int)) := by
  rw [path_suggest_eq fs bad_path base_dir entries hdir, if_pos hfit,
    path_sort_of_pairwise _ hsorted]

/-- The theorem `path_suggest_keeps_sorted_order` applies to a directory that
delivers `"ab"`, `"abx"`, `"aby"` in this order, for the bad path `"ab"`. -/
theorem path_suggest_keeps_sorted_order_witness :
    (listing_fs ["ab".toList, "abx".toList, "aby".toList]).readdir "d".toList =
        some [".".toList, "..".toList, "ab".toList, "abx".toList, "aby".toList] ∧
      (path_accepted (listing_fs ["ab".toList, "abx".toList, "aby".toList]) "ab".toList
          "d".toList [".".toList, "..".toList, "ab".toList, "abx".toList,
            "aby".toList]).length ≤ 16 ∧
      (path_accepted (listing_fs ["ab".toList, "abx".toList, "aby".toList]) "ab".toList
          "d".toList [".".toList, "..".toList, "ab".toList, "abx".toList,
            "aby".toList]).Pairwise (fun a b => b.score ≤ a.score) ∧
      fossil_it_magic_path_suggest
          (listing_fs ["ab".toList, "abx".toList, "aby".toList]) "ab".toList "d".toList =
        some (fossil_ti_path_suggestion_set_t.mk
          ((path_accepted (listing_fs ["ab".toList, "abx".toList, "aby".toList]) "ab".toList
            "d".toList [".".toList, "..".toList, "ab".toList, "abx".toList,
              "aby".toList]).map suggestion_of)
          ((path_accepted (listing_fs ["ab".toList, "abx".toList, "aby".toList]) "ab".toList
            "d".toList [".".toList, "..".toList, "ab".toList, "abx".toList,
              "aby".toList]).length : Int)) :=
  ⟨by decide, by decide, by decide,
    path_suggest_keeps_sorted_order (listing_fs ["ab".toList, "abx".toList, "aby".toList])
      "ab".toList "d".toList
      [".".toList, "..".toList, "ab".toList, "abx".toList, "aby".toList] (by decide) (by decide)
      (by decide)⟩

/-- Claim C17, counterexample: the bound 32 counts accepted entries, not scanned
ones.  In a directory whose first 32 entries (after `"."` and `".."`) are
one-letter names that score `0` against the bad path `"q"`, the 33rd entry
`"q"` is still suggested. -/
theorem path_suggest_scans_past_32 :
    thirty_three_names.length = 33 ∧ thirty_three_names.getLast? = some "q".toList ∧
      (fossil_it_magic_path_suggest (listing_fs thirty_three_names) "q".toList
          "d".toList).map (fun out => out.list.map (fun s => s.candidate_path)) =
        some ["d/q".toList] := by
  decide

/-- Claim C17, amended: the scan does not stop after 32 scanned entries; the
guard `idx < 32` counts the accepted entries (not `"."` or `".."`, score at
least `0.18f`, full path shorter than `PATH_MAX`).  When the listing has at most
16 accepted entries, so that the output fits `list[16]`, the call returns a
rearrangement of the suggestions of all accepted entries of the listing: every
accepted entry appears in the output, at whatever position of the enumeration
it comes, and nothing else does. -/
theorem path_suggest_all_accepted (fs : file_system) (bad_path base_dir : CStr)
    (entries : List CStr) (hdir : fs.readdir base_dir = some entries)
    (hfit : (path_accepted fs bad_path base_dir entries).length ≤ 16) :
    ∃ out, fossil_it_magic_path_suggest fs bad_path base_dir = some out ∧
      out.count = ((path_accepted fs bad_path base_dir entries).length : Int) ∧
      out.list.Perm ((path_accepted fs bad_path base_dir entries).map suggestion_of) ∧
      (∀ (k : Nat) (ent : CStr), entries[k]? = some ent →
        path_accepts fs bad_path base_dir ent = true →
        suggestion_of (path_candidate_of fs bad_path base_dir ent) ∈ out.list) ∧
      ∀ s, s ∈ out.list → ∃ ent, ent ∈ entries ∧ path_accepts fs bad_path base_dir ent = true ∧
        s = suggestion_of (path_candidate_of fs bad_path base_dir ent) := by
  rw [path_suggest_eq fs bad_path base_dir entries hdir, if_pos hfit]
  have hperm : ((path_sort (path_accepted fs bad_path base_dir entries)).map suggestion_of).Perm
      ((path_accepted fs bad_path base_dir entries).map suggestion_of) :=
    (path_sort_perm _).map suggestion_of
  refine ⟨_, rfl, rfl, hperm, ?_, ?_⟩
  · intro k ent hk hacc
    apply hperm.mem_iff.mpr
    apply List.mem_map_of_mem
    unfold path_accepted
    apply List.mem_map_of_mem
    rw [List.mem_filter]
    exact ⟨List.getElem?_mem hk, hacc⟩
  · intro s hs
    have hs2 := hperm.mem_iff.mp hs
    simp only [path_accepted, List.map_map, List.mem_map, List.mem_filter,
      Function.comp] at hs2
    obtain ⟨ent, ⟨hmem, hacc⟩, rfl⟩ := hs2
    exact ⟨ent, hmem, hacc, rfl⟩

/-- In the directory whose 33rd entry after `"."` and `".."` is `"q"`, the entry
at index 34 of the enumeration is accepted for the bad path `"q"` and is
suggested. -/
theorem path_suggest_all_accepted_witness :
    (listing_fs thirty_three_names).readdir "d".toList =
        some (".".toList :: "..".toList :: thirty_three_names) ∧
      (path_accepted (listing_fs thirty_three_names) "q".toList "d".toList
        (".".toList :: "..".toList :: thirty_three_names)).length ≤ 16 ∧
      (".".toList :: "..".toList :: thirty_three_names)[34]? = some "q".toList ∧
      ∃ out, fossil_it_magic_path_suggest (listing_fs thirty_three_names) "q".toList
          "d".toList = some out ∧
        suggestion_of (path_candidate_of (listing_fs thirty_three_names) "q".toList "d".toList
          "q".toList) ∈ out.list := by
  refine ⟨by decide, by decide, by decide, ?_⟩
  obtain ⟨out, h1, _, _, h4, _⟩ :=
    path_suggest_all_accepted (listing_fs thirty_three_names) "q".toList "d".toList
      (".".toList :: "..".toList :: thirty_three_names) (by decide) (by decide)
  exact ⟨out, h1, h4 34 "q".toList (by decide) (by decide)⟩

/-! ## The directory walk -/

theorem directory_size_fold_none (fs : file_system) (rec : CStr → Option Int) (path : CStr)
    (ents : List CStr) : ents.foldl (directory_size_step fs rec path) none = none := by
  induction ents with
  | nil => rfl
  | cons e es ih => simpa [List.foldl_cons, directory_size_step] using ih

theorem directory_size_fold_mono (fs : file_system) (rec rec2 : CStr → Option Int)
    (hrec : ∀ p v, rec p = some v → rec2 p = some v) (path : CStr) (ents : List CStr) :
    ∀ (acc : Option Int) (v : Int),
      ents.foldl (directory_size_step fs rec path) acc = some v →
      ents.foldl (directory_size_step fs rec2 path) acc = some v := by
  induction ents with
  | nil => intro acc v h; exact h
  | cons e es ih =>
    intro acc v h
    rw [List.foldl_cons] at h ⊢
    have hstep : directory_size_step fs rec path acc e = none ∨
        directory_size_step fs rec2 path acc e = directory_size_step fs rec path acc e := by
      unfold directory_size_step
      cases acc with
      | none => exact Or.inl rfl
      | some total =>
        simp only
        split
        · exact Or.inr rfl
        · split
          · exact Or.inr rfl
          · split
            · exact Or.inr rfl
            · split
              · cases hr : rec (join_path path e) with
                | none => exact Or.inl rfl
                | some sub => rw [hrec _ _ hr]; exact Or.inr rfl
              · exact Or.inr rfl
    rcases hstep with h0 | h1
    · rw [h0, directory_size_fold_none] at h
      cases h
    · rw [h1]
      exact ih _ v h

/-- A walk that returns within `fuel` levels returns the same size with more
fuel: the size does not depend on the bound. -/
theorem directory_size_mono (fs : file_system) (fuel : Nat) :
    ∀ (path : CStr) (v : Int),
      fossil_it_magic_directory_size fs fuel path = some v →
      fossil_it_magic_directory_size fs (fuel + 1) path = some v := by
  induction fuel with
  | zero => intro path v h; simp [fossil_it_magic_directory_size] at h
  | succ fuel ih =>
    intro path v h
    unfold fossil_it_magic_directory_size at h ⊢
    split
    · rename_i hrd
      rw [hrd] at h
      exact h
    · rename_i ents hrd
      rw [hrd] at h
      exact directory_size_fold_mono fs _ _ ih path ents (some 0) v h

/-- The analysis returns unless the path is a directory whose walk does not
return within `fuel` levels. -/
theorem danger_analyze_returns (fs : file_system) (fuel : Nat) (path : CStr)
    (h : ∀ st, fs.stat path = some st → st.is_dir = true →
      (fossil_it_magic_directory_size fs fuel path).isSome = true) :
    (fossil_it_magic_danger_analyze fs fuel path).isSome = true := by
  unfold fossil_it_magic_danger_analyze
  split
  · rfl
  · rename_i st hst
    simp only
    by_cases hd : st.is_dir = true
    · have := h st hst hd
      obtain ⟨v, hv⟩ := Option.isSome_iff_exists.mp this
      simp only [hd, b2i]
      rw [if_pos (by decide), hv]
      rfl
    · have hd' : st.is_dir = false := by simpa using hd
      simp only [hd', b2i]
      rw [if_neg (by decide)]
      rfl

theorem directory_size_fold_some (fs : file_system) (rec : CStr → Option Int) (path : CStr)
    (ents : List CStr)
    (hrec : ∀ name, name ∈ ents → (join_path path name).length < fs.PATH_MAX →
      (rec (join_path path name)).isSome = true) :
    ∀ acc : Int, (ents.foldl (directory_size_step fs rec path) (some acc)).isSome = true := by
  induction ents with
  | nil => intro acc; rfl
  | cons e es ih =>
    intro acc
    rw [List.foldl_cons]
    have hes := ih (fun name hn hl => hrec name (List.mem_cons_of_mem _ hn) hl)
    have hstep : ∃ acc2 : Int, directory_size_step fs rec path (some acc) e = some acc2 := by
      unfold directory_size_step
      simp only
      split
      · exact ⟨_, rfl⟩
      · split
        · exact ⟨_, rfl⟩
        · rename_i hlen
          split
          · exact ⟨_, rfl⟩
          · split
            · obtain ⟨sub, hsub⟩ := Option.isSome_iff_exists.mp
                (hrec e (List.mem_cons_self _ _) (by omega))
              rw [hsub]
              exact ⟨_, rfl⟩
            · exact ⟨_, rfl⟩
    obtain ⟨acc2, h2⟩ := hstep
    rw [h2]
    exact hes acc2

/-- The walk returns for every bound above `PATH_MAX`: it descends only into
names shorter than `PATH_MAX`, and every level lengthens the name by at least
the separator. -/
theorem directory_size_returns (fs : file_system) (fuel : Nat) :
    ∀ path : CStr, 0 < fuel → fs.PATH_MAX < fuel + path.length →
      (fossil_it_magic_directory_size fs fuel path).isSome = true := by
  induction fuel with
  | zero => intro path h _; omega
  | succ fuel ih =>
    intro path _ hlen
    unfold fossil_it_magic_directory_size
    split
    · rfl
    · rename_i ents hrd
      apply directory_size_fold_some
      intro name _ hfit
      have hj : (join_path path name).length = path.length + 1 + name.length := by
        simp [join_path]; omega
      exact ih (join_path path name) (by omega) (by omega)

/-- The analysis returns for every bound above `PATH_MAX`. -/
theorem danger_analyze_total (fs : file_system) (fuel : Nat) (path : CStr)
    (hfuel : fs.PATH_MAX < fuel) :
    ∃ item, fossil_it_magic_danger_analyze fs fuel path = some item :=
  Option.isSome_iff_exists.mp
    (danger_analyze_returns fs fuel path
      (fun _ _ _ => directory_size_returns fs fuel path (by omega) (by omega)))

theorem directory_size_mono_le (fs : file_system) (fuel fuel2 : Nat) (hle : fuel ≤ fuel2)
    (path : CStr) (v : Int) (h : fossil_it_magic_directory_size fs fuel path = some v) :
    fossil_it_magic_directory_size fs fuel2 path = some v := by
  induction hle with
  | refl => exact h
  | step _ ih => exact directory_size_mono fs _ path v ih

/-- An analysis that returns within `fuel` levels returns the same item with
every larger bound: the item does not depend on the bound. -/
theorem danger_analyze_mono (fs : file_system) (fuel fuel2 : Nat) (hle : fuel ≤ fuel2)
    (path : CStr) (item : fossil_ti_danger_item_t)
    (h : fossil_it_magic_danger_analyze fs fuel path = some item) :
    fossil_it_magic_danger_analyze fs fuel2 path = some item := by
  unfold fossil_it_magic_danger_analyze at h ⊢
  split
  · rename_i hst
    rw [hst] at h
    exact h
  · rename_i st hst
    rw [hst] at h
    simp only at h ⊢
    by_cases hd : st.is_dir = true
    · simp only [hd, b2i] at h ⊢
      rw [if_pos (by decide)] at h ⊢
      cases hsz : fossil_it_magic_directory_size fs fuel path with
      | none => rw [hsz] at h; cases h
      | some sz =>
        rw [hsz] at h
        rw [directory_size_mono_le fs fuel fuel2 hle path sz hsz]
        exact h
    · have hd2 : st.is_dir = false := by simpa using hd
      simp only [hd2, b2i] at h ⊢
      exact h

/-! ## Danger analysis -/

theorem b2i_cases (b : Bool) : b2i b = 0 ∨ b2i b = 1 := by
  cases b
  · exact Or.inl rfl
  · exact Or.inr rfl

theorem contains_git_cases (fs : file_system) (path : CStr) :
    fossil_it_magic_contains_git fs path = 0 ∨ fossil_it_magic_contains_git fs path = 1 := by
  unfold fossil_it_magic_contains_git
  simp only
  split
  · exact Or.inr rfl
  · split
    · exact Or.inr rfl
    · exact Or.inl rfl

theorem is_code_file_cases (path : CStr) :
    fossil_it_magic_is_code_file path = 0 ∨ fossil_it_magic_is_code_file path = 1 := by
  unfold fossil_it_magic_is_code_file
  split
  · exact Or.inl rfl
  · split
    · exact Or.inr rfl
    · simp only
      split
      · exact Or.inr rfl
      · exact Or.inl rfl

theorem contains_secret_cases (fs : file_system) (path : CStr) :
    fossil_it_magic_contains_secret fs path = 0 ∨ fossil_it_magic_contains_secret fs path = 1 := by
  unfold fossil_it_magic_contains_secret
  split
  · exact Or.inr rfl
  · split
    · exact Or.inl rfl
    · split
      · exact Or.inr rfl
      · exact Or.inl rfl

theorem danger_score_step (x w f : Int) (hf : f = 0 ∨ f = 1) :
    (if f ≠ 0 then x + w else x) = x + w * f := by
  rcases hf with rfl | rfl <;> simp

theorem danger_score_eq (c s l w y e r f : Int) (hc : c = 0 ∨ c = 1) (hs : s = 0 ∨ s = 1)
    (hl : l = 0 ∨ l = 1) (hw : w = 0 ∨ w = 1) (hy : y = 0 ∨ y = 1) (he : e = 0 ∨ e = 1)
    (hr : r = 0 ∨ r = 1) (hf : f = 0 ∨ f = 1) :
    danger_score c s l w y e r f = 3 * c + 5 * s + 2 * l + 2 * w + 1 * y + 2 * e + 1 * r + 2 * f := by
  unfold danger_score
  simp only [danger_score_step _ _ _ hc, danger_score_step _ _ _ hs, danger_score_step _ _ _ hl,
    danger_score_step _ _ _ hw, danger_score_step _ _ _ hy, danger_score_step _ _ _ he,
    danger_score_step _ _ _ hr, danger_score_step _ _ _ hf]
  ring

/-- The flags of a returned item are `0` or `1`, and its level is the cascade
applied to the weighted sum of the eight scored flags. -/
theorem danger_analyze_item (fs : file_system) (fuel : Nat) (path : CStr)
    (item : fossil_ti_danger_item_t)
    (h : fossil_it_magic_danger_analyze fs fuel path = some item) :
    (item.contains_code = 0 ∨ item.contains_code = 1) ∧
      (item.contains_secrets = 0 ∨ item.contains_secrets = 1) ∧
      (item.large_size = 0 ∨ item.large_size = 1) ∧
      (item.world_writable = 0 ∨ item.world_writable = 1) ∧
      (item.is_symlink = 0 ∨ item.is_symlink = 1) ∧
      (item.suspicious_extension = 0 ∨ item.suspicious_extension = 1) ∧
      (item.recently_modified = 0 ∨ item.recently_modified = 1) ∧
      (item.contains_suspicious_files = 0 ∨ item.contains_suspicious_files = 1) ∧
      item.level = danger_level_of_score (danger_score item.contains_code item.contains_secrets
        item.large_size item.world_writable item.is_symlink item.suspicious_extension
        item.recently_modified item.contains_suspicious_files) := by
  unfold fossil_it_magic_danger_analyze at h
  split at h
  · injection h with h
    subst h
    exact ⟨Or.inl rfl, Or.inl rfl, Or.inl rfl, Or.inl rfl, Or.inl rfl, Or.inl rfl, Or.inl rfl,
      Or.inl rfl, rfl⟩
  · rename_i st hst
    simp only at h
    split at h
    · cases h
    · rename_i sz hsz
      injection h with h
      subst h
      refine ⟨?_, ?_, b2i_cases _, b2i_cases _, b2i_cases _, ?_, ?_, ?_, rfl⟩
      · simp only
        split
        · exact contains_git_cases fs path
        · exact is_code_file_cases path
      · simp only
        split
        · exact contains_secret_cases fs path
        · exact Or.inl rfl
      · simp only
        split
        · exact b2i_cases _
        · exact Or.inl rfl
      · simp only
        split
        · exact Or.inr rfl
        · exact Or.inl rfl
      · simp only
        split
        · split
          · exact b2i_cases _
          · exact Or.inl rfl
        · exact Or.inl rfl

/-- Claim C18: the level set by `fossil_it_magic_danger_analyze` is a function of
the eight scored flags only: with `score = 3*contains_code + 5*contains_secrets +
2*large_size + 2*world_writable + 1*is_symlink + 2*suspicious_extension +
1*recently_modified + 2*contains_suspicious_files` it is CRITICAL if
`score >= 8`, HIGH if `score >= 5`, MEDIUM if `score >= 3`, LOW if `score >= 1`,
otherwise NONE; two results that agree on these eight flags have the same
level, whatever `is_directory`, `writable` and `contains_vcs` are. -/
theorem danger_level_from_flags (fs : file_system) (fuel : Nat) (path : CStr)
    (item : fossil_ti_danger_item_t)
    (h : fossil_it_magic_danger_analyze fs fuel path = some item) :
    item.level = danger_level_ref item ∧
      ∀ (fs2 : file_system) (fuel2 : Nat) (path2 : CStr) (item2 : fossil_ti_danger_item_t),
        fossil_it_magic_danger_analyze fs2 fuel2 path2 = some item2 →
        item2.contains_code = item.contains_code →
        item2.contains_secrets = item.contains_secrets →
        item2.large_size = item.large_size →
        item2.world_writable = item.world_writable →
        item2.is_symlink = item.is_symlink →
        item2.suspicious_extension = item.suspicious_extension →
        item2.recently_modified = item.recently_modified →
        item2.contains_suspicious_files = item.contains_suspicious_files →
        item2.level = item.level := by
  have key : ∀ (fs : file_system) (fuel : Nat) (path : CStr) (item : fossil_ti_danger_item_t),
      fossil_it_magic_danger_analyze fs fuel path = some item →
      item.level = danger_level_ref item := by
    intro fs fuel path item h
    obtain ⟨hc, hs, hl, hw, hy, he, hr, hf, hlev⟩ := danger_analyze_item fs fuel path item h
    rw [hlev, danger_score_eq _ _ _ _ _ _ _ _ hc hs hl hw hy he hr hf]
    rfl
  refine ⟨key fs fuel path item h, ?_⟩
  intro fs2 fuel2 path2 item2 h2 e1 e2 e3 e4 e5 e6 e7 e8
  rw [key fs fuel path item h, key fs2 fuel2 path2 item2 h2]
  unfold danger_level_ref
  rw [e1, e2, e3, e4, e5, e6, e7, e8]

/-- The file `"d/run.sh"` is analysed without a directory walk, and its level
follows the formula. -/
theorem danger_level_from_flags_witness :
    fossil_it_magic_danger_analyze (listing_fs ["run.sh".toList]) 0 "d/run.sh".toList =
        some (fossil_ti_danger_item_t.mk "d/run.sh".toList FOSSIL_TI_DANGER_HIGH
          0 1 0 0 0 1 0 0 1 0 0) ∧
      (fossil_ti_danger_item_t.mk "d/run.sh".toList FOSSIL_TI_DANGER_HIGH
          0 1 0 0 0 1 0 0 1 0 0).level =
        danger_level_ref (fossil_ti_danger_item_t.mk "d/run.sh".toList FOSSIL_TI_DANGER_HIGH
          0 1 0 0 0 1 0 0 1 0 0) :=
  ⟨by decide,
    (danger_level_from_flags (listing_fs ["run.sh".toList]) 0 "d/run.sh".toList
      (fossil_ti_danger_item_t.mk "d/run.sh".toList FOSSIL_TI_DANGER_HIGH 0 1 0 0 0 1 0 0 1 0 0)
      (by decide)).1⟩

/-- Claim C19: for a path whose metadata cannot be retrieved,
`fossil_it_magic_danger_analyze` returns, with level NONE, every flag cleared and
`target_path` holding the first 511 characters of the path. -/
theorem danger_analyze_missing_path (fs : file_system) (fuel : Nat) (path : CStr)
    (h : fs.stat path = none) :
    fossil_it_magic_danger_analyze fs fuel path =
      some (fossil_ti_danger_item_t.mk (path.take 511) FOSSIL_TI_DANGER_NONE
        0 0 0 0 0 0 0 0 0 0 0) := by
  unfold fossil_it_magic_danger_analyze
  rw [h]

/-- The path `"nope"` does not exist in the example file system. -/
theorem danger_analyze_missing_path_witness :
    (listing_fs []).stat "nope".toList = none ∧
      fossil_it_magic_danger_analyze (listing_fs []) 0 "nope".toList =
        some (fossil_ti_danger_item_t.mk ("nope".toList.take 511) FOSSIL_TI_DANGER_NONE
          0 0 0 0 0 0 0 0 0 0 0) :=
  ⟨by decide, danger_analyze_missing_path (listing_fs []) 0 "nope".toList (by decide)⟩

theorem contains_secret_of_file (fs : file_system) (path f : CStr) (hf : f ∈ secret_files)
    (hchild : (fs.stat (join_path path f)).isSome = true)
    (hfit : (join_path path f).length < fs.PATH_MAX) :
    fossil_it_magic_contains_secret fs path = 1 := by
  unfold fossil_it_magic_contains_secret
  rw [if_pos]
  rw [List.any_eq_true]
  refine ⟨f, hf, ?_⟩
  unfold snprintf_buf
  rw [List.take_of_length_le (by omega)]
  exact hchild

/-- Claim C20: when `fossil_it_magic_danger_analyze` is run on a directory in
which `stat` finds a direct child with one of the listed secret file names
(`".env"` among them), the full name of the child being shorter than
`PATH_MAX`, the call returns (for every depth bound above `PATH_MAX`), and the
result has `contains_secrets = 1` and a level of at least MEDIUM, whatever the
other signals are. -/
theorem danger_analyze_secret_child (fs : file_system) (fuel : Nat) (path f : CStr)
    (st : c_stat)
    (hst : fs.stat path = some st) (hdir : st.is_dir = true) (hf : f ∈ secret_files)
    (hchild : (fs.stat (join_path path f)).isSome = true)
    (hfit : (join_path path f).length < fs.PATH_MAX)
    (hfuel : fs.PATH_MAX < fuel) :
    ".env".toList ∈ secret_files ∧
      ∃ item, fossil_it_magic_danger_analyze fs fuel path = some item ∧
        item.contains_secrets = 1 ∧
        danger_level_val FOSSIL_TI_DANGER_MEDIUM ≤ danger_level_val item.level := by
  obtain ⟨item, h⟩ := danger_analyze_total fs fuel path hfuel
  have hsec : item.contains_secrets = 1 := by
    have h2 := h
    unfold fossil_it_magic_danger_analyze at h2
    rw [hst] at h2
    simp only at h2
    split at h2
    · cases h2
    · injection h2 with h2
      subst h2
      simp only [hdir, b2i]
      rw [if_pos (by decide)]
      exact contains_secret_of_file fs path f hf hchild hfit
  obtain ⟨hc, _, hl, hw, hy, he, hr, hfl, hlev⟩ := danger_analyze_item fs fuel path item h
  refine ⟨by decide, item, h, hsec, ?_⟩
  rw [hlev, danger_score_eq _ _ _ _ _ _ _ _ hc (Or.inr hsec) hl hw hy he hr hfl, hsec]
  unfold danger_level_of_score
  split
  · decide
  · split
    · decide
    · exfalso; omega

/-- The directory `"d"` of the example file system holds a file `".env"`; its
analysis with the depth bound 5000 returns an item of level HIGH. -/
theorem danger_analyze_secret_child_witness :
    (listing_fs [".env".toList]).stat "d".toList =
        some (c_stat.mk true false true false 4096 0) ∧
      ".env".toList ∈ secret_files ∧
      ((listing_fs [".env".toList]).stat (join_path "d".toList ".env".toList)).isSome = true ∧
      (join_path "d".toList ".env".toList).length < (listing_fs [".env".toList]).PATH_MAX ∧
      (listing_fs [".env".toList]).PATH_MAX < 5000 ∧
      fossil_it_magic_danger_analyze (listing_fs [".env".toList]) 5000 "d".toList =
        some (fossil_ti_danger_item_t.mk "d".toList FOSSIL_TI_DANGER_HIGH
          1 0 0 1 0 1 0 0 0 0 0) ∧
      ∃ item, fossil_it_magic_danger_analyze (listing_fs [".env".toList]) 5000 "d".toList =
          some item ∧ item.contains_secrets = 1 ∧
        danger_level_val FOSSIL_TI_DANGER_MEDIUM ≤ danger_level_val item.level :=
  ⟨by decide, by decide, by decide, by decide, by decide, by decide,
    (danger_analyze_secret_child (listing_fs [".env".toList]) 5000 "d".toList ".env".toList
      (c_stat.mk true false true false 4096 0)
      (by decide) (by decide) (by decide) (by decide) (by decide) (by decide)).2⟩

/-! ## Distances that the missing first column leaves or makes zero -/

/-- Claim C23: for every string `s`,
`fossil_it_magic_levenshtein_distance("", s)` is the length of `s`. -/
theorem levenshtein_from_empty (s : CStr) :
    fossil_it_magic_levenshtein_distance (some []) (some s) = s.length := by
  rw [lev_eq_levD]
  exact levD_zero_left [] s s.length

theorem c_min_zero_right (a : Nat) : c_min a 0 = 0 := by
  unfold c_min; split <;> omega

theorem c_min_zero_left (b : Nat) : c_min 0 b = 0 := by
  unfold c_min; split <;> omega

theorem levD_col_zero (s1 s2 : CStr) (i : Nat) : levD s1 s2 i 0 = 0 := by
  cases i with
  | zero => exact levD_zero_left s1 s2 0
  | succ i => exact levD_zero_right s1 s2 i

theorem c_at_append_right (p a : CStr) (k : Nat) : c_at (p ++ a) (p.length + k) = c_at a k := by
  unfold c_at
  simp [List.getD_eq_getElem?_getD, List.getElem?_append_right]

theorem c_tolower_at_of_map_eq (a b : CStr) (h : a.map c_tolower = b.map c_tolower) (k : Nat)
    (hk : k < b.length) : c_tolower (c_at a k) = c_tolower (c_at b k) := by
  have hlen : a.length = b.length := by
    have := congrArg List.length h
    simpa using this
  have h1 : (a.map c_tolower)[k]? = (b.map c_tolower)[k]? := by rw [h]
  simp only [List.getElem?_map] at h1
  have ha : a[k]? = some a[k] := List.getElem?_eq_getElem (by omega)
  have hb : b[k]? = some b[k] := List.getElem?_eq_getElem hk
  unfold c_at
  rw [List.getD_eq_getElem?_getD, List.getD_eq_getElem?_getD, ha, hb]
  rw [ha, hb] at h1
  simpa using h1

/-- Along the diagonal that ends in the bottom-right cell the table holds zero
when the second string equals, up to case, the end of the first. -/
theorem levD_suffix_diag (p a b : CStr) (h : a.map c_tolower = b.map c_tolower) (k : Nat)
    (hk : k ≤ b.length) : levD (p ++ a) b (p.length + k) k = 0 := by
  induction k with
  | zero => exact levD_col_zero _ _ _
  | succ k ih =>
    have hcost : lev_cost (p ++ a) b (p.length + k + 1) (k + 1) = 0 := by
      unfold lev_cost
      simp only [Nat.add_sub_cancel]
      rw [c_at_append_right, c_tolower_at_of_map_eq a b h k (by omega)]
      simp
    have e : p.length + (k + 1) = (p.length + k) + 1 := by omega
    rw [e, levD_succ, hcost, ih (by omega)]
    simp only [Nat.add_zero, c_min_zero_right, c_min_zero_left]
    split <;> rfl

theorem lev_of_suffix (a b : CStr) (h : b.map c_tolower <:+ a.map c_tolower) :
    fossil_it_magic_levenshtein_distance (some a) (some b) = 0 := by
  obtain ⟨t, ht⟩ := h
  have hlen : t.length + b.length = a.length := by
    have := congrArg List.length ht
    simpa using this
  have hsplit : a = a.take t.length ++ a.drop t.length := (List.take_append_drop _ _).symm
  have hmap : (a.drop t.length).map c_tolower = b.map c_tolower := by
    rw [List.map_drop, ← ht]
    simp
  have htl : (a.take t.length).length = t.length := by
    rw [List.length_take]; omega
  rw [lev_eq_levD]
  have := levD_suffix_diag (a.take t.length) (a.drop t.length) b hmap b.length (Nat.le_refl _)
  rw [← hsplit, htl] at this
  rw [← hlen]
  exact this

/-- Claim C27: when `b` is, ignoring case, a suffix of `a` (the empty `b`
included), `fossil_it_magic_levenshtein_distance(a, b)` is `0`, because the
first column of the table is never initialised to `i`, and
`fossil_it_magic_similarity(a, b)` is `1.0`; so `distance("rebuild", "build")`
and `distance("abc", "")` are `0`. -/
theorem levenshtein_zero_on_suffix (a b : CStr) (h : b.map c_tolower <:+ a.map c_tolower) :
    fossil_it_magic_levenshtein_distance (some a) (some b) = 0 ∧
      fossil_it_magic_similarity (some a) (some b) = f32_one ∧
      fossil_it_magic_levenshtein_distance (some "rebuild".toList) (some "build".toList) = 0 ∧
      fossil_it_magic_levenshtein_distance (some "abc".toList) (some "".toList) = 0 := by
  have hd := lev_of_suffix a b h
  refine ⟨hd, ?_, by decide, by decide⟩
  unfold fossil_it_magic_similarity
  simp only
  split
  · rfl
  · apply f32_clamp01_of_ge
    rw [hd]
    have h0 : f32_of_int ((0 : Nat) : Int) = 0 := by
      unfold f32_of_int; simp [f32_round_zero]
    have h1 : ∀ y, f32_div 0 y = 0 := by
      intro y; unfold f32_div; simp [f32_round_zero]
    have hbase : ∀ y, f32_sub f32_one (f32_div (f32_of_int ((0 : Nat) : Int)) y) = f32_one := by
      intro y
      rw [h0, h1]
      decide
    rw [hbase]
    have hJ : 0 ≤ f32_div (f32_of_int ((fossil_it_magic_jaccard_index (some a) (some b) : Nat) : Int))
        (f32_lit 200 1) :=
      f32_div_nonneg _ _ (f32_of_int_nonneg _ (Int.ofNat_nonneg _)) (f32_lit_nonneg _ _)
    have hs1 := f32_add_ge_one _ _ (Int.le_refl f32_one) hJ
    apply f32_add_if_ge_one _ _ _ _ (f32_lit_nonneg _ _)
    apply f32_add_if_ge_one _ _ _ _ (f32_lit_nonneg _ _)
    exact hs1

/-- The string `"build"` is a suffix of `"ReBuild"` when case is ignored. -/
theorem levenshtein_zero_on_suffix_witness :
    "build".toList.map c_tolower <:+ "ReBuild".toList.map c_tolower ∧
      fossil_it_magic_levenshtein_distance (some "ReBuild".toList) (some "build".toList) = 0 ∧
      fossil_it_magic_similarity (some "ReBuild".toList) (some "build".toList) = f32_one :=
  ⟨by decide,
    (levenshtein_zero_on_suffix "ReBuild".toList "build".toList (by decide)).1,
    (levenshtein_zero_on_suffix "ReBuild".toList "build".toList (by decide)).2.1⟩

/-! ## The danger report -/

theorem report_loop_eq (fs : file_system) (fuel : Nat) (paths : List CStr) :
    ∀ (i : Nat) (st st2 : report_state),
      report_loop fs fuel paths i st = some st2 →
      ∃ items : List fossil_ti_danger_item_t,
        (paths.take (8 - i)).map (fossil_it_magic_danger_analyze fs fuel) = items.map some ∧
          st2 = items.foldl report_step st := by
  induction paths with
  | nil =>
    intro i st st2 h
    simp only [report_loop, Option.some.injEq] at h
    exact ⟨[], by simp, h.symm⟩
  | cons p ps ih =>
    intro i st st2 h
    unfold report_loop at h
    by_cases hi : i < 8
    · rw [if_neg (not_not.mpr hi)] at h
      cases ha : fossil_it_magic_danger_analyze fs fuel p with
      | none => rw [ha] at h; cases h
      | some item =>
        rw [ha] at h
        simp only at h
        obtain ⟨items, h1, h2⟩ := ih (i + 1) _ st2 h
        refine ⟨item :: items, ?_, ?_⟩
        · have e : 8 - i = (8 - (i + 1)) + 1 := by omega
          rw [e, List.take_succ_cons, List.map_cons, ha, h1]
          rfl
        · rw [h2]; rfl
    · rw [if_pos hi] at h
      simp only [Option.some.injEq] at h
      have e : 8 - i = 0 := by omega
      exact ⟨[], by rw [e]; simp, h.symm⟩

theorem report_fold_items (items : List fossil_ti_danger_item_t) :
    ∀ st : report_state,
      (items.foldl report_step st).items = st.items ++ items ∧
        (items.foldl report_step st).item_count = st.item_count + items.length ∧
        (items.foldl report_step st).total_score = st.total_score + total_score_ref items ∧
        danger_level_val (items.foldl report_step st).maxLevel =
          max (danger_level_val st.maxLevel) (overall_level_ref items) := by
  induction items with
  | nil =>
    intro st
    refine ⟨by simp, by simp, by simp [total_score_ref], ?_⟩
    simp only [List.foldl_nil, overall_level_ref, List.map_nil, List.foldr_nil]
    have : 0 ≤ danger_level_val st.maxLevel := by cases st.maxLevel <;> decide
    omega
  | cons it its ih =>
    intro st
    obtain ⟨h1, h2, h3, h4⟩ := ih (report_step st it)
    rw [List.foldl_cons]
    refine ⟨?_, ?_, ?_, ?_⟩
    · rw [h1]; simp [report_step]
    · rw [h2]; simp [report_step]; omega
    · rw [h3]
      have hw : level_weight it.level = level_weight_ref it.level := by
        cases it.level <;> rfl
      simp only [report_step, total_score_ref, List.map_cons, List.sum_cons, hw]
      omega
    · rw [h4]
      simp only [report_step, overall_level_ref, List.map_cons, List.foldr_cons]
      split <;> omega

theorem overall_level_ref_nonneg (items : List fossil_ti_danger_item_t) :
    0 ≤ overall_level_ref items := by
  unfold overall_level_ref
  induction items with
  | nil => simp
  | cons it its ih => simp only [List.map_cons, List.foldr_cons]; omega

/-- What `fossil_it_magic_danger_report` returns: the analyses of the first
eight paths and the aggregates of their levels. -/
theorem danger_report_eq (fs : file_system) (fuel : Nat) (paths : List CStr)
    (r : fossil_ti_danger_report_t)
    (h : fossil_it_magic_danger_report fs fuel paths = some r) :
    (paths.take 8).map (fossil_it_magic_danger_analyze fs fuel) = r.items.map some ∧
      r.item_count = (r.items.length : Int) ∧
      danger_level_val r.overall_level = overall_level_ref r.items ∧
      r.block_recommended = b2i (decide (danger_level_val r.overall_level ≥ 4 ∨
        total_score_ref r.items ≥ 16)) ∧
      r.warning_required = b2i (decide (danger_level_val r.overall_level ≥ 2 ∨
        total_score_ref r.items ≥ 10)) := by
  unfold fossil_it_magic_danger_report at h
  split at h
  · cases h
  · rename_i st hst
    injection h with h
    subst h
    obtain ⟨items, h1, h2⟩ := report_loop_eq fs fuel paths 0 _ st hst
    obtain ⟨a1, a2, a3, a4⟩ := report_fold_items items (report_state.mk [] 0 FOSSIL_TI_DANGER_NONE 0)
    rw [← h2] at a1 a2 a3 a4
    simp only [List.nil_append, Int.zero_add] at a1 a2 a3
    have hnn := overall_level_ref_nonneg items
    have a4' : danger_level_val st.maxLevel = overall_level_ref items := by
      rw [a4]
      show max 0 (overall_level_ref items) = overall_level_ref items
      omega
    simp only
    rw [a1, a2, a3]
    exact ⟨h1, rfl, a4', rfl, rfl⟩

theorem danger_report_returns (fs : file_system) (fuel : Nat) (paths : List CStr)
    (h : ∀ p, p ∈ paths.take 8 → (fossil_it_magic_danger_analyze fs fuel p).isSome = true) :
    (fossil_it_magic_danger_report fs fuel paths).isSome = true := by
  have key : ∀ (paths : List CStr) (i : Nat) (st : report_state),
      (∀ p, p ∈ paths.take (8 - i) →
        (fossil_it_magic_danger_analyze fs fuel p).isSome = true) →
      (report_loop fs fuel paths i st).isSome = true := by
    intro paths
    induction paths with
    | nil => intro i st _; rfl
    | cons p ps ih =>
      intro i st hp
      unfold report_loop
      by_cases hi : i < 8
      · rw [if_neg (not_not.mpr hi)]
        have e : 8 - i = (8 - (i + 1)) + 1 := by omega
        rw [e, List.take_succ_cons] at hp
        obtain ⟨item, hitem⟩ := Option.isSome_iff_exists.mp (hp p (List.mem_cons_self _ _))
        rw [hitem]
        exact ih (i + 1) _ (fun q hq => hp q (List.mem_cons_of_mem _ hq))
      · rw [if_pos hi]; rfl
  obtain ⟨st, hst⟩ := Option.isSome_iff_exists.mp (key paths 0
    (report_state.mk [] 0 FOSSIL_TI_DANGER_NONE 0) h)
  unfold fossil_it_magic_danger_report
  rw [hst]
  rfl

theorem report_loop_take (fs : file_system) (fuel : Nat) (paths : List CStr) :
    ∀ (i : Nat) (st : report_state),
      report_loop fs fuel (paths.take (8 - i)) i st = report_loop fs fuel paths i st := by
  induction paths with
  | nil => intro i st; simp
  | cons p ps ih =>
    intro i st
    by_cases hi : i < 8
    · have e : 8 - i = (8 - (i + 1)) + 1 := by omega
      rw [e, List.take_succ_cons]
      simp only [report_loop, hi, not_true_eq_false, if_false]
      cases fossil_it_magic_danger_analyze fs fuel p with
      | none => rfl
      | some item => exact ih (i + 1) _
    · have e : 8 - i = 0 := by omega
      rw [e, List.take_zero]
      unfold report_loop
      rw [if_pos hi]

theorem total_le_length_of_low (items : List fossil_ti_danger_item_t)
    (h : overall_level_ref items ≤ 1) : total_score_ref items ≤ items.length := by
  induction items with
  | nil => simp [total_score_ref]
  | cons it its ih =>
    unfold overall_level_ref at h
    simp only [List.map_cons, List.foldr_cons] at h
    have h1 : danger_level_val it.level ≤ 1 := by omega
    have h2 : overall_level_ref its ≤ 1 := by unfold overall_level_ref; omega
    have hw : level_weight_ref it.level ≤ 1 := by
      revert h1
      cases it.level <;> decide
    have := ih h2
    unfold total_score_ref at this ⊢
    simp only [List.map_cons, List.sum_cons, List.length_cons, Nat.cast_add, Nat.cast_one]
    omega

theorem danger_report_take (fs : file_system) (fuel : Nat) (paths : List CStr) :
    fossil_it_magic_danger_report fs fuel (paths.take 8) =
      fossil_it_magic_danger_report fs fuel paths := by
  unfold fossil_it_magic_danger_report
  have := report_loop_take fs fuel paths 0 (report_state.mk [] 0 FOSSIL_TI_DANGER_NONE 0)
  simp only [Nat.sub_zero] at this
  rw [this]

/-- The report is produced for every depth bound above `PATH_MAX`. -/
theorem danger_report_total (fs : file_system) (fuel : Nat) (paths : List CStr)
    (hfuel : fs.PATH_MAX < fuel) :
    ∃ r, fossil_it_magic_danger_report fs fuel paths = some r :=
  Option.isSome_iff_exists.mp
    (danger_report_returns fs fuel paths
      (fun p _ => Option.isSome_iff_exists.mpr (danger_analyze_total fs fuel p hfuel)))

/-- Claim C21: for a path list of length `n`, `fossil_it_magic_danger_report`
returns (for every depth bound above `PATH_MAX`) a report with
`item_count = min(n, 8)` in which `items[i]` is the analysis of `paths[i]` for
each `i < item_count`; the paths from the ninth on are ignored: every path list
with the same first eight paths gives the same report, and nine paths give
`item_count = 8`. -/
theorem danger_report_first_eight (fs : file_system) (fuel : Nat) (paths : List CStr)
    (hfuel : fs.PATH_MAX < fuel) :
    ∃ r, fossil_it_magic_danger_report fs fuel paths = some r ∧
      r.item_count = ((min paths.length 8 : Nat) : Int) ∧
      r.items.length = min paths.length 8 ∧
      (∀ i : Nat, i < min paths.length 8 →
        ∃ p item, paths[i]? = some p ∧ fossil_it_magic_danger_analyze fs fuel p = some item ∧
          r.items[i]? = some item) ∧
      (∀ paths2 : List CStr, paths2.take 8 = paths.take 8 →
        fossil_it_magic_danger_report fs fuel paths2 = some r) ∧
      (paths.length = 9 → r.item_count = 8) := by
  obtain ⟨r, h⟩ := danger_report_total fs fuel paths hfuel
  obtain ⟨h1, h2, _⟩ := danger_report_eq fs fuel paths r h
  have hlen : r.items.length = min paths.length 8 := by
    have := congrArg List.length h1
    simp only [List.length_map, List.length_take] at this
    omega
  refine ⟨r, h, by rw [h2, hlen], hlen, ?_, ?_, ?_⟩
  · intro i hi
    have hip : i < paths.length := by omega
    have hi8 : i < 8 := by omega
    have hir : i < r.items.length := by omega
    have e := congrArg (fun l => l[i]?) h1
    simp only [List.getElem?_map, List.getElem?_take_of_lt hi8, List.getElem?_eq_getElem hip,
      List.getElem?_eq_getElem hir, Option.map_some'] at e
    exact ⟨paths[i], r.items[i], List.getElem?_eq_getElem hip, Option.some.inj e,
      List.getElem?_eq_getElem hir⟩
  · intro paths2 h2
    rw [← danger_report_take fs fuel paths2, h2, danger_report_take fs fuel paths]
    exact h
  · intro h9
    rw [h2, hlen, h9]
    rfl

/-- Nine script files are reported with the depth bound 5000: the report holds
eight items, and the list of the first eight paths alone gives the same
report. -/
theorem danger_report_first_eight_witness :
    (listing_fs nine_scripts).PATH_MAX < 5000 ∧ nine_script_paths.length = 9 ∧
      ∃ r, fossil_it_magic_danger_report (listing_fs nine_scripts) 5000 nine_script_paths =
          some r ∧
        r.item_count = 8 ∧ r.items.length = 8 ∧
        fossil_it_magic_danger_report (listing_fs nine_scripts) 5000
          (nine_script_paths.take 8) = some r := by
  refine ⟨by decide, by decide, ?_⟩
  obtain ⟨r, h1, _, h3, _, h5, h6⟩ :=
    danger_report_first_eight (listing_fs nine_scripts) 5000 nine_script_paths (by decide)
  exact ⟨r, h1, h6 (by decide), h3, h5 (nine_script_paths.take 8) (by decide)⟩

/-- Claim C22: the aggregate fields of `fossil_it_magic_danger_report` equal
their reference definition: `overall_level` is the maximum of the levels of the
analysed items (NONE when there are none), and with `total_score` the sum of the
weights `CRITICAL=8, HIGH=5, MEDIUM=3, LOW=1, NONE=0` of these levels,
`warning_required` is set exactly when `overall_level >= MEDIUM` or
`total_score >= 10`, and `block_recommended` exactly when
`overall_level >= CRITICAL` or `total_score >= 16`. -/
theorem danger_report_aggregates (fs : file_system) (fuel : Nat) (paths : List CStr)
    (r : fossil_ti_danger_report_t)
    (h : fossil_it_magic_danger_report fs fuel paths = some r) :
    danger_level_val r.overall_level = overall_level_ref r.items ∧
      (r.items = [] → r.overall_level = FOSSIL_TI_DANGER_NONE) ∧
      (r.warning_required = 1 ↔
        (danger_level_val r.overall_level ≥ danger_level_val FOSSIL_TI_DANGER_MEDIUM ∨
          total_score_ref r.items ≥ 10)) ∧
      (r.block_recommended = 1 ↔
        (danger_level_val r.overall_level ≥ danger_level_val FOSSIL_TI_DANGER_CRITICAL ∨
          total_score_ref r.items ≥ 16)) ∧
      (r.warning_required = 0 ∨ r.warning_required = 1) ∧
      (r.block_recommended = 0 ∨ r.block_recommended = 1) := by
  obtain ⟨_, _, h3, h4, h5⟩ := danger_report_eq fs fuel paths r h
  refine ⟨h3, ?_, ?_, ?_, by rw [h5]; exact b2i_cases _, by rw [h4]; exact b2i_cases _⟩
  · intro he
    rw [he] at h3
    revert h3
    cases r.overall_level <;> decide
  · rw [h5]
    show _ ↔ (danger_level_val r.overall_level ≥ 2 ∨ total_score_ref r.items ≥ 10)
    by_cases hc : danger_level_val r.overall_level ≥ 2 ∨ total_score_ref r.items ≥ 10
    · simp [b2i, hc]
    · simp [b2i, hc]
  · rw [h4]
    show _ ↔ (danger_level_val r.overall_level ≥ 4 ∨ total_score_ref r.items ≥ 16)
    by_cases hc : danger_level_val r.overall_level ≥ 4 ∨ total_score_ref r.items ≥ 16
    · simp [b2i, hc]
    · simp [b2i, hc]

/-- The report on the single path `"d/run.sh"` satisfies the statement of
`danger_report_aggregates`. -/
theorem danger_report_aggregates_witness :
    fossil_it_magic_danger_report (listing_fs ["run.sh".toList]) 0 ["d/run.sh".toList] =
        some run_sh_report ∧
      danger_level_val run_sh_report.overall_level = overall_level_ref run_sh_report.items :=
  ⟨by decide,
    (danger_report_aggregates (listing_fs ["run.sh".toList]) 0 ["d/run.sh".toList]
      run_sh_report (by decide)).1⟩

/-- Claim C29: in every report produced by `fossil_it_magic_danger_report`,
`warning_required` holds exactly when `overall_level >= MEDIUM`: at most eight
items are analysed, and items that are all LOW or NONE sum to at most 8, so
`total_score >= 10` never holds on its own.  By contrast `block_recommended`
holds with an overall level below CRITICAL for four items of level HIGH. -/
theorem danger_report_warning_iff_medium (fs : file_system) (fuel : Nat) (paths : List CStr)
    (r : fossil_ti_danger_report_t)
    (h : fossil_it_magic_danger_report fs fuel paths = some r) :
    (r.warning_required = 1 ↔
        danger_level_val r.overall_level ≥ danger_level_val FOSSIL_TI_DANGER_MEDIUM) ∧
      (fossil_it_magic_danger_report (listing_fs four_scripts) 0 four_script_paths).map
          (fun r => (r.items.map (fun it => it.level), r.overall_level, r.block_recommended)) =
        some ([FOSSIL_TI_DANGER_HIGH, FOSSIL_TI_DANGER_HIGH, FOSSIL_TI_DANGER_HIGH,
          FOSSIL_TI_DANGER_HIGH], FOSSIL_TI_DANGER_HIGH, 1) := by
  refine ⟨?_, by decide⟩
  obtain ⟨h1, _, h3, _, h5⟩ := danger_report_eq fs fuel paths r h
  have hlen : r.items.length ≤ 8 := by
    have := congrArg List.length h1
    simp only [List.length_map, List.length_take] at this
    omega
  rw [h5]
  show _ ↔ danger_level_val r.overall_level ≥ 2
  by_cases hc : danger_level_val r.overall_level ≥ 2
  · simp [b2i, hc]
  · have hlow : overall_level_ref r.items ≤ 1 := by omega
    have := total_le_length_of_low r.items hlow
    have hn : ¬ (danger_level_val r.overall_level ≥ 2 ∨ total_score_ref r.items ≥ 10) := by
      omega
    rw [decide_eq_false hn]
    simp [b2i, hc]

/-- The report on the single path `"d/run.sh"` satisfies the statement of
`danger_report_warning_iff_medium`. -/
theorem danger_report_warning_iff_medium_witness :
    fossil_it_magic_danger_report (listing_fs ["run.sh".toList]) 0 ["d/run.sh".toList] =
        some run_sh_report ∧
      (run_sh_report.warning_required = 1 ↔
        danger_level_val run_sh_report.overall_level ≥
          danger_level_val FOSSIL_TI_DANGER_MEDIUM) :=
  ⟨by decide,
    (danger_report_warning_iff_medium (listing_fs ["run.sh".toList]) 0 ["d/run.sh".toList]
      run_sh_report (by decide)).1⟩

/-! ## The candidate loop of the token recoverer -/

theorem recover_loop_append (token : CStr) (xs ys : List CStr) :
    ∀ (i : Nat) (st : recover_state),
      recover_loop token (xs ++ ys) i st =
        recover_loop token ys (i + xs.length) (recover_loop token xs i st) := by
  induction xs with
  | nil => intro i st; rfl
  | cons x xs ih =>
    intro i st
    rw [List.cons_append, recover_loop, recover_loop, ih, List.length_cons]
    congr 1
    omega

theorem recover_loop_keeps_found (token : CStr) (cs : List CStr) :
    ∀ (i : Nat) (st : recover_state), st.best_idx ≥ 0 ∧ st.best_score > 0 →
      (recover_loop token cs i st).best_idx ≥ 0 ∧ (recover_loop token cs i st).best_score > 0 := by
  induction cs with
  | nil => intro i st h; exact h
  | cons c cs ih =>
    intro i st h
    unfold recover_loop
    apply ih
    unfold recover_step
    simp only
    split
    · exact ⟨by simp only; omega, by simp only; omega⟩
    · split
      · exact h
      · exact h

theorem recover_loop_nothing (token : CStr) (cs : List CStr) :
    ∀ i : Nat, (∀ c, c ∈ cs → ¬ adjusted_score token c > 0) →
      recover_loop token cs i (recover_state.mk 0 (-1) 0 (-1)) = (recover_state.mk 0 (-1) 0 (-1)) := by
  induction cs with
  | nil => intro i _; rfl
  | cons c cs ih =>
    intro i h
    unfold recover_loop
    have hc := h c (List.mem_cons_self _ _)
    have e : recover_step token (recover_state.mk 0 (-1) 0 (-1)) i c =
        recover_state.mk 0 (-1) 0 (-1) := by
      unfold recover_step
      rw [if_neg hc, if_neg hc]
    rw [e]
    exact ih (i + 1) (fun c' hc' => h c' (List.mem_cons_of_mem _ hc'))

theorem recover_loop_found (token : CStr) (cs : List CStr) :
    ∀ i : Nat, (∃ c, c ∈ cs ∧ adjusted_score token c > 0) →
      (recover_loop token cs i (recover_state.mk 0 (-1) 0 (-1))).best_idx ≥ 0 ∧
        (recover_loop token cs i (recover_state.mk 0 (-1) 0 (-1))).best_score > 0 := by
  induction cs with
  | nil => intro i h; obtain ⟨c, hc, _⟩ := h; cases hc
  | cons c cs ih =>
    intro i h
    unfold recover_loop
    by_cases hc : adjusted_score token c > 0
    · apply recover_loop_keeps_found
      unfold recover_step
      simp only
      rw [if_pos hc]
      exact ⟨by simp only; omega, hc⟩
    · have e : recover_step token (recover_state.mk 0 (-1) 0 (-1)) i c =
          recover_state.mk 0 (-1) 0 (-1) := by
        unfold recover_step
        simp only
        rw [if_neg hc, if_neg hc]
      rw [e]
      apply ih
      obtain ⟨c', hc', hs⟩ := h
      rcases List.mem_cons.mp hc' with rfl | hmem
      · exact absurd hs hc
      · exact ⟨c', hmem, hs⟩

/-- Claim C26: `fossil_it_magic_autorecovery_token` returns the empty result
(`first_best_token`, `recovered_token` and `second_best_token` empty, the three
confidences `0`, `applied = 0`) exactly when no candidate has an adjusted score
strictly greater than `0`; this covers the empty candidate list and also a list
whose candidates all score `0`, such as the token `"abc"` with the candidate
`"xyz"`. -/
theorem autorecovery_empty_iff (token : CStr) (candidates : List CStr) :
    (fossil_it_magic_autorecovery_token token candidates =
        fossil_ti_autorecovery_t.mk (copy256 token) [] 0 0 [] 0 [] 0 ↔
      ∀ c, c ∈ candidates → ¬ adjusted_score token c > 0) ∧
      fossil_it_magic_autorecovery_token token [] =
        fossil_ti_autorecovery_t.mk (copy256 token) [] 0 0 [] 0 [] 0 ∧
      fossil_it_magic_autorecovery_token "abc".toList ["xyz".toList] =
        fossil_ti_autorecovery_t.mk (copy256 "abc".toList) [] 0 0 [] 0 [] 0 := by
  refine ⟨⟨?_, ?_⟩, rfl, by decide⟩
  · intro h
    by_contra hc
    have hex : ∃ c, c ∈ candidates ∧ adjusted_score token c > 0 := by
      by_contra hn
      apply hc
      intro c hmem hs
      exact hn ⟨c, hmem, hs⟩
    have hf := recover_loop_found token candidates 0 hex
    have hconf : (fossil_it_magic_autorecovery_token token candidates).first_best_confidence =
        (recover_loop token candidates 0 (recover_state.mk 0 (-1) 0 (-1))).best_score := by
      unfold fossil_it_magic_autorecovery_token
      simp only
      rw [if_pos hf.1]
    rw [h] at hconf
    simp only at hconf
    omega
  · intro h
    have e := recover_loop_nothing token candidates 0 h
    unfold fossil_it_magic_autorecovery_token
    simp only
    rw [e]
    rw [if_neg (by decide)]

theorem recover_loop_below (token : CStr) (s : Int) (cs : List CStr) :
    ∀ (i : Nat) (st : recover_state), (∀ c, c ∈ cs → adjusted_score token c < s) →
      st.best_score < s → st.second_best_score < s →
      (recover_loop token cs i st).best_score < s ∧
        (recover_loop token cs i st).second_best_score < s := by
  induction cs with
  | nil => intro i st _ h1 h2; exact ⟨h1, h2⟩
  | cons c cs ih =>
    intro i st h h1 h2
    unfold recover_loop
    have hc := h c (List.mem_cons_self _ _)
    apply ih (i + 1) _ (fun c' hc' => h c' (List.mem_cons_of_mem _ hc'))
    · unfold recover_step
      simp only
      split
      · exact hc
      · split
        · exact h1
        · exact h1
    · unfold recover_step
      simp only
      split
      · exact h1
      · split
        · exact hc
        · exact h2

theorem recover_loop_after_first (token : CStr) (s : Int) (k : Int) (cs : List CStr) :
    ∀ (i : Nat) (st : recover_state), (∀ c, c ∈ cs → adjusted_score token c < s) →
      st.best_score = s → st.best_idx = k → st.second_best_score < s →
      (recover_loop token cs i st).best_score = s ∧ (recover_loop token cs i st).best_idx = k ∧
        (recover_loop token cs i st).second_best_score < s := by
  induction cs with
  | nil => intro i st _ h1 h2 h3; exact ⟨h1, h2, h3⟩
  | cons c cs ih =>
    intro i st h h1 h2 h3
    unfold recover_loop
    have hc := h c (List.mem_cons_self _ _)
    have hnot : ¬ adjusted_score token c > st.best_score := by omega
    have e : recover_step token st i c =
        if adjusted_score token c > st.second_best_score then
          recover_state.mk st.best_score st.best_idx (adjusted_score token c) i
        else st := by
      unfold recover_step
      simp only
      rw [if_neg hnot]
    rw [e]
    apply ih (i + 1) _ (fun c' hc' => h c' (List.mem_cons_of_mem _ hc'))
    · split
      · exact h1
      · exact h1
    · split
      · exact h2
      · exact h2
    · split
      · exact hc
      · exact h3

theorem recover_loop_after_second (token : CStr) (s : Int) (cs : List CStr) :
    ∀ (i : Nat) (st : recover_state), (∀ c, c ∈ cs → adjusted_score token c ≤ s) →
      st.best_score = s → st.second_best_score = s → recover_loop token cs i st = st := by
  induction cs with
  | nil => intro i st _ _ _; rfl
  | cons c cs ih =>
    intro i st h h1 h2
    unfold recover_loop
    have hc := h c (List.mem_cons_self _ _)
    have e : recover_step token st i c = st := by
      unfold recover_step
      simp only
      rw [if_neg (by omega), if_neg (by omega)]
    rw [e]
    exact ih (i + 1) st (fun c' hc' => h c' (List.mem_cons_of_mem _ hc')) h1 h2

/-- The state after the candidate loop when the highest score `s > 0` is reached
first by `c1` and next by `c2`. -/
theorem recover_loop_tie (token : CStr) (A B C : List CStr) (c1 c2 : CStr) (s : Int)
    (hs : 0 < s) (h1 : adjusted_score token c1 = s) (h2 : adjusted_score token c2 = s)
    (hA : ∀ a, a ∈ A → adjusted_score token a < s)
    (hB : ∀ b, b ∈ B → adjusted_score token b < s)
    (hC : ∀ c, c ∈ C → adjusted_score token c ≤ s) :
    recover_loop token (A ++ c1 :: (B ++ c2 :: C)) 0 (recover_state.mk 0 (-1) 0 (-1)) =
      recover_state.mk s (A.length : Int) s ((A.length + 1 + B.length : Nat) : Int) := by
  rw [recover_loop_append]
  obtain ⟨a1, a2⟩ := recover_loop_below token s A 0 (recover_state.mk 0 (-1) 0 (-1)) hA hs hs
  generalize recover_loop token A 0 (recover_state.mk 0 (-1) 0 (-1)) = stA at a1 a2
  rw [recover_loop]
  have e1 : recover_step token stA (0 + A.length) c1 =
      recover_state.mk s ((0 + A.length : Nat) : Int) stA.best_score stA.best_idx := by
    unfold recover_step
    simp only
    rw [if_pos (by omega), h1]
  rw [e1, recover_loop_append]
  obtain ⟨b1, b2, b3⟩ := recover_loop_after_first token s ((0 + A.length : Nat) : Int) B
    (0 + A.length + 1)
    (recover_state.mk s ((0 + A.length : Nat) : Int) stA.best_score stA.best_idx) hB rfl rfl a1
  generalize recover_loop token B (0 + A.length + 1)
    (recover_state.mk s ((0 + A.length : Nat) : Int) stA.best_score stA.best_idx) = stB at b1 b2 b3
  rw [recover_loop]
  have e2 : recover_step token stB (0 + A.length + 1 + B.length) c2 =
      recover_state.mk s ((0 + A.length : Nat) : Int) s
        ((0 + A.length + 1 + B.length : Nat) : Int) := by
    unfold recover_step
    simp only
    rw [if_neg (by omega), if_pos (by omega), b1, b2, h2]
  rw [e2, recover_loop_after_second token s C _ _ hC rfl rfl]
  simp only [Nat.zero_add]

/-- Claim C25: when the highest adjusted score `s > 0` is reached by two or
more candidates, `first_best_token` is the first candidate with the score `s`
and `second_best_token` the second candidate with the score `s` (each copied
into its 256-byte field), and both confidences are `s`.  The candidate list is
`A ++ c1 :: B ++ c2 :: C` with all scores in `A` and `B` below `s`, the scores
of `c1` and `c2` equal to `s`, and no score in `C` above `s`. -/
theorem autorecovery_tie_order (token : CStr) (A B C : List CStr) (c1 c2 : CStr) (s : Int)
    (hs : 0 < s) (h1 : adjusted_score token c1 = s) (h2 : adjusted_score token c2 = s)
    (hA : ∀ a, a ∈ A → adjusted_score token a < s)
    (hB : ∀ b, b ∈ B → adjusted_score token b < s)
    (hC : ∀ c, c ∈ C → adjusted_score token c ≤ s) :
    (fossil_it_magic_autorecovery_token token (A ++ c1 :: (B ++ c2 :: C))).first_best_token =
        copy256 c1 ∧
      (fossil_it_magic_autorecovery_token token (A ++ c1 :: (B ++ c2 :: C))).second_best_token =
        copy256 c2 ∧
      (fossil_it_magic_autorecovery_token token
        (A ++ c1 :: (B ++ c2 :: C))).first_best_confidence = s ∧
      (fossil_it_magic_autorecovery_token token
        (A ++ c1 :: (B ++ c2 :: C))).second_best_confidence = s ∧
      (fossil_it_magic_autorecovery_token token (A ++ c1 :: (B ++ c2 :: C))).recovered_token =
        copy256 c1 := by
  have hst := recover_loop_tie token A B C c1 c2 s hs h1 h2 hA hB hC
  have g1 : (A ++ c1 :: (B ++ c2 :: C)).getD A.length [] = c1 := by
    rw [List.getD_eq_getElem?_getD, List.getElem?_append_right (Nat.le_refl _), Nat.sub_self]
    simp
  have g2 : (A ++ c1 :: (B ++ c2 :: C)).getD (A.length + 1 + B.length) [] = c2 := by
    have e : A.length + 1 + B.length - A.length = B.length + 1 := by omega
    rw [List.getD_eq_getElem?_getD, List.getElem?_append_right (by omega), e,
      List.getElem?_cons_succ, List.getElem?_append_right (Nat.le_refl _), Nat.sub_self]
    simp
  unfold fossil_it_magic_autorecovery_token
  simp only
  rw [hst]
  simp only [Int.toNat_ofNat, g1, g2]
  rw [if_pos (Int.ofNat_nonneg _), if_pos (Int.ofNat_nonneg _)]
  exact ⟨rfl, rfl, rfl, rfl, rfl⟩

/-- For the token `"ab"` the candidates `"abx"` and `"aby"` share the highest
score. -/
theorem autorecovery_tie_order_witness :
    0 < adjusted_score "ab".toList "abx".toList ∧
      adjusted_score "ab".toList "aby".toList = adjusted_score "ab".toList "abx".toList ∧
      (fossil_it_magic_autorecovery_token "ab".toList
        ([] ++ "abx".toList :: ([] ++ "aby".toList :: []))).first_best_token =
        copy256 "abx".toList ∧
      (fossil_it_magic_autorecovery_token "ab".toList
        ([] ++ "abx".toList :: ([] ++ "aby".toList :: []))).second_best_token =
        copy256 "aby".toList :=
  ⟨by decide, by decide,
    (autorecovery_tie_order "ab".toList [] [] [] "abx".toList "aby".toList
      (adjusted_score "ab".toList "abx".toList) (by decide) rfl (by decide)
      (fun a ha => by cases ha) (fun b hb => by cases hb) (fun c hc => by cases hc)).1,
    (autorecovery_tie_order "ab".toList [] [] [] "abx".toList "aby".toList
      (adjusted_score "ab".toList "abx".toList) (by decide) rfl (by decide)
      (fun a ha => by cases ha) (fun b hb => by cases hb) (fun c hc => by cases hc)).2.1⟩

/-! ## The greedy matching and its reference -/

theorem unused_tokens_set_before (used : Nat → Bool) (ts : List CStr) :
    ∀ (j0 j : Nat), j < j0 →
      unused_tokens (fun x => if x = j then true else used x) ts j0 = unused_tokens used ts j0 := by
  induction ts with
  | nil => intro j0 j _; rfl
  | cons t ts ih =>
    intro j0 j hj
    unfold unused_tokens
    have hne : ¬ j0 = j := by omega
    simp only [hne, if_false]
    rw [ih (j0 + 1) j (by omega)]

theorem unused_tokens_none (ts : List CStr) :
    ∀ j0 : Nat, unused_tokens (fun _ => false) ts j0 = ts := by
  induction ts with
  | nil => intro j0; rfl
  | cons t ts ih =>
    intro j0
    unfold unused_tokens
    simp only [Bool.false_eq_true, if_false]
    rw [ih]

theorem jac_scan_spec (tok : CStr) (tokens2 : List CStr) (used : Nat → Bool)
    (suffix : List CStr) :
    ∀ j0 : Nat, tokens2.drop j0 = suffix →
      (jac_scan tok tokens2 used suffix.length j0 = none ∧
          tok ∉ unused_tokens used suffix j0) ∨
        ∃ j, jac_scan tok tokens2 used suffix.length j0 = some j ∧ j0 ≤ j ∧
          tok ∈ unused_tokens used suffix j0 ∧
          unused_tokens (fun x => if x = j then true else used x) suffix j0 =
            remove_first tok (unused_tokens used suffix j0) := by
  induction suffix with
  | nil => intro j0 _; left; exact ⟨rfl, by simp [unused_tokens]⟩
  | cons t ts ih =>
    intro j0 hdrop
    have hlt : j0 < tokens2.length := by
      by_contra hc
      rw [List.drop_eq_nil_of_le (by omega)] at hdrop
      cases hdrop
    have hget : tokens2.getD j0 [] = t := by
      have h1 : (tokens2.drop j0)[0]? = some t := by rw [hdrop]; simp
      rw [List.getElem?_drop] at h1
      rw [List.getD_eq_getElem?_getD]
      simp only [Nat.add_zero] at h1
      rw [h1]; rfl
    have hdrop' : tokens2.drop (j0 + 1) = ts := by
      have := congrArg (List.drop 1) hdrop
      simpa [List.drop_drop, Nat.add_comm] using this
    simp only [List.length_cons]
    unfold jac_scan
    rw [hget]
    by_cases hfound : (!used j0 && decide (fossil_io_cstring_compare tok t = 0)) = true
    · rw [if_pos hfound]
      right
      simp only [Bool.and_eq_true, Bool.not_eq_true', decide_eq_true_eq] at hfound
      obtain ⟨hu, hcmp⟩ := hfound
      have heq : tok = t := by
        unfold fossil_io_cstring_compare at hcmp
        by_contra hne
        rw [if_neg hne] at hcmp
        cases hcmp
      subst heq
      refine ⟨j0, rfl, Nat.le_refl _, ?_, ?_⟩
      · unfold unused_tokens
        simp [hu]
      · unfold unused_tokens
        simp only [hu, if_true, Bool.false_eq_true, if_false]
        rw [unused_tokens_set_before used ts (j0 + 1) j0 (by omega)]
        simp [remove_first]
    · rw [if_neg hfound]
      have hcase : used j0 = true ∨ tok ≠ t := by
        by_cases hu : used j0 = true
        · exact Or.inl hu
        · right
          intro heq
          apply hfound
          simp only [Bool.and_eq_true, Bool.not_eq_true', decide_eq_true_eq]
          refine ⟨by simpa using hu, ?_⟩
          unfold fossil_io_cstring_compare
          rw [if_pos heq]
      rcases ih (j0 + 1) hdrop' with ⟨hnone, hnot⟩ | ⟨j, hsome, hj, hmem, herase⟩
      · left
        refine ⟨hnone, ?_⟩
        unfold unused_tokens
        split
        · exact hnot
        · rename_i hu
          rcases hcase with h1 | h1
          · exact absurd h1 hu
          · simp only [List.mem_cons, not_or]
            exact ⟨h1, hnot⟩
      · right
        refine ⟨j, hsome, by omega, ?_, ?_⟩
        · unfold unused_tokens
          split
          · exact hmem
          · exact List.mem_cons_of_mem _ hmem
        · have hne : ¬ j0 = j := by omega
          unfold unused_tokens
          simp only [hne, if_false]
          split
          · exact herase
          · rename_i hu
            rcases hcase with h1 | h1
            · exact absurd h1 hu
            · rw [herase]
              have hne2 : ¬ t = tok := fun h => h1 h.symm
              simp only [remove_first, hne2, if_false]

theorem greedy_matches_cons (t : CStr) (ts bs : List CStr) :
    greedy_matches (t :: ts) bs =
      if t ∈ bs then 1 + greedy_matches ts (remove_first t bs) else greedy_matches ts bs := by
  rw [greedy_matches]

theorem jac_fold_greedy (tokens2 : List CStr) (tokens1 : List CStr) :
    ∀ st : Nat × (Nat → Bool),
      (tokens1.foldl (jac_step tokens2) st).1 =
        st.1 + greedy_matches tokens1 (unused_tokens st.2 tokens2 0) := by
  induction tokens1 with
  | nil => intro st; simp [greedy_matches]
  | cons t ts ih =>
    intro st
    rw [List.foldl_cons, ih, greedy_matches_cons]
    rcases jac_scan_spec t tokens2 st.2 tokens2 0 rfl with ⟨hnone, hnot⟩ | ⟨j, hsome, _, hmem, he⟩
    · have e : jac_step tokens2 st t = st := by
        unfold jac_step; rw [hnone]
      rw [e, if_neg hnot]
    · have e : jac_step tokens2 st t = (st.1 + 1, fun x => if x = j then true else st.2 x) := by
        unfold jac_step; rw [hsome]
      rw [e, if_pos hmem]
      simp only
      rw [he]
      omega

theorem jac_match_eq_greedy (tokens1 tokens2 : List CStr) :
    jac_match tokens1 tokens2 = greedy_matches tokens1 tokens2 := by
  unfold jac_match
  rw [jac_fold_greedy, unused_tokens_none]
  simp

theorem remove_first_coe (t : CStr) (bs : List CStr) :
    ((remove_first t bs : List CStr) : Multiset CStr) = (bs : Multiset CStr).erase t := by
  induction bs with
  | nil => simp [remove_first]
  | cons b bs ih =>
    unfold remove_first
    rw [← Multiset.cons_coe]
    by_cases h : b = t
    · subst h
      rw [if_pos rfl, Multiset.erase_cons_head]
    · rw [if_neg h, Multiset.erase_cons_tail _ h, ← ih, Multiset.cons_coe]

theorem greedy_matches_eq_card (ts : List CStr) :
    ∀ bs : List CStr,
      greedy_matches ts bs = Multiset.card ((ts : Multiset CStr) ∩ (bs : Multiset CStr)) := by
  induction ts with
  | nil => intro bs; simp [greedy_matches]
  | cons t ts ih =>
    intro bs
    rw [greedy_matches_cons, ← Multiset.cons_coe]
    by_cases h : t ∈ bs
    · have hm : t ∈ (bs : Multiset CStr) := by simpa using h
      rw [if_pos h, Multiset.cons_inter_of_pos _ hm, Multiset.card_cons, ih, remove_first_coe]
      omega
    · have hm : t ∉ (bs : Multiset CStr) := by simpa using h
      rw [if_neg h, Multiset.cons_inter_of_neg _ hm, ih]

theorem greedy_matches_comm (ts bs : List CStr) :
    greedy_matches ts bs = greedy_matches bs ts := by
  rw [greedy_matches_eq_card, greedy_matches_eq_card, Multiset.inter_comm]

/-- Claim C28: the token overlap is symmetric: for all strings `a` and `b`,
absent or not, `fossil_it_magic_jaccard_index(a, b)` equals
`fossil_it_magic_jaccard_index(b, a)`, because the greedy pass finds as many
matches as the multiset intersection of the two token lists has elements. -/
theorem jaccard_symmetric (a b : Option CStr) :
    fossil_it_magic_jaccard_index a b = fossil_it_magic_jaccard_index b a ∧
      ∀ s1 s2 : CStr, jac_match (tokenize s1) (tokenize s2) =
        Multiset.card ((tokenize s1 : Multiset CStr) ∩ (tokenize s2 : Multiset CStr)) := by
  constructor
  · cases a with
    | none => cases b <;> rfl
    | some a =>
      cases b with
      | none => rfl
      | some b =>
        unfold fossil_it_magic_jaccard_index
        simp only
        rw [jac_match_eq_greedy, jac_match_eq_greedy, greedy_matches_comm (tokenize b) (tokenize a),
          Nat.add_comm (tokenize b).length]
  · intro s1 s2
    rw [jac_match_eq_greedy, greedy_matches_eq_card]

/-! ## The tokenizer and the maximal alphanumeric runs -/

theorem alnum_runs_from_skip (p : CStr) :
    alnum_runs_from (tok_skip p) [] = alnum_runs_from p [] := by
  induction p with
  | nil => rfl
  | cons c p ih =>
    unfold tok_skip
    split
    · rfl
    · rename_i hc
      rw [ih]
      conv => rhs; unfold alnum_runs_from
      rw [if_neg hc, if_pos rfl]

theorem alnum_runs_from_head (p : CStr) :
    ∀ cur : CStr, cur ≠ [] →
      ∃ t rest, alnum_runs_from p cur = t :: rest ∧ cur.length ≤ t.length := by
  induction p with
  | nil =>
    intro cur h
    exact ⟨cur, [], by unfold alnum_runs_from; rw [if_neg h], Nat.le_refl _⟩
  | cons c p ih =>
    intro cur h
    unfold alnum_runs_from
    split
    · obtain ⟨t, rest, e, hl⟩ := ih (cur ++ [c_tolower c]) (by simp)
      exact ⟨t, rest, e, by simp at hl; omega⟩
    · exact ⟨cur, _, rfl, Nat.le_refl _⟩

/-- Reading a run that fits into the token buffer yields the first token of the
reference and leaves the rest of the string. -/
theorem alnum_runs_from_read (p : CStr) :
    ∀ (room : Nat) (tok : CStr),
      (∀ t, t ∈ alnum_runs_from p tok → t.length ≤ tok.length + room) →
      alnum_runs_from p tok =
        if (tok_read room p tok).1 = [] then alnum_runs_from (tok_read room p tok).2 []
        else (tok_read room p tok).1 :: alnum_runs_from (tok_read room p tok).2 [] := by
  induction p with
  | nil =>
    intro room tok _
    have e : tok_read room [] tok = (tok, []) := by
      cases room <;> rfl
    rw [e]
    simp only
    unfold alnum_runs_from
    split <;> simp
  | cons c p ih =>
    intro room tok h
    by_cases hc : c_isalnum c = true
    · cases room with
      | zero =>
        exfalso
        have e : alnum_runs_from (c :: p) tok = alnum_runs_from p (tok ++ [c_tolower c]) := by
          rw [alnum_runs_from, if_pos hc]
        obtain ⟨t, rest, e2, hl⟩ := alnum_runs_from_head p (tok ++ [c_tolower c]) (by simp)
        have := h t (by rw [e, e2]; exact List.mem_cons_self _ _)
        simp at hl
        omega
      | succ room =>
        have e : alnum_runs_from (c :: p) tok = alnum_runs_from p (tok ++ [c_tolower c]) := by
          rw [alnum_runs_from, if_pos hc]
        have e2 : tok_read (room + 1) (c :: p) tok = tok_read room p (tok ++ [c_tolower c]) := by
          rw [tok_read, if_pos hc]
        rw [e, e2]
        apply ih
        intro t ht
        have := h t (by rw [e]; exact ht)
        simp
        omega
    · have e2 : tok_read room (c :: p) tok = (tok, c :: p) := by
        cases room with
        | zero => rfl
        | succ room => rw [tok_read, if_neg hc]
      rw [e2]
      simp only
      have e3 : alnum_runs_from (c :: p) [] = alnum_runs_from p [] := by
        rw [alnum_runs_from, if_neg hc, if_pos rfl]
      rw [e3]
      rw [alnum_runs_from, if_neg hc]

theorem tok_loop_eq_runs (fuel : Nat) :
    ∀ (p : CStr) (tokens : List CStr), p.length ≤ fuel →
      tokens.length + (alnum_runs_from p []).length ≤ 32 →
      (∀ t, t ∈ alnum_runs_from p [] → t.length ≤ 31) →
      tok_loop fuel p tokens = tokens ++ alnum_runs_from p [] := by
  induction fuel with
  | zero =>
    intro p tokens hp _ _
    have : p = [] := List.length_eq_zero.mp (by omega)
    subst this
    simp [tok_loop, alnum_runs_from]
  | succ fuel ih =>
    intro p tokens hp hcount hlen
    unfold tok_loop
    by_cases hpe : p = []
    · subst hpe
      simp [alnum_runs_from]
    · have hread := alnum_runs_from_read (tok_skip p) 31 [] (by
        intro t ht
        rw [alnum_runs_from_skip] at ht
        have := hlen t ht
        simpa using this)
      rw [alnum_runs_from_skip] at hread
      have hcons := tok_iteration_consumes p hpe
      by_cases hfull : tokens.length < 32
      · rw [if_pos ⟨hpe, hfull⟩]
        simp only
        by_cases hr : (tok_read 31 (tok_skip p) []).1 = []
        · rw [if_pos hr] at hread
          rw [if_neg (not_not.mpr hr)]
          rw [ih _ _ (by omega) (by rw [← hread]; exact hcount)
            (by rw [← hread]; exact hlen), hread]
        · rw [if_neg hr] at hread
          rw [if_pos hr]
          have hc2 : tokens.length + 1 +
              (alnum_runs_from (tok_read 31 (tok_skip p) []).2 []).length ≤ 32 := by
            rw [hread] at hcount
            simp at hcount
            omega
          rw [ih _ _ (by omega) (by simpa using hc2)
            (by intro t ht; exact hlen t (by rw [hread]; exact List.mem_cons_of_mem _ ht)), hread]
          simp
      · have hz : alnum_runs_from p [] = [] := List.length_eq_zero.mp (by omega)
        rw [if_neg (fun h => hfull h.2), hz]
        simp

theorem tokenize_eq_runs (s : CStr) (hcount : (alnum_runs s).length ≤ 32)
    (hlen : ∀ t, t ∈ alnum_runs s → t.length ≤ 31) : tokenize s = alnum_runs s := by
  unfold tokenize
  rw [tok_loop_eq_runs s.length s [] (Nat.le_refl _) (by simpa [alnum_runs] using hcount)
    (by simpa [alnum_runs] using hlen)]
  rfl

/-- Claim C24: for two present strings that each have at most 32 alphanumeric
runs of at most 31 characters, `fossil_it_magic_jaccard_index(a, b)` is
`floor(100 * m / (ca + cb - m))`, or `0` when `ca + cb - m = 0`, where the token
lists are the lower-cased maximal runs of alphanumeric characters of `a` and of
`b` in order, `ca` and `cb` are their lengths, and `m` is the number of matches
of the greedy pass that, for each token of `a` in order, consumes the first not
yet used equal token of `b`. -/
theorem jaccard_equals_reference (a b : CStr)
    (hca : (alnum_runs a).length ≤ 32) (hla : ∀ t, t ∈ alnum_runs a → t.length ≤ 31)
    (hcb : (alnum_runs b).length ≤ 32) (hlb : ∀ t, t ∈ alnum_runs b → t.length ≤ 31) :
    fossil_it_magic_jaccard_index (some a) (some b) = jaccard_ref a b := by
  unfold fossil_it_magic_jaccard_index jaccard_ref
  simp only
  rw [tokenize_eq_runs a hca hla, tokenize_eq_runs b hcb hlb, jac_match_eq_greedy]
  by_cases h : (alnum_runs a).length + (alnum_runs b).length -
      greedy_matches (alnum_runs a) (alnum_runs b) = 0
  · rw [if_pos h, if_neg (not_not.mpr h)]
  · rw [if_neg h, if_pos h]

/-- The strings `"Hello, World"` and `"hello there"` have two short tokens each
and share the token `"hello"`. -/
theorem jaccard_equals_reference_witness :
    (alnum_runs "Hello, World".toList).length ≤ 32 ∧
      (∀ t, t ∈ alnum_runs "Hello, World".toList → t.length ≤ 31) ∧
      (alnum_runs "hello there".toList).length ≤ 32 ∧
      (∀ t, t ∈ alnum_runs "hello there".toList → t.length ≤ 31) ∧
      fossil_it_magic_jaccard_index (some "Hello, World".toList) (some "hello there".toList) =
        jaccard_ref "Hello, World".toList "hello there".toList ∧
      jaccard_ref "Hello, World".toList "hello there".toList = 33 :=
  ⟨by decide, by decide, by decide, by decide,
    jaccard_equals_reference "Hello, World".toList "hello there".toList (by decide) (by decide)
      (by decide) (by decide),
    by decide⟩

end Magic
